import Mathlib

/-!
# GoGoMyCrawler: the crawl-coordination core of `crawler.go`

A shallow embedding of `crawler.go`.  Pure helpers (`GetHTML`, `normalizeURL`,
the scope test, the check-and-mark on `visited`) are Lean functions.  The
goroutines started by `go Crawl(...)` are modelled as an interleaving
transition system: a state holds the package-level variables (`visited`,
`workerLimit`, the `WaitGroup` counter, the output file) and one program
counter per goroutine; an event is one atomic action of one goroutine together
with the answer of the collaborator involved (HTTP client, HTML parser, file
system).

How the source is read:

* in the crawl a Go `string` is a Lean `String`, that is valid UTF-8; the scope
  test itself is embedded on all Go strings, as sequences of bytes:
  `regexp.QuoteMeta` byte by byte, `regexp.MatchString` with the errors of
  `regexp.Compile` (a pattern that is not valid UTF-8, a pattern of more than
  33554432 code points) on the patterns `QuoteMeta` can produce; `net/url` is
  a parameter (`Env.urlParse`, `Env.resolve`);
* the critical section between `mu.Lock()` and `mu.Unlock()` is one action;
  the send on `workerLimit` blocks while the channel is full, the receive
  while it is empty;
* the deferred calls run in reverse order of their `defer`: first
  `<-workerLimit`, then `wg.Done()`;
* the answers of `client.Get`, `io.ReadAll`, `htmlquery.Parse` and of the two
  writes of `addJSONL` are not fixed: every answer is a possible event, except
  that `client.Get("")` cannot succeed (see `Crawl`);
* the output file is the sequence of its completed writes; each write is
  atomic and a failed write leaves the file unchanged;
* `depth + 1` is 64-bit integer addition.
-/

set_option maxRecDepth 100000

namespace Crawler

/-! ## Data -/

/-- The Go struct `Data` (one line of `output.jsonl`). -/
structure Data where
  url : String
  html : String
deriving DecidableEq, Repr

/-- One completed write on the output file: `file.Write(jsonData)` for a
marshalled record, or `file.WriteString("\n")`. -/
inductive Chunk where
  | json (record : Data)
  | newline
deriving DecidableEq, Repr

/-- Go's `int` addition on a 64-bit platform (two's complement wrap-around). -/
def addInt (a b : Int) : Int := (a + b + 2 ^ 63) % 2 ^ 64 - 2 ^ 63

/-! ## The scope test `regexp.MatchString("^" + regexp.QuoteMeta(startURL), nextURL)`

The scope test is embedded on Go strings as they are, sequences of bytes:
`regexp.Compile` reads the pattern as UTF-8 and fails on a byte that is not part
of a well-formed sequence, and the matcher reads the subject as UTF-8, taking
such a byte for U+FFFD. -/

/-- The bytes of a string as Go holds it: its UTF-8 encoding. -/
def bytes (s : String) : List UInt8 := s.toUTF8.data.toList

/-- UTF-8 on numbers: the bytes that encode the code point `n`. -/
def encNat (n : Nat) : List Nat :=
  if n ≤ 0x7f then [n]
  else if n ≤ 0x7ff then [0xC0 + n / 64, 0x80 + n % 64]
  else if n ≤ 0xffff then [0xE0 + n / 4096, 0x80 + (n / 64) % 64, 0x80 + n % 64]
  else [0xF0 + n / 262144, 0x80 + (n / 4096) % 64, 0x80 + (n / 64) % 64, 0x80 + n % 64]

/-- The bytes `regexp.QuoteMeta` escapes (`specialBytes` in `regexp`): those of
the Go string `\.+*?()|[]{}^$`. -/
def special (b : UInt8) : Bool :=
  b ∈ bytes "\\.+*?()|[]\x7b\x7d^$"

/-- Go's `regexp.QuoteMeta` on the bytes of its argument: every special byte is
preceded by a backslash (0x5C). -/
def QuoteMeta : List UInt8 → List UInt8
  | [] => []
  | b :: bs => if special b then 0x5C :: b :: QuoteMeta bs else b :: QuoteMeta bs

/-- A continuation byte of UTF-8 (`0x80 .. 0xBF`). -/
def contByte (b : UInt8) : Bool := decide (0x80 ≤ b.toNat ∧ b.toNat ≤ 0xBF)

/-- The second byte a leading byte `x` of a three- or four-byte sequence accepts
(`acceptRanges` in `unicode/utf8`): no overlong form, no surrogate, nothing
above U+10FFFF. -/
def accepts (x : Nat) (b : UInt8) : Bool :=
  decide ((if x = 0xE0 then 0xA0 else if x = 0xF0 then 0x90 else 0x80) ≤ b.toNat ∧
    b.toNat ≤ (if x = 0xED then 0x9F else if x = 0xF4 then 0x8F else 0xBF))

/-- The code points of a Go string as `utf8.DecodeRuneInString` yields them
from left to right: `some r` for a well-formed sequence encoding `r`, `none`
for a byte that starts no well-formed sequence (Go returns `RuneError` with
width 1 and goes on at the next byte). -/
def decode : List UInt8 → List (Option Nat)
  | [] => []
  | b0 :: rest =>
    if b0.toNat < 0x80 then some b0.toNat :: decode rest
    else if 0xC2 ≤ b0.toNat ∧ b0.toNat ≤ 0xDF then
      match rest with
      | b1 :: r1 =>
        if contByte b1 then some ((b0.toNat - 0xC0) * 64 + (b1.toNat - 0x80)) :: decode r1
        else none :: decode (b1 :: r1)
      | [] => [none]
    else if 0xE0 ≤ b0.toNat ∧ b0.toNat ≤ 0xEF then
      match rest with
      | b1 :: b2 :: r2 =>
        if accepts b0.toNat b1 && contByte b2 then
          some ((b0.toNat - 0xE0) * 4096 + (b1.toNat - 0x80) * 64 + (b2.toNat - 0x80)) :: decode r2
        else none :: decode (b1 :: b2 :: r2)
      | [b1] => none :: decode [b1]
      | [] => [none]
    else if 0xF0 ≤ b0.toNat ∧ b0.toNat ≤ 0xF4 then
      match rest with
      | b1 :: b2 :: b3 :: r3 =>
        if accepts b0.toNat b1 && contByte b2 && contByte b3 then
          some ((b0.toNat - 0xF0) * 262144 + (b1.toNat - 0x80) * 4096 + (b2.toNat - 0x80) * 64
            + (b3.toNat - 0x80)) :: decode r3
        else none :: decode (b1 :: b2 :: b3 :: r3)
      | [b1, b2] => none :: decode [b1, b2]
      | [b1] => none :: decode [b1]
      | [] => [none]
    else none :: decode rest

/-- `utf8.RuneError`, the code point U+FFFD. -/
def RuneError : Nat := 0xFFFD

/-- The regular expressions that can arise from `"^" + QuoteMeta(s)`: a
sequence of begin-of-text assertions and literal code points. -/
inductive Item where
  | beginText
  | lit (r : Nat)
deriving DecidableEq, Repr

/-- Code points with a meaning of their own in Go's regular-expression syntax
(other than `^` and the backslash): `$ . [ * + ? { ( ) |`.  A pattern using one
of them unescaped is outside the modelled fragment. -/
def operator (r : Nat) : Bool :=
  r ∈ [0x24, 0x2E, 0x5B, 0x2A, 0x2B, 0x3F, 0x7B, 0x28, 0x29, 0x7C]

/-- ASCII letters and digits (`isalnum` in `regexp/syntax`). -/
def isalnum (r : Nat) : Bool :=
  decide ((0x30 ≤ r ∧ r ≤ 0x39) ∨ (0x41 ≤ r ∧ r ≤ 0x5A) ∨ (0x61 ≤ r ∧ r ≤ 0x7A))

/-- An escaped code point stands for itself when it is below `utf8.RuneSelf`
and not alphanumeric (`parseEscape` in `regexp/syntax`). -/
def escapable (r : Nat) : Bool :=
  decide (r < 0x80) && !isalnum r

/-- Parser for the fragment of Go's regular-expression syntax needed here, on
the decoded pattern: `^` (0x5E), a backslash (0x5C) followed by a punctuation
character, and plain code points.  A byte that is not part of well-formed
UTF-8 is an error (`ErrInvalidUTF8`), as is anything outside the fragment. -/
def parsePattern : List (Option Nat) → Option (List Item)
  | [] => some []
  | none :: _ => none
  | some c :: cs =>
    if c = 0x5C then
      match cs with
      | some d :: ds =>
        if escapable d then (parsePattern ds).map (fun r => Item.lit d :: r) else none
      | _ => none
    else if c = 0x5E then (parsePattern cs).map (fun r => Item.beginText :: r)
    else if operator c then none
    else (parsePattern cs).map (fun r => Item.lit c :: r)

/-- The limit `maxRunes` of `regexp/syntax` on the number of code points in the
parse tree: `128 << 20 / 4`. -/
def maxRunes : Nat := 33554432

/-- The number of literal code points of a parsed pattern (`numRunes` of the
parser). -/
def numRunes : List Item → Nat
  | [] => 0
  | Item.beginText :: r => numRunes r
  | Item.lit _ :: r => numRunes r + 1

/-- Go's `regexp.Compile` on the modelled fragment: `none` stands for an error
(a pattern that does not parse, or `ErrLarge` for one with more than
`maxRunes` code points). -/
def Compile (pattern : List UInt8) : Option (List Item) :=
  match parsePattern (decode pattern) with
  | some re => if maxRunes < numRunes re then none else some re
  | none => none

/-- Does the item sequence match a prefix of `text`?  `atStart` says whether
`text` is the whole subject string (position 0).  A byte of the subject that
is not well-formed UTF-8 counts as `RuneError`. -/
def matchHere : List Item → List (Option Nat) → Bool → Bool
  | [], _, _ => true
  | Item.beginText :: r, text, atStart => atStart && matchHere r text atStart
  | Item.lit _ :: _, [], _ => false
  | Item.lit c :: r, d :: text, _ => decide (c = d.getD RuneError) && matchHere r text false

/-- Unanchored search: does the item sequence match at some position of the
subject? -/
def matchAnywhere (re : List Item) : List (Option Nat) → Bool → Bool
  | [], atStart => matchHere re [] atStart
  | d :: text, atStart => matchHere re (d :: text) atStart || matchAnywhere re text false

/-- Go's `regexp.MatchString(pattern, s)`: `some matched`, or `none` when the
pattern does not compile (Go then returns `false` and an error). -/
def MatchString (pattern s : List UInt8) : Option Bool :=
  (Compile pattern).map (fun re => matchAnywhere re (decode s) true)

/-- Lines 217-218 of `Crawl` on Go strings: `match` after
`match, _ := regexp.MatchString("^" + regexp.QuoteMeta(startURL), nextURL)`;
the error is dropped and `match` is then false. -/
def scopeTest (startURL nextURL : List UInt8) : Bool :=
  (MatchString (0x5E :: QuoteMeta startURL) nextURL).getD false

/-- The scope test of `Crawl` (lines 217-218) on well-formed strings. -/
def inScope (startURL nextURL : String) : Bool :=
  scopeTest (bytes startURL) (bytes nextURL)

/-- Go's `utf8.ValidString`: every byte belongs to a well-formed sequence. -/
def ValidString (s : List UInt8) : Bool := (decode s).all Option.isSome

/-- Go's `utf8.RuneCountInString`. -/
def RuneCountInString (s : List UInt8) : Nat := (decode s).length

/-! ## The visited set -/

/-- The critical section at the top of `Crawl` (lines 175-181) on the map
`visited`, held as the list of its keys: returns whether the caller may go on
to fetch, and the map afterwards. -/
def claim (visited : List String) (url : String) : Bool × List String :=
  if url ∈ visited then (false, visited) else (true, url :: visited)

/-- A finite sequence of claim attempts, run one after the other (the mutex
`mu` makes them atomic): the answers, in order, and the final map. -/
def claimAll (visited : List String) : List String → List Bool × List String
  | [] => ([], visited)
  | u :: us =>
      let r := claim visited u
      let rest := claimAll r.2 us
      (r.1 :: rest.1, rest.2)

/-! ## Collaborators -/

/-- What the HTTP client can answer inside `GetHTML`: `client.Get(url)` fails,
`io.ReadAll(res.Body)` fails, or the body is read. -/
inductive HttpReply where
  | getError
  | readError
  | body (b : String)
deriving DecidableEq, Repr

/-- The function `GetHTML` (lines 57-76): `none` is the error result. -/
def GetHTML : HttpReply → Option String
  | HttpReply.getError => none
  | HttpReply.readError => none
  | HttpReply.body b => some b

/-- What `Crawl` uses of a parsed document: `htmlquery.OutputHTML(doc, true)`
and the `InnerText` of the nodes of `htmlquery.Find(doc, "//a/@href")`, in
order. -/
structure Doc where
  htmlText : String
  hrefs : List String
deriving DecidableEq, Repr

/-- The command-line arguments and the library pieces `crawler.go` relies on.
`workers` is the capacity of the channel `workerLimit`; `urlParse` is
`url.Parse` (`none` is its error) and `resolve base ref` is
`base.ResolveReference(ref).String()`. -/
structure Env (U : Type) where
  startURL : String
  maxDepth : Int
  workers : Nat
  urlParse : String → Option U
  resolve : U → U → String

/-- The function `normalizeURL` (lines 142-159). -/
def normalizeURL {U : Type} (env : Env U) (baseURL href : String) : String :=
  match env.urlParse baseURL with
  | none => ""
  | some base =>
    match env.urlParse href with
    | none => ""
    | some ref => env.resolve base ref

/-! ## Goroutines -/

/-- The `return` a `Crawl` goroutine left through: line 171, 178, 187, 194, or
the end of the function body. -/
inductive Exit where
  | depthLimit
  | duplicate
  | fetchFailed
  | parseFailed
  | finished
deriving DecidableEq, Repr

/-- Program counter of one `Crawl` goroutine. -/
inductive PC where
  /-- started by `go Crawl(...)`, not yet past `workerLimit <- struct{}{}` (line 166) -/
  | spawned
  /-- permit taken, release deferred; next is the depth test (line 170) -/
  | acquired
  /-- next is the critical section on `visited` (lines 175-181) -/
  | depthOk
  /-- `url` marked visited; `GetHTML(url)` running (line 184) -/
  | fetching
  /-- next is `htmlquery.Parse` (line 191) -/
  | parsing (html : String)
  /-- inside `addJSONL`, next is `file.Write(jsonData)` (line 129) -/
  | writing (htmlText : String) (hrefs : List String)
  /-- inside `addJSONL`, next is `file.WriteString("\n")` (line 134) -/
  | newline (hrefs : List String)
  /-- head of the loop over the links still to process (line 210) -/
  | expanding (hrefs : List String)
  /-- in `time.Sleep` before spawning `nextURL` (line 224) -/
  | sleeping (nextURL : String) (hrefs : List String)
  /-- body left; the deferred `<-workerLimit` (line 167) is next -/
  | returning (e : Exit)
  /-- permit given back; the deferred `wg.Done()` (line 163) is next -/
  | released (e : Exit)
  /-- goroutine finished -/
  | done (e : Exit)
deriving DecidableEq, Repr

/-- One `Crawl` goroutine: its arguments `url` and `depth`, and where it is. -/
structure Task where
  url : String
  depth : Int
  pc : PC
deriving DecidableEq, Repr

/-- The shared state of a run. -/
structure State where
  /-- keys of the map `visited` -/
  visited : List String
  /-- `len(workerLimit)`: permits currently held -/
  permits : Nat
  /-- counter of the `sync.WaitGroup` -/
  wg : Int
  /-- content of `output.jsonl` as the sequence of completed writes -/
  file : List Chunk
  /-- every goroutine started so far, in spawn order -/
  tasks : List Task
  /-- `wg.Wait()` in `main` has returned -/
  waited : Bool
deriving DecidableEq, Repr

/-- One atomic action of a `Crawl` goroutine, with the collaborator's answer. -/
inductive Action where
  | acquire
  | checkDepth
  | claim
  | fetch (r : HttpReply)
  | parse (r : Option Doc)
  | writeJSON (ok : Bool)
  | writeNewline (ok : Bool)
  | link
  | spawn
  | finish
  | release
  | wgDone
deriving DecidableEq, Repr

/-- A scheduling step: goroutine number `i` does `a`, or `wg.Wait()` in `main`
returns. -/
inductive Event where
  | task (i : Nat) (a : Action)
  | wait
deriving DecidableEq, Repr

/-- Effect of one action: the goroutine's new program counter, the shared
variables afterwards, and the goroutine started, if any. -/
structure Outcome where
  pc : PC
  visited : List String
  permits : Nat
  wg : Int
  file : List Chunk
  child : Option Task

/-- An action that only moves the program counter. -/
def goto (s : State) (pc : PC) : Outcome :=
  { pc := pc, visited := s.visited, permits := s.permits, wg := s.wg, file := s.file,
    child := none }

/-- The function `addJSONL` (lines 121-139) when nothing else touches the file
during the call.  `okJSON` and `okNewline` say whether `file.Write(jsonData)`
and `file.WriteString("\n")` succeed; the result is the file afterwards and
whether an error is returned.  `json.Marshal` does not fail on a `Data`; a
write that fails is taken to leave the file as it was. -/
def addJSONL (record : Data) (file : List Chunk) (okJSON okNewline : Bool) :
    List Chunk × Bool :=
  if okJSON then
    if okNewline then (file ++ [Chunk.json record] ++ [Chunk.newline], false)
    else (file ++ [Chunk.json record], true)
  else (file, true)

/-- The body of `Crawl` (lines 162-232), one atomic action at a time.  `none`
means the action is not the goroutine's next one, or it blocks.  The call of
`addJSONL` is two actions, one per write on the file, since other goroutines
can run between them; each write is atomic, and one that fails leaves the file
as it was.  The answer of the HTTP client is left open, except that no body
comes back for the empty URL: `client.Get("")` returns an error without
sending a request, the URL having no scheme. -/
def Crawl {U : Type} (env : Env U) (s : State) (t : Task) : Action → Option Outcome
  | Action.acquire =>
    match t.pc with
    | PC.spawned =>
      if s.permits < env.workers then
        some { goto s PC.acquired with permits := s.permits + 1 }
      else none
    | _ => none
  | Action.checkDepth =>
    match t.pc with
    | PC.acquired =>
      some (goto s (if t.depth > env.maxDepth then PC.returning Exit.depthLimit else PC.depthOk))
    | _ => none
  | Action.claim =>
    match t.pc with
    | PC.depthOk =>
      some { goto s (if (claim s.visited t.url).1 then PC.fetching
                     else PC.returning Exit.duplicate) with
             visited := (claim s.visited t.url).2 }
    | _ => none
  | Action.fetch r =>
    match t.pc with
    | PC.fetching =>
      match GetHTML r with
      | some html => if t.url = "" then none else some (goto s (PC.parsing html))
      | none => some (goto s (PC.returning Exit.fetchFailed))
    | _ => none
  | Action.parse r =>
    match t.pc with
    | PC.parsing _ =>
      match r with
      | some doc => some (goto s (PC.writing doc.htmlText doc.hrefs))
      | none => some (goto s (PC.returning Exit.parseFailed))
    | _ => none
  | Action.writeJSON ok =>
    match t.pc with
    | PC.writing htmlText hrefs =>
      if ok then
        some { goto s (PC.newline hrefs) with
               file := s.file ++ [Chunk.json { url := t.url, html := htmlText }] }
      else some (goto s (PC.expanding hrefs))
    | _ => none
  | Action.writeNewline ok =>
    match t.pc with
    | PC.newline hrefs =>
      some { goto s (PC.expanding hrefs) with
             file := if ok then s.file ++ [Chunk.newline] else s.file }
    | _ => none
  | Action.link =>
    match t.pc with
    | PC.expanding (href :: rest) =>
      some (goto s (if inScope env.startURL (normalizeURL env t.url href)
                    then PC.sleeping (normalizeURL env t.url href) rest
                    else PC.expanding rest))
    | _ => none
  | Action.spawn =>
    match t.pc with
    | PC.sleeping nextURL rest =>
      some { goto s (PC.expanding rest) with
             wg := s.wg + 1
             child := some { url := nextURL, depth := addInt t.depth 1, pc := PC.spawned } }
    | _ => none
  | Action.finish =>
    match t.pc with
    | PC.expanding [] => some (goto s (PC.returning Exit.finished))
    | _ => none
  | Action.release =>
    match t.pc with
    | PC.returning e =>
      if 0 < s.permits then some { goto s (PC.released e) with permits := s.permits - 1 }
      else none
    | _ => none
  | Action.wgDone =>
    match t.pc with
    | PC.released e => some { goto s (PC.done e) with wg := s.wg - 1 }
    | _ => none

/-- The state after goroutine `i` (currently `t`) has done an action with
outcome `o`. -/
def apply (s : State) (i : Nat) (t : Task) (o : Outcome) : State :=
  { visited := o.visited, permits := o.permits, wg := o.wg, file := o.file,
    tasks := s.tasks.set i { t with pc := o.pc } ++ o.child.toList,
    waited := s.waited }

/-- One step of the whole program. -/
def step {U : Type} (env : Env U) (s : State) : Event → Option State
  | Event.task i a =>
    match s.tasks[i]? with
    | none => none
    | some t => (Crawl env s t a).map (apply s i t)
  | Event.wait =>
    if s.wg = 0 ∧ s.waited = false then some { s with waited := true } else none

/-- The state in which `main` has executed `wg.Add(1)` and
`go Crawl(startURL, 0, outputFile, &wg)` (lines 245-248). -/
def init {U : Type} (env : Env U) : State :=
  { visited := [], permits := 0, wg := 1, file := [],
    tasks := [{ url := env.startURL, depth := 0, pc := PC.spawned }], waited := false }

/-- Run a schedule from a state; `none` if some event is not enabled. -/
def run {U : Type} (env : Env U) (s : State) : List Event → Option State
  | [] => some s
  | e :: es =>
    match step env s e with
    | some s2 => run env s2 es
    | none => none

/-- The transition relation of `Crawl`, one rule per branch of the body. -/
inductive Trans {U : Type} (env : Env U) (s : State) (t : Task) : Action → Outcome → Prop
  | acquire : t.pc = PC.spawned → s.permits < env.workers →
      Trans env s t Action.acquire { goto s PC.acquired with permits := s.permits + 1 }
  | tooDeep : t.pc = PC.acquired → t.depth > env.maxDepth →
      Trans env s t Action.checkDepth (goto s (PC.returning Exit.depthLimit))
  | depthOk : t.pc = PC.acquired → ¬ t.depth > env.maxDepth →
      Trans env s t Action.checkDepth (goto s PC.depthOk)
  | claimed : t.pc = PC.depthOk → t.url ∉ s.visited →
      Trans env s t Action.claim { goto s PC.fetching with visited := t.url :: s.visited }
  | duplicate : t.pc = PC.depthOk → t.url ∈ s.visited →
      Trans env s t Action.claim (goto s (PC.returning Exit.duplicate))
  | fetched (r : HttpReply) (html : String) : t.pc = PC.fetching → GetHTML r = some html →
      t.url ≠ "" → Trans env s t (Action.fetch r) (goto s (PC.parsing html))
  | fetchFailed (r : HttpReply) : t.pc = PC.fetching → GetHTML r = none →
      Trans env s t (Action.fetch r) (goto s (PC.returning Exit.fetchFailed))
  | parsed (html : String) (doc : Doc) : t.pc = PC.parsing html →
      Trans env s t (Action.parse (some doc)) (goto s (PC.writing doc.htmlText doc.hrefs))
  | parseFailed (html : String) : t.pc = PC.parsing html →
      Trans env s t (Action.parse none) (goto s (PC.returning Exit.parseFailed))
  | wroteJSON (htmlText : String) (hrefs : List String) : t.pc = PC.writing htmlText hrefs →
      Trans env s t (Action.writeJSON true)
        { goto s (PC.newline hrefs) with
          file := s.file ++ [Chunk.json { url := t.url, html := htmlText }] }
  | writeFailed (htmlText : String) (hrefs : List String) : t.pc = PC.writing htmlText hrefs →
      Trans env s t (Action.writeJSON false) (goto s (PC.expanding hrefs))
  | wroteNewline (hrefs : List String) : t.pc = PC.newline hrefs →
      Trans env s t (Action.writeNewline true)
        { goto s (PC.expanding hrefs) with file := s.file ++ [Chunk.newline] }
  | newlineFailed (hrefs : List String) : t.pc = PC.newline hrefs →
      Trans env s t (Action.writeNewline false) (goto s (PC.expanding hrefs))
  | follow (href : String) (rest : List String) : t.pc = PC.expanding (href :: rest) →
      inScope env.startURL (normalizeURL env t.url href) = true →
      Trans env s t Action.link (goto s (PC.sleeping (normalizeURL env t.url href) rest))
  | skip (href : String) (rest : List String) : t.pc = PC.expanding (href :: rest) →
      inScope env.startURL (normalizeURL env t.url href) = false →
      Trans env s t Action.link (goto s (PC.expanding rest))
  | spawn (nextURL : String) (rest : List String) : t.pc = PC.sleeping nextURL rest →
      Trans env s t Action.spawn
        { goto s (PC.expanding rest) with
          wg := s.wg + 1
          child := some { url := nextURL, depth := addInt t.depth 1, pc := PC.spawned } }
  | finish : t.pc = PC.expanding [] →
      Trans env s t Action.finish (goto s (PC.returning Exit.finished))
  | release (e : Exit) : t.pc = PC.returning e → 0 < s.permits →
      Trans env s t Action.release { goto s (PC.released e) with permits := s.permits - 1 }
  | wgDone (e : Exit) : t.pc = PC.released e →
      Trans env s t Action.wgDone { goto s (PC.done e) with wg := s.wg - 1 }


/-! ## Where a goroutine is: classes of program counters -/

/-- The capacity of `workerLimit` in the source: `make(chan struct{}, 10)`. -/
def workerLimit : Nat := 10

/-- Truth value as a number. -/
def b2n (b : Bool) : Nat := if b then 1 else 0

/-- Between `workerLimit <- struct{}{}` and the deferred `<-workerLimit`. -/
def holds : PC → Bool
  | PC.spawned => false
  | PC.released _ => false
  | PC.done _ => false
  | _ => true

/-- Not yet past the deferred `wg.Done()`. -/
def live : PC → Bool
  | PC.done _ => false
  | _ => true

/-- Past `workerLimit <- struct{}{}`. -/
def didAcquire : PC → Bool
  | PC.spawned => false
  | _ => true

/-- Past the deferred `<-workerLimit`. -/
def didRelease : PC → Bool
  | PC.released _ => true
  | PC.done _ => true
  | _ => false

/-- The exits taken after the goroutine marked its URL visited. -/
def Exit.afterClaim : Exit → Bool
  | Exit.depthLimit => false
  | Exit.duplicate => false
  | _ => true

/-- Past the depth test with `depth <= maxDepth`. -/
def checked : PC → Bool
  | PC.spawned => false
  | PC.acquired => false
  | PC.returning e => decide (e ≠ Exit.depthLimit)
  | PC.released e => decide (e ≠ Exit.depthLimit)
  | PC.done e => decide (e ≠ Exit.depthLimit)
  | _ => true

/-- The goroutine found its URL unvisited and marked it: it is the one task
that fetches this URL. -/
def claimed : PC → Bool
  | PC.spawned => false
  | PC.acquired => false
  | PC.depthOk => false
  | PC.returning e => e.afterClaim
  | PC.released e => e.afterClaim
  | PC.done e => e.afterClaim
  | _ => true

/-- `GetHTML` has returned, with or without an error. -/
def didFetch : PC → Bool
  | PC.fetching => false
  | pc => claimed pc

/-- `GetHTML` has returned without an error. -/
def fetched : PC → Bool
  | PC.fetching => false
  | PC.returning e => decide (e = Exit.parseFailed ∨ e = Exit.finished)
  | PC.released e => decide (e = Exit.parseFailed ∨ e = Exit.finished)
  | PC.done e => decide (e = Exit.parseFailed ∨ e = Exit.finished)
  | pc => claimed pc

/-- `htmlquery.Parse` has returned without an error. -/
def parsed : PC → Bool
  | PC.writing _ _ => true
  | PC.newline _ => true
  | PC.expanding _ => true
  | PC.sleeping _ _ => true
  | PC.returning e => decide (e = Exit.finished)
  | PC.released e => decide (e = Exit.finished)
  | PC.done e => decide (e = Exit.finished)
  | _ => false

/-- `file.Write(jsonData)` has returned, with or without an error. -/
def wrote : PC → Bool
  | PC.writing _ _ => false
  | pc => parsed pc

/-- The records (JSON objects) in the output file, in order. -/
def records (file : List Chunk) : List Data :=
  file.filterMap (fun c => match c with
    | Chunk.json d => some d
    | Chunk.newline => none)

/-- JSON-Lines shape: every record is directly followed by one newline, and
there is nothing else. -/
def wellFormed : List Chunk → Bool
  | [] => true
  | Chunk.json _ :: Chunk.newline :: rest => wellFormed rest
  | _ => false

/-- The event is action `a` of goroutine `i` for an `a` of kind `E`. -/
def Event.isBy (E : Action → Bool) (i : Nat) : Event → Bool
  | Event.task j a => decide (j = i) && E a
  | Event.wait => false

/-- The send `workerLimit <- struct{}{}`. -/
def Action.isAcquire : Action → Bool
  | Action.acquire => true
  | _ => false

/-- The deferred `<-workerLimit`. -/
def Action.isRelease : Action → Bool
  | Action.release => true
  | _ => false

/-- A return of `GetHTML`. -/
def Action.isFetch : Action → Bool
  | Action.fetch _ => true
  | _ => false

/-- A return of `GetHTML` without an error. -/
def Action.isFetchOk : Action → Bool
  | Action.fetch r => (GetHTML r).isSome
  | _ => false

/-- A return of `file.Write(jsonData)`. -/
def Action.isWrite : Action → Bool
  | Action.writeJSON _ => true
  | _ => false

/-- A `go Crawl(nextURL, depth+1, file, wg)`. -/
def Action.isSpawn : Action → Bool
  | Action.spawn => true
  | _ => false

/-- Stage of the body of `Crawl` a goroutine is in. -/
def rank : PC → Nat
  | PC.spawned => 0
  | PC.acquired => 1
  | PC.depthOk => 2
  | PC.fetching => 3
  | PC.parsing _ => 4
  | PC.writing _ _ => 5
  | PC.newline _ => 6
  | PC.expanding _ => 7
  | PC.sleeping _ _ => 7
  | PC.returning _ => 8
  | PC.released _ => 9
  | PC.done _ => 10

/-- Work left in the loop over the links. -/
def loopSize : PC → Nat
  | PC.expanding hrefs => 2 * hrefs.length
  | PC.sleeping _ hrefs => 2 * hrefs.length + 1
  | _ => 0

/-- A schedule `tr` leads from the initial state to `s`. -/
def Reach {U : Type} (env : Env U) (tr : List Event) (s : State) : Prop :=
  run env (init env) tr = some s

/-- A return of `GetHTML` with an error. -/
def Action.isFetchFail : Action → Bool
  | Action.fetch r => (GetHTML r).isNone
  | _ => false

/-- The goroutine left through the `return` after a failed `GetHTML` (line 187). -/
def failedFetch : PC → Bool
  | PC.returning e => decide (e = Exit.fetchFailed)
  | PC.released e => decide (e = Exit.fetchFailed)
  | PC.done e => decide (e = Exit.fetchFailed)
  | _ => false

/-! ## Concrete runs

A stand-in for `net/url` that is right on the inputs used below: `url.Parse`
rejects the malformed escape `%zz`, and resolving an absolute reference against
any base gives the reference itself.  Page bodies are abbreviated to a tag such
as `<seed>`; the answer of the parser lists the links the page is taken to
contain. -/

/-- A crawl of `https://a.test/x` to depth 1 with the worker pool of the source. -/
def demoEnv : Env String :=
  { startURL := "https://a.test/x", maxDepth := 1, workers := workerLimit,
    urlParse := fun s => if s = "%zz" then none else some s,
    resolve := fun _ ref => ref }

/-- The same crawl started with `-startURL ""`. -/
def emptySeedEnv : Env String := { demoEnv with startURL := "" }

/-- The same crawl with `-maxDepth 0`. -/
def shallowEnv : Env String := { demoEnv with maxDepth := 0 }

/-- Goroutine `i` runs from its start to the return of `GetHTML` with `body`. -/
def fetchPage (i : Nat) (body : String) : List Event :=
  [Event.task i Action.acquire, Event.task i Action.checkDepth, Event.task i Action.claim,
   Event.task i (Action.fetch (HttpReply.body body))]

/-- Goroutine `i` parses its page and appends its record, both writes succeeding. -/
def storePage (i : Nat) (doc : Doc) : List Event :=
  [Event.task i (Action.parse (some doc)), Event.task i (Action.writeJSON true),
   Event.task i (Action.writeNewline true)]

/-- Goroutine `i` runs its two deferred calls. -/
def leave (i : Nat) : List Event :=
  [Event.task i Action.release, Event.task i Action.wgDone]

/-- The seed page links to two pages under the seed and to one elsewhere; the
seed goroutine runs to its end, then the two children run one after the other,
and `wg.Wait()` returns. -/
def demoTrace : List Event :=
  fetchPage 0 "<seed>" ++
  storePage 0 { htmlText := "<seed>",
                hrefs := ["https://a.test/x/1", "https://b.test/", "https://a.test/x/2"] } ++
  [Event.task 0 Action.link, Event.task 0 Action.spawn, Event.task 0 Action.link,
   Event.task 0 Action.link, Event.task 0 Action.spawn, Event.task 0 Action.finish] ++
  leave 0 ++
  fetchPage 1 "<one>" ++ storePage 1 { htmlText := "<one>", hrefs := [] } ++
  [Event.task 1 Action.finish] ++ leave 1 ++
  fetchPage 2 "<two>" ++ storePage 2 { htmlText := "<two>", hrefs := [] } ++
  [Event.task 2 Action.finish] ++ leave 2 ++
  [Event.wait]

/-- The state `demoTrace` ends in. -/
def demoFinal : State :=
  { visited := ["https://a.test/x/2", "https://a.test/x/1", "https://a.test/x"],
    permits := 0, wg := 0,
    file := [Chunk.json { url := "https://a.test/x", html := "<seed>" }, Chunk.newline,
             Chunk.json { url := "https://a.test/x/1", html := "<one>" }, Chunk.newline,
             Chunk.json { url := "https://a.test/x/2", html := "<two>" }, Chunk.newline],
    tasks := [{ url := "https://a.test/x", depth := 0, pc := PC.done Exit.finished },
              { url := "https://a.test/x/1", depth := 1, pc := PC.done Exit.finished },
              { url := "https://a.test/x/2", depth := 1, pc := PC.done Exit.finished }],
    waited := true }

/-- The seed goroutine of `demoEnv` fetches a page with two links, the first one
malformed, and writes its record. -/
def loopTrace : List Event :=
  fetchPage 0 "<seed>" ++
  storePage 0 { htmlText := "<seed>", hrefs := ["%zz", "https://a.test/x/1"] }

/-- The state `loopTrace` ends in: the seed goroutine at the head of the loop
over the two links. -/
def loopState : State :=
  { visited := ["https://a.test/x"], permits := 1, wg := 1,
    file := [Chunk.json { url := "https://a.test/x", html := "<seed>" }, Chunk.newline],
    tasks := [{ url := "https://a.test/x", depth := 0,
                pc := PC.expanding ["%zz", "https://a.test/x/1"] }],
    waited := false }

/-- With `-maxDepth 0`: the seed page links to a page under the seed; the child
is started and returns at the depth test; then `wg.Wait()` returns. -/
def shallowTrace : List Event :=
  fetchPage 0 "<seed>" ++
  storePage 0 { htmlText := "<seed>", hrefs := ["https://a.test/x/1"] } ++
  [Event.task 0 Action.link, Event.task 0 Action.spawn, Event.task 0 Action.finish] ++
  leave 0 ++
  [Event.task 1 Action.acquire, Event.task 1 Action.checkDepth] ++ leave 1 ++
  [Event.wait]

/-- The state `shallowTrace` ends in. -/
def shallowFinal : State :=
  { visited := ["https://a.test/x"], permits := 0, wg := 0,
    file := [Chunk.json { url := "https://a.test/x", html := "<seed>" }, Chunk.newline],
    tasks := [{ url := "https://a.test/x", depth := 0, pc := PC.done Exit.finished },
              { url := "https://a.test/x/1", depth := 1, pc := PC.done Exit.depthLimit }],
    waited := true }

/-- The seed page links twice to the same page; the first child's fetch fails
and it returns; the second child has reached the critical section. -/
def failTrace : List Event :=
  fetchPage 0 "<seed>" ++
  storePage 0 { htmlText := "<seed>", hrefs := ["https://a.test/x/1", "https://a.test/x/1"] } ++
  [Event.task 0 Action.link, Event.task 0 Action.spawn, Event.task 0 Action.link,
   Event.task 0 Action.spawn, Event.task 0 Action.finish] ++
  leave 0 ++
  [Event.task 1 Action.acquire, Event.task 1 Action.checkDepth, Event.task 1 Action.claim,
   Event.task 1 (Action.fetch HttpReply.getError)] ++
  leave 1 ++
  [Event.task 2 Action.acquire, Event.task 2 Action.checkDepth]

/-- The state `failTrace` ends in. -/
def failState : State :=
  { visited := ["https://a.test/x/1", "https://a.test/x"],
    permits := 1, wg := 1,
    file := [Chunk.json { url := "https://a.test/x", html := "<seed>" }, Chunk.newline],
    tasks := [{ url := "https://a.test/x", depth := 0, pc := PC.done Exit.finished },
              { url := "https://a.test/x/1", depth := 1, pc := PC.done Exit.fetchFailed },
              { url := "https://a.test/x/1", depth := 1, pc := PC.depthOk }],
    waited := false }

/-- The seed goroutine alone, up to the sleep before its first child: it has
fetched, parsed, written its record and tested its first link. -/
def busyTrace : List Event :=
  fetchPage 0 "<seed>" ++
  storePage 0 { htmlText := "<seed>", hrefs := ["https://a.test/x/1"] } ++
  [Event.task 0 Action.link]

/-- The state `busyTrace` ends in. -/
def busyState : State :=
  { visited := ["https://a.test/x"], permits := 1, wg := 1,
    file := [Chunk.json { url := "https://a.test/x", html := "<seed>" }, Chunk.newline],
    tasks := [{ url := "https://a.test/x", depth := 0,
                pc := PC.sleeping "https://a.test/x/1" [] }],
    waited := false }

/-- The seed page links to two pages; both children fetch and parse, and their
two calls of `addJSONL` overlap: first both `file.Write(jsonData)`, then both
`file.WriteString("\n")`. -/
def raceTrace : List Event :=
  fetchPage 0 "<seed>" ++
  storePage 0 { htmlText := "<seed>", hrefs := ["https://a.test/x/1", "https://a.test/x/2"] } ++
  [Event.task 0 Action.link, Event.task 0 Action.spawn, Event.task 0 Action.link,
   Event.task 0 Action.spawn, Event.task 0 Action.finish] ++
  leave 0 ++
  fetchPage 1 "<one>" ++ fetchPage 2 "<two>" ++
  [Event.task 1 (Action.parse (some { htmlText := "<one>", hrefs := [] })),
   Event.task 2 (Action.parse (some { htmlText := "<two>", hrefs := [] })),
   Event.task 1 (Action.writeJSON true), Event.task 2 (Action.writeJSON true),
   Event.task 1 (Action.writeNewline true), Event.task 2 (Action.writeNewline true),
   Event.task 1 Action.finish, Event.task 2 Action.finish] ++
  leave 1 ++ leave 2 ++ [Event.wait]

/-- The state `raceTrace` ends in. -/
def raceState : State :=
  { visited := ["https://a.test/x/2", "https://a.test/x/1", "https://a.test/x"],
    permits := 0, wg := 0,
    file := [Chunk.json { url := "https://a.test/x", html := "<seed>" }, Chunk.newline,
             Chunk.json { url := "https://a.test/x/1", html := "<one>" },
             Chunk.json { url := "https://a.test/x/2", html := "<two>" },
             Chunk.newline, Chunk.newline],
    tasks := [{ url := "https://a.test/x", depth := 0, pc := PC.done Exit.finished },
              { url := "https://a.test/x/1", depth := 1, pc := PC.done Exit.finished },
              { url := "https://a.test/x/2", depth := 1, pc := PC.done Exit.finished }],
    waited := true }

/-- The links of a page that pass the scope test, normalized against the
page's URL, in page order. -/
def inScopeLinks {U : Type} (env : Env U) (url : String) (hrefs : List String) : List String :=
  (hrefs.map (normalizeURL env url)).filter (inScope env.startURL)

/-- The events of a run in which no fetch, no parse and no write of a record
fails, the page at the seed URL has the in-scope links `L`, and the page at a
URL of `L` has no in-scope link.  The links of the page parsed by goroutine `i`
are resolved against that page's own URL, the URL of goroutine `i` in `tasks`
(the goroutines of the state the run ends in). -/
def smooth {U : Type} (env : Env U) (L : List String) (tasks : List Task) : Event → Bool
  | Event.task _ (Action.fetch r) => (GetHTML r).isSome
  | Event.task i (Action.parse r) =>
    match r, tasks[i]? with
    | some doc, some t =>
      if t.url = env.startURL then decide (inScopeLinks env t.url doc.hrefs = L)
      else if t.url ∈ L then decide (inScopeLinks env t.url doc.hrefs = [])
      else true
    | _, _ => false
  | Event.task _ (Action.writeJSON ok) => ok
  | _ => true

/-- Where the seed goroutine can be in a smooth run with `n` goroutines
started so far: the links it still has to spawn are the rest of `L`. -/
def SeedOk {U : Type} (env : Env U) (L : List String) (n : Nat) : PC → Prop
  | PC.writing _ hrefs => inScopeLinks env env.startURL hrefs = L.drop (n - 1)
  | PC.newline hrefs => inScopeLinks env env.startURL hrefs = L.drop (n - 1)
  | PC.expanding hrefs => inScopeLinks env env.startURL hrefs = L.drop (n - 1)
  | PC.sleeping next hrefs => next :: inScopeLinks env env.startURL hrefs = L.drop (n - 1)
  | PC.returning e => e = Exit.finished ∧ n = L.length + 1
  | PC.released e => e = Exit.finished ∧ n = L.length + 1
  | PC.done e => e = Exit.finished ∧ n = L.length + 1
  | _ => n = 1

/-- Where a child goroutine for `url` can be in a smooth run: its page has no
in-scope link, so it never sleeps, and it leaves through the end of `Crawl`. -/
def KidOk {U : Type} (env : Env U) (url : String) : PC → Prop
  | PC.writing _ hrefs => inScopeLinks env url hrefs = []
  | PC.newline hrefs => inScopeLinks env url hrefs = []
  | PC.expanding hrefs => inScopeLinks env url hrefs = []
  | PC.sleeping _ _ => False
  | PC.returning e => e = Exit.finished
  | PC.released e => e = Exit.finished
  | PC.done e => e = Exit.finished
  | _ => True

/-- The shape of every state of a smooth run of depth 1: goroutine 0 crawls the
seed, goroutine `i + 1` crawls the `i`-th link of `L`, and every goroutine past
its write has its record in the file. -/
structure Tidy {U : Type} (env : Env U) (L : List String) (s : State) : Prop where
  /-- the seed goroutine exists -/
  nonempty : 0 < s.tasks.length
  /-- goroutine `i` crawls entry `i` of the seed followed by `L` -/
  urls : ∀ (i : Nat) (t : Task), s.tasks[i]? = some t → (env.startURL :: L)[i]? = some t.url
  /-- the seed goroutine -/
  seed : ∀ (t : Task), s.tasks[0]? = some t → t.depth = 0 ∧ SeedOk env L s.tasks.length t.pc
  /-- the children -/
  kids : ∀ (i : Nat) (t : Task), s.tasks[i + 1]? = some t → t.depth = 1 ∧ KidOk env t.url t.pc
  /-- written means in the file -/
  recs : ∀ (i : Nat) (t : Task), s.tasks[i]? = some t → wrote t.pc = true →
    ∃ d, Chunk.json d ∈ s.file ∧ d.url = t.url

/-- Goroutine `i` crawls a page without links from start to finish. -/
def crawlLeaf (i : Nat) (body : String) : List Event :=
  fetchPage i body ++ storePage i { htmlText := body, hrefs := [] } ++
  [Event.task i Action.finish] ++ leave i

/-- Five distinct links under the seed of `demoEnv`. -/
def fiveLinks : List String :=
  ["https://a.test/x/1", "https://a.test/x/2", "https://a.test/x/3", "https://a.test/x/4",
   "https://a.test/x/5"]

/-- The seed goroutine crawls a page whose links are all in scope and starts a
child for each. -/
def seedOf (links : List String) : List Event :=
  fetchPage 0 "<seed>" ++ storePage 0 { htmlText := "<seed>", hrefs := links } ++
  links.flatMap (fun _ => [Event.task 0 Action.link, Event.task 0 Action.spawn]) ++
  [Event.task 0 Action.finish] ++ leave 0

/-- The seed goroutine crawls a page with the five links and starts a child
for each. -/
def seedOfFive : List Event := seedOf fiveLinks

/-- The five children crawl pages without links; then `wg.Wait()` returns. -/
def fiveTrace : List Event :=
  seedOfFive ++ crawlLeaf 1 "<1>" ++ crawlLeaf 2 "<2>" ++ crawlLeaf 3 "<3>" ++
  crawlLeaf 4 "<4>" ++ crawlLeaf 5 "<5>" ++ [Event.wait]

/-- The state `fiveTrace` ends in. -/
def fiveFinal : State :=
  { visited := ["https://a.test/x/5", "https://a.test/x/4", "https://a.test/x/3",
                "https://a.test/x/2", "https://a.test/x/1", "https://a.test/x"],
    permits := 0, wg := 0,
    file := [Chunk.json { url := "https://a.test/x", html := "<seed>" }, Chunk.newline,
             Chunk.json { url := "https://a.test/x/1", html := "<1>" }, Chunk.newline,
             Chunk.json { url := "https://a.test/x/2", html := "<2>" }, Chunk.newline,
             Chunk.json { url := "https://a.test/x/3", html := "<3>" }, Chunk.newline,
             Chunk.json { url := "https://a.test/x/4", html := "<4>" }, Chunk.newline,
             Chunk.json { url := "https://a.test/x/5", html := "<5>" }, Chunk.newline],
    tasks := [{ url := "https://a.test/x", depth := 0, pc := PC.done Exit.finished },
              { url := "https://a.test/x/1", depth := 1, pc := PC.done Exit.finished },
              { url := "https://a.test/x/2", depth := 1, pc := PC.done Exit.finished },
              { url := "https://a.test/x/3", depth := 1, pc := PC.done Exit.finished },
              { url := "https://a.test/x/4", depth := 1, pc := PC.done Exit.finished },
              { url := "https://a.test/x/5", depth := 1, pc := PC.done Exit.finished }],
    waited := true }

/-- As `fiveTrace`, all five fetches succeeding, but the page of the first
child links back to the seed, `htmlquery.Parse` fails on the page of the
second, and `file.Write(jsonData)` fails for the third.  The back link is in
scope, so the first child starts a goroutine at depth 2, which returns at the
depth test. -/
def backLinkTrace : List Event :=
  seedOfFive ++
  fetchPage 1 "<1>" ++ storePage 1 { htmlText := "<1>", hrefs := ["https://a.test/x"] } ++
  [Event.task 1 Action.link, Event.task 1 Action.spawn, Event.task 1 Action.finish] ++
  leave 1 ++
  fetchPage 2 "<2>" ++ [Event.task 2 (Action.parse none)] ++ leave 2 ++
  fetchPage 3 "<3>" ++
  [Event.task 3 (Action.parse (some { htmlText := "<3>", hrefs := [] })),
   Event.task 3 (Action.writeJSON false), Event.task 3 Action.finish] ++
  leave 3 ++
  crawlLeaf 4 "<4>" ++ crawlLeaf 5 "<5>" ++
  [Event.task 6 Action.acquire, Event.task 6 Action.checkDepth] ++ leave 6 ++
  [Event.wait]

/-- The state `backLinkTrace` ends in. -/
def backLinkFinal : State :=
  { visited := ["https://a.test/x/5", "https://a.test/x/4", "https://a.test/x/3",
                "https://a.test/x/2", "https://a.test/x/1", "https://a.test/x"],
    permits := 0, wg := 0,
    file := [Chunk.json { url := "https://a.test/x", html := "<seed>" }, Chunk.newline,
             Chunk.json { url := "https://a.test/x/1", html := "<1>" }, Chunk.newline,
             Chunk.json { url := "https://a.test/x/4", html := "<4>" }, Chunk.newline,
             Chunk.json { url := "https://a.test/x/5", html := "<5>" }, Chunk.newline],
    tasks := [{ url := "https://a.test/x", depth := 0, pc := PC.done Exit.finished },
              { url := "https://a.test/x/1", depth := 1, pc := PC.done Exit.finished },
              { url := "https://a.test/x/2", depth := 1, pc := PC.done Exit.parseFailed },
              { url := "https://a.test/x/3", depth := 1, pc := PC.done Exit.finished },
              { url := "https://a.test/x/4", depth := 1, pc := PC.done Exit.finished },
              { url := "https://a.test/x/5", depth := 1, pc := PC.done Exit.finished },
              { url := "https://a.test/x", depth := 2, pc := PC.done Exit.depthLimit }],
    waited := true }

/-- The crawl of `demoEnv` with a worker pool of capacity 2. -/
def twoEnv : Env String := { demoEnv with workers := 2 }

/-- The seed goroutine starts three children and returns; the first two
children acquire a permit and are inside `GetHTML`; the third has not acquired. -/
def capTrace : List Event :=
  seedOf ["https://a.test/x/1", "https://a.test/x/2", "https://a.test/x/3"] ++
  [Event.task 1 Action.acquire, Event.task 1 Action.checkDepth, Event.task 1 Action.claim,
   Event.task 2 Action.acquire, Event.task 2 Action.checkDepth, Event.task 2 Action.claim]

/-- The state `capTrace` ends in. -/
def capState : State :=
  { visited := ["https://a.test/x/2", "https://a.test/x/1", "https://a.test/x"],
    permits := 2, wg := 3,
    file := [Chunk.json { url := "https://a.test/x", html := "<seed>" }, Chunk.newline],
    tasks := [{ url := "https://a.test/x", depth := 0, pc := PC.done Exit.finished },
              { url := "https://a.test/x/1", depth := 1, pc := PC.fetching },
              { url := "https://a.test/x/2", depth := 1, pc := PC.fetching },
              { url := "https://a.test/x/3", depth := 1, pc := PC.spawned }],
    waited := false }

/-- Five distinct links under the seed of `demoEnv`, the last one being the
seed URL itself. -/
def homeLinks : List String :=
  ["https://a.test/x/1", "https://a.test/x/2", "https://a.test/x/3", "https://a.test/x/4",
   "https://a.test/x"]

/-- The seed page has the links `homeLinks`; the first four children crawl
pages without links, the fifth finds its URL visited and returns; then
`wg.Wait()` returns. -/
def homeLinkTrace : List Event :=
  seedOf homeLinks ++ crawlLeaf 1 "<1>" ++ crawlLeaf 2 "<2>" ++ crawlLeaf 3 "<3>" ++
  crawlLeaf 4 "<4>" ++
  [Event.task 5 Action.acquire, Event.task 5 Action.checkDepth, Event.task 5 Action.claim] ++
  leave 5 ++ [Event.wait]

/-- The state `homeLinkTrace` ends in. -/
def homeLinkFinal : State :=
  { visited := ["https://a.test/x/4", "https://a.test/x/3", "https://a.test/x/2",
                "https://a.test/x/1", "https://a.test/x"],
    permits := 0, wg := 0,
    file := [Chunk.json { url := "https://a.test/x", html := "<seed>" }, Chunk.newline,
             Chunk.json { url := "https://a.test/x/1", html := "<1>" }, Chunk.newline,
             Chunk.json { url := "https://a.test/x/2", html := "<2>" }, Chunk.newline,
             Chunk.json { url := "https://a.test/x/3", html := "<3>" }, Chunk.newline,
             Chunk.json { url := "https://a.test/x/4", html := "<4>" }, Chunk.newline],
    tasks := [{ url := "https://a.test/x", depth := 0, pc := PC.done Exit.finished },
              { url := "https://a.test/x/1", depth := 1, pc := PC.done Exit.finished },
              { url := "https://a.test/x/2", depth := 1, pc := PC.done Exit.finished },
              { url := "https://a.test/x/3", depth := 1, pc := PC.done Exit.finished },
              { url := "https://a.test/x/4", depth := 1, pc := PC.done Exit.finished },
              { url := "https://a.test/x", depth := 1, pc := PC.done Exit.duplicate }],
    waited := true }

/-- The crawl of `demoEnv` with the relative link `../y` resolved as `net/url`
does: against `https://a.test/x/a/b` it gives `https://a.test/x/y`, against
`https://a.test/x/1` and against the seed it gives `https://a.test/y`. -/
def relEnv : Env String :=
  { demoEnv with
    resolve := fun base ref =>
      if ref = "../y" then
        if base = "https://a.test/x/a/b" then "https://a.test/x/y" else "https://a.test/y"
      else ref }

/-- Two distinct links under the seed of `relEnv`. -/
def relLinks : List String := ["https://a.test/x/1", "https://a.test/x/a/b"]

/-- The seed goroutine starts a child for each of the two links; the page of
the first child has the link `../y`, out of scope on that page; the page of the
second child has no link; then `wg.Wait()` returns. -/
def relTrace : List Event :=
  seedOf relLinks ++
  fetchPage 1 "<1>" ++ storePage 1 { htmlText := "<1>", hrefs := ["../y"] } ++
  [Event.task 1 Action.link, Event.task 1 Action.finish] ++ leave 1 ++
  crawlLeaf 2 "<2>" ++ [Event.wait]

/-- The state `relTrace` ends in. -/
def relFinal : State :=
  { visited := ["https://a.test/x/a/b", "https://a.test/x/1", "https://a.test/x"],
    permits := 0, wg := 0,
    file := [Chunk.json { url := "https://a.test/x", html := "<seed>" }, Chunk.newline,
             Chunk.json { url := "https://a.test/x/1", html := "<1>" }, Chunk.newline,
             Chunk.json { url := "https://a.test/x/a/b", html := "<2>" }, Chunk.newline],
    tasks := [{ url := "https://a.test/x", depth := 0, pc := PC.done Exit.finished },
              { url := "https://a.test/x/1", depth := 1, pc := PC.done Exit.finished },
              { url := "https://a.test/x/a/b", depth := 1, pc := PC.done Exit.finished }],
    waited := true }

/-- How many actions of kind `E` goroutine `i` has done in the schedule. -/
def count (E : Action → Bool) (i : Nat) (tr : List Event) : Nat :=
  tr.countP (Event.isBy E i)

/-- The facts about the shared variables that hold in every reachable state. -/
structure Inv {U : Type} (env : Env U) (s : State) : Prop where
  /-- permits out = goroutines between acquire and release -/
  permits : s.permits = s.tasks.countP (fun t => holds t.pc)
  /-- the WaitGroup counter = goroutines not yet done -/
  wg : s.wg = ((s.tasks.countP (fun t => live t.pc) : Nat) : Int)
  /-- a goroutine that marked its URL finds it in the map -/
  marked : ∀ (i : Nat) (t : Task), s.tasks[i]? = some t → claimed t.pc = true → t.url ∈ s.visited
  /-- no two goroutines marked the same URL -/
  unique : ∀ (i j : Nat) (ti tj : Task), s.tasks[i]? = some ti → s.tasks[j]? = some tj →
    claimed ti.pc = true → claimed tj.pc = true → ti.url = tj.url → i = j
  /-- every key of the map was marked by some goroutine -/
  owner : ∀ u, u ∈ s.visited → ∃ (i : Nat) (t : Task), s.tasks[i]? = some t ∧ t.url = u ∧ claimed t.pc = true
  /-- past the depth test means within the depth limit -/
  depth : ∀ (i : Nat) (t : Task), s.tasks[i]? = some t → checked t.pc = true → t.depth ≤ env.maxDepth
  /-- every record in the file has its writer -/
  writer : ∀ d, Chunk.json d ∈ s.file →
    ∃ (i : Nat) (t : Task), s.tasks[i]? = some t ∧ t.url = d.url ∧ wrote t.pc = true
  /-- no two records carry the same URL -/
  nodup : ((records s.file).map Data.url).Nodup

/-! # Theorems -/

/-! ## The transition relation and `Crawl` agree -/

theorem Crawl_iff_Trans {U : Type} (env : Env U) (s : State) (t : Task) (a : Action) (o : Outcome) :
    Crawl env s t a = some o ↔ Trans env s t a o := by
  constructor
  · intro h
    cases a <;> simp only [Crawl] at h <;> split at h <;> try contradiction
    case acquire.h_1 hpc =>
      split at h
      · cases h; exact Trans.acquire hpc (by assumption)
      · contradiction
    case checkDepth.h_1 hpc =>
      cases h; split
      · exact Trans.tooDeep hpc (by assumption)
      · exact Trans.depthOk hpc (by assumption)
    case claim.h_1 hpc =>
      cases h
      by_cases hv : t.url ∈ s.visited
      · simp only [claim, hv, if_true]; exact Trans.duplicate hpc hv
      · simp only [claim, hv, if_false]; exact Trans.claimed hpc hv
    case fetch.h_1 r _ hpc =>
      split at h
      · split at h
        · contradiction
        · cases h; exact Trans.fetched r _ hpc (by assumption) (by assumption)
      · cases h; exact Trans.fetchFailed r hpc (by assumption)
    case parse.h_1 r _ _ hpc =>
      split at h
      · cases h; exact Trans.parsed _ _ hpc
      · cases h; exact Trans.parseFailed _ hpc
    case writeJSON.h_1 ok _ _ _ hpc =>
      split at h
      · cases h; subst ok; exact Trans.wroteJSON _ _ hpc
      · cases h; have : ok = false := by simpa using ‹¬ ok = true›
        subst this; exact Trans.writeFailed _ _ hpc
    case writeNewline.h_1 ok _ _ hpc =>
      cases h
      cases ok
      · exact Trans.newlineFailed _ hpc
      · exact Trans.wroteNewline _ hpc
    case link.h_1 _ _ _ hpc =>
      cases h; split
      · exact Trans.follow _ _ hpc (by assumption)
      · exact Trans.skip _ _ hpc (by simpa using ‹¬ _ = true›)
    case spawn.h_1 _ _ _ hpc => cases h; exact Trans.spawn _ _ hpc
    case finish.h_1 _ hpc => cases h; exact Trans.finish hpc
    case release.h_1 _ _ hpc =>
      split at h
      · cases h; exact Trans.release _ hpc (by assumption)
      · contradiction
    case wgDone.h_1 _ _ hpc => cases h; exact Trans.wgDone _ hpc
  · intro h
    cases h <;> simp_all [Crawl, claim, goto]

/-! ## Running schedules -/

theorem step_task_iff {U : Type} (env : Env U) (s s2 : State) (i : Nat) (a : Action) :
    step env s (Event.task i a) = some s2 ↔
      ∃ t o, s.tasks[i]? = some t ∧ Trans env s t a o ∧ s2 = apply s i t o := by
  simp only [step]
  cases ht : s.tasks[i]? with
  | none => simp
  | some t =>
    simp only [Option.map_eq_some', Option.some.injEq]
    constructor
    · rintro ⟨o, ho, rfl⟩
      exact ⟨t, o, rfl, (Crawl_iff_Trans env s t a o).1 ho, rfl⟩
    · rintro ⟨t2, o, rfl, ho, rfl⟩
      exact ⟨o, (Crawl_iff_Trans env s t a o).2 ho, rfl⟩

theorem step_wait_iff {U : Type} (env : Env U) (s s2 : State) :
    step env s Event.wait = some s2 ↔
      s.wg = 0 ∧ s.waited = false ∧ s2 = { s with waited := true } := by
  simp only [step]
  split
  · rename_i h
    simp only [Option.some.injEq, h.1, h.2, true_and]
    exact eq_comm
  · rename_i h
    constructor
    · intro h1
      exact absurd h1 (by simp)
    · rintro ⟨h1, h2, _⟩
      exact absurd ⟨h1, h2⟩ h

theorem run_append {U : Type} (env : Env U) (s : State) (tr1 tr2 : List Event) :
    run env s (tr1 ++ tr2) = (run env s tr1).bind (fun s2 => run env s2 tr2) := by
  induction tr1 generalizing s with
  | nil => simp [run]
  | cons e es ih =>
    simp only [List.cons_append, run]
    cases step env s e with
    | none => simp
    | some s2 => simpa using ih s2

theorem run_snoc {U : Type} (env : Env U) (s s2 : State) (tr : List Event) (e : Event) :
    run env s (tr ++ [e]) = some s2 ↔ ∃ s1, run env s tr = some s1 ∧ step env s1 e = some s2 := by
  rw [run_append]
  cases h : run env s tr with
  | none => simp
  | some s1 =>
    simp only [Option.some_bind, run, Option.some.injEq, exists_eq_left']
    cases step env s1 e <;> simp

/-- Induction over the reachable states together with the schedule that led
there. -/
theorem Reach.induction {U : Type} (env : Env U) (P : List Event → State → Prop)
    (h0 : P [] (init env))
    (hstep : ∀ tr s e s2, Reach env tr s → P tr s → step env s e = some s2 → P (tr ++ [e]) s2) :
    ∀ tr s, Reach env tr s → P tr s := by
  intro tr
  induction tr using List.reverseRecOn with
  | nil =>
    intro s h
    simp only [Reach, run, Option.some.injEq] at h
    subst h
    exact h0
  | append_singleton tr e ih =>
    intro s h
    obtain ⟨s1, h1, h2⟩ := (run_snoc env (init env) s tr e).1 h
    exact hstep tr s1 e s h1 (ih s1 h1) h2

/-! ## The visited set -/

theorem claimAll_answer (v urls : List String) (k : Nat) (u : String) (h : urls[k]? = some u) :
    (claimAll v urls).1[k]? = some (decide (u ∉ v ∧ u ∉ urls.take k)) := by
  induction urls generalizing v k with
  | nil => simp at h
  | cons w ws ih =>
    cases k with
    | zero =>
      simp only [List.getElem?_cons_zero, Option.some.injEq] at h
      subst h
      by_cases hw : w ∈ v <;> simp [claimAll, claim, hw]
    | succ k =>
      simp only [List.getElem?_cons_succ] at h
      simp only [claimAll, List.getElem?_cons_succ, List.take_succ_cons, List.mem_cons, not_or]
      rw [ih _ k h]
      by_cases huw : u = w
      · subst huw
        by_cases hw : u ∈ v <;> simp [claim, hw]
      · by_cases hw : w ∈ v <;> simp [claim, hw, huw]

theorem mem_claimAll (v urls : List String) (x : String) :
    x ∈ (claimAll v urls).2 ↔ x ∈ v ∨ x ∈ urls := by
  induction urls generalizing v with
  | nil => simp [claimAll]
  | cons w ws ih =>
    simp only [claimAll, ih, List.mem_cons]
    by_cases hw : w ∈ v
    · simp only [claim, hw, if_true]
      constructor
      · rintro (h | h)
        · exact Or.inl h
        · exact Or.inr (Or.inr h)
      · rintro (h | h | h)
        · exact Or.inl h
        · exact Or.inl (h ▸ hw)
        · exact Or.inr h
    · simp only [claim, hw, if_false, List.mem_cons]
      tauto

theorem mem_claim (v : List String) (u x : String) :
    x ∈ (claim v u).2 ↔ x ∈ v ∨ x = u := by
  by_cases hu : u ∈ v
  · simp only [claim, hu, if_true]
    constructor
    · exact Or.inl
    · rintro (h | h)
      · exact h
      · exact h ▸ hu
  · simp only [claim, hu, if_false, List.mem_cons]
    tauto

/-! ## Bytes and code points -/

theorem or_c0 : ∀ x : Nat, x < 32 → x ||| 0xc0 = x + 0xc0 := by decide
theorem or_80 : ∀ x : Nat, x < 64 → x ||| 0x80 = x + 0x80 := by decide
theorem or_e0 : ∀ x : Nat, x < 16 → x ||| 0xe0 = x + 0xe0 := by decide
theorem or_f0 : ∀ x : Nat, x < 8 → x ||| 0xf0 = x + 0xf0 := by decide

theorem shr6 (v : UInt32) : (v >>> 6).toNat = v.toNat / 64 := by
  show (UInt32.shiftRight v 6).toNat = _
  simp only [UInt32.shiftRight, UInt32.toNat]
  rw [BitVec.ushiftRight_eq', BitVec.toNat_ushiftRight, Nat.shiftRight_eq_div_pow]
  rfl

theorem shr12 (v : UInt32) : (v >>> 12).toNat = v.toNat / 4096 := by
  show (UInt32.shiftRight v 12).toNat = _
  simp only [UInt32.shiftRight, UInt32.toNat]
  rw [BitVec.ushiftRight_eq', BitVec.toNat_ushiftRight, Nat.shiftRight_eq_div_pow]
  rfl

theorem shr18 (v : UInt32) : (v >>> 18).toNat = v.toNat / 262144 := by
  show (UInt32.shiftRight v 18).toNat = _
  simp only [UInt32.shiftRight, UInt32.toNat]
  rw [BitVec.ushiftRight_eq', BitVec.toNat_ushiftRight, Nat.shiftRight_eq_div_pow]
  rfl

theorem toUInt8_toNat (v : UInt32) : v.toUInt8.toNat = v.toNat % 256 := by
  simp [UInt32.toUInt8, Nat.toUInt8, UInt8.ofNat, UInt8.toNat]

theorem lor_toNat (a b : UInt8) : (a ||| b).toNat = a.toNat ||| b.toNat := by
  show (UInt8.lor a b).toNat = _
  simp [UInt8.lor, UInt8.toNat]

theorem and_1f (x : Nat) : x &&& 0x1f = x % 32 := Nat.and_pow_two_sub_one_eq_mod x 5
theorem and_3f (x : Nat) : x &&& 0x3f = x % 64 := Nat.and_pow_two_sub_one_eq_mod x 6
theorem and_0f (x : Nat) : x &&& 0x0f = x % 16 := Nat.and_pow_two_sub_one_eq_mod x 4
theorem and_07 (x : Nat) : x &&& 0x07 = x % 8 := Nat.and_pow_two_sub_one_eq_mod x 3

theorem le_iff_toNat (a b : UInt32) : a ≤ b ↔ a.toNat ≤ b.toNat := Iff.rfl

theorem enc_toNat (c : Char) :
    (String.utf8EncodeChar c).map UInt8.toNat = encNat c.val.toNat := by
  have hv : c.val.toNat < 0x110000 := by
    have := c.valid
    rcases this with h | ⟨_, h⟩
    · have : c.val.toNat < 0xd800 := h
      omega
    · exact h
  unfold String.utf8EncodeChar encNat
  simp only [le_iff_toNat]
  have e1 : (127 : UInt32).toNat = 0x7f := rfl
  have e2 : (2047 : UInt32).toNat = 0x7ff := rfl
  have e3 : (65535 : UInt32).toNat = 0xffff := rfl
  have c1 : (31 : UInt8).toNat = 0x1f := rfl
  have c2 : (192 : UInt8).toNat = 0xc0 := rfl
  have c3 : (63 : UInt8).toNat = 0x3f := rfl
  have c4 : (128 : UInt8).toNat = 0x80 := rfl
  have c5 : (15 : UInt8).toNat = 0x0f := rfl
  have c6 : (224 : UInt8).toNat = 0xe0 := rfl
  have c7 : (7 : UInt8).toNat = 0x07 := rfl
  have c8 : (240 : UInt8).toNat = 0xf0 := rfl
  simp only [e1, e2, e3]
  split
  · simp [toUInt8_toNat]; omega
  · split
    · simp only [List.map_cons, List.map_nil, lor_toNat, UInt8.and_toNat, toUInt8_toNat, shr6,
        c1, c2, c3, c4, and_1f, and_3f]
      rw [or_c0 _ (Nat.mod_lt _ (by decide)), or_80 _ (Nat.mod_lt _ (by decide))]
      congr 1
      · omega
      · congr 1
        omega
    · split
      · simp only [List.map_cons, List.map_nil, lor_toNat, UInt8.and_toNat, toUInt8_toNat, shr6,
          shr12, c3, c4, c5, c6, and_0f, and_3f]
        rw [or_e0 _ (Nat.mod_lt _ (by decide)), or_80 _ (Nat.mod_lt _ (by decide)),
          or_80 _ (Nat.mod_lt _ (by decide))]
        congr 1
        · omega
        · congr 1
          · omega
          · congr 1
            omega
      · simp only [List.map_cons, List.map_nil, lor_toNat, UInt8.and_toNat, toUInt8_toNat, shr6,
          shr12, shr18, c3, c4, c7, c8, and_07, and_3f]
        rw [or_f0 _ (Nat.mod_lt _ (by decide)), or_80 _ (Nat.mod_lt _ (by decide)),
          or_80 _ (Nat.mod_lt _ (by decide)), or_80 _ (Nat.mod_lt _ (by decide))]
        congr 1
        · omega
        · congr 1
          · omega
          · congr 1
            · omega
            · congr 1
              omega

theorem bytes_eq (s : String) : bytes s = s.data.flatMap String.utf8EncodeChar := rfl

theorem decode_nil : decode [] = [] := rfl

theorem decode_cons (b0 : UInt8) (rest : List UInt8) :
    decode (b0 :: rest) =
    if b0.toNat < 0x80 then some b0.toNat :: decode rest
    else if 0xC2 ≤ b0.toNat ∧ b0.toNat ≤ 0xDF then
      match rest with
      | b1 :: r1 =>
        if contByte b1 then some ((b0.toNat - 0xC0) * 64 + (b1.toNat - 0x80)) :: decode r1
        else none :: decode (b1 :: r1)
      | [] => [none]
    else if 0xE0 ≤ b0.toNat ∧ b0.toNat ≤ 0xEF then
      match rest with
      | b1 :: b2 :: r2 =>
        if accepts b0.toNat b1 && contByte b2 then
          some ((b0.toNat - 0xE0) * 4096 + (b1.toNat - 0x80) * 64 + (b2.toNat - 0x80)) :: decode r2
        else none :: decode (b1 :: b2 :: r2)
      | [b1] => none :: decode [b1]
      | [] => [none]
    else if 0xF0 ≤ b0.toNat ∧ b0.toNat ≤ 0xF4 then
      match rest with
      | b1 :: b2 :: b3 :: r3 =>
        if accepts b0.toNat b1 && contByte b2 && contByte b3 then
          some ((b0.toNat - 0xF0) * 262144 + (b1.toNat - 0x80) * 4096 + (b2.toNat - 0x80) * 64
            + (b3.toNat - 0x80)) :: decode r3
        else none :: decode (b1 :: b2 :: b3 :: r3)
      | [b1, b2] => none :: decode [b1, b2]
      | [b1] => none :: decode [b1]
      | [] => [none]
    else none :: decode rest := by
  cases rest with
  | nil => rfl
  | cons b1 r1 =>
    cases r1 with
    | nil => rfl
    | cons b2 r2 =>
      cases r2 with
      | nil => rfl
      | cons b3 r3 => rfl

theorem decode_one (b0 : UInt8) (rest : List UInt8) (h : b0.toNat < 0x80) :
    decode (b0 :: rest) = some b0.toNat :: decode rest := by
  rw [decode_cons, if_pos h]

theorem decode_two (b0 b1 : UInt8) (rest : List UInt8) (h0 : 0xC2 ≤ b0.toNat ∧ b0.toNat ≤ 0xDF)
    (h1 : contByte b1 = true) :
    decode (b0 :: b1 :: rest) = some ((b0.toNat - 0xC0) * 64 + (b1.toNat - 0x80)) :: decode rest := by
  rw [decode_cons, if_neg (by omega), if_pos h0]
  simp only [h1, if_true]

theorem decode_three (b0 b1 b2 : UInt8) (rest : List UInt8)
    (h0 : 0xE0 ≤ b0.toNat ∧ b0.toNat ≤ 0xEF)
    (h1 : accepts b0.toNat b1 = true) (h2 : contByte b2 = true) :
    decode (b0 :: b1 :: b2 :: rest) =
      some ((b0.toNat - 0xE0) * 4096 + (b1.toNat - 0x80) * 64 + (b2.toNat - 0x80)) :: decode rest := by
  rw [decode_cons, if_neg (by omega), if_neg (by omega), if_pos h0]
  simp only [h1, h2, Bool.and_self, if_true]

theorem decode_four (b0 b1 b2 b3 : UInt8) (rest : List UInt8)
    (h0 : 0xF0 ≤ b0.toNat ∧ b0.toNat ≤ 0xF4)
    (h1 : accepts b0.toNat b1 = true) (h2 : contByte b2 = true) (h3 : contByte b3 = true) :
    decode (b0 :: b1 :: b2 :: b3 :: rest) =
      some ((b0.toNat - 0xF0) * 262144 + (b1.toNat - 0x80) * 4096 + (b2.toNat - 0x80) * 64
        + (b3.toNat - 0x80)) :: decode rest := by
  rw [decode_cons, if_neg (by omega), if_neg (by omega), if_neg (by omega), if_pos h0]
  simp only [h1, h2, h3, Bool.and_self, if_true]

theorem char_lt (c : Char) : c.toNat < 0x110000 ∧ ¬ (0xD800 ≤ c.toNat ∧ c.toNat ≤ 0xDFFF) := by
  have hv := c.valid
  show c.val.toNat < 0x110000 ∧ ¬ (0xD800 ≤ c.val.toNat ∧ c.val.toNat ≤ 0xDFFF)
  rcases hv with h | ⟨h1, h2⟩
  · have : c.val.toNat < 0xd800 := h
    omega
  · have h1 : 0xdfff < c.val.toNat := h1
    have h2 : c.val.toNat < 0x110000 := h2
    omega

/-- The shape of the encoding of a character. -/
theorem enc_cases (c : Char) :
    (c.toNat ≤ 0x7f ∧ ∃ b0, String.utf8EncodeChar c = [b0] ∧ b0.toNat = c.toNat) ∨
    (0x7f < c.toNat ∧ c.toNat ≤ 0x7ff ∧ ∃ b0 b1, String.utf8EncodeChar c = [b0, b1] ∧
      b0.toNat = 0xC0 + c.toNat / 64 ∧ b1.toNat = 0x80 + c.toNat % 64) ∨
    (0x7ff < c.toNat ∧ c.toNat ≤ 0xffff ∧ ∃ b0 b1 b2, String.utf8EncodeChar c = [b0, b1, b2] ∧
      b0.toNat = 0xE0 + c.toNat / 4096 ∧ b1.toNat = 0x80 + (c.toNat / 64) % 64 ∧
      b2.toNat = 0x80 + c.toNat % 64) ∨
    (0xffff < c.toNat ∧ ∃ b0 b1 b2 b3, String.utf8EncodeChar c = [b0, b1, b2, b3] ∧
      b0.toNat = 0xF0 + c.toNat / 262144 ∧ b1.toNat = 0x80 + (c.toNat / 4096) % 64 ∧
      b2.toNat = 0x80 + (c.toNat / 64) % 64 ∧ b3.toNat = 0x80 + c.toNat % 64) := by
  have h := enc_toNat c
  have hn : c.val.toNat = c.toNat := rfl
  rw [hn] at h
  unfold encNat at h
  split at h
  · left
    refine ⟨by assumption, ?_⟩
    rcases henc : String.utf8EncodeChar c with _ | ⟨b0, _ | ⟨b1, l⟩⟩ <;> rw [henc] at h <;>
      simp at h
    exact ⟨b0, rfl, h⟩
  · right
    split at h
    · left
      refine ⟨by omega, by assumption, ?_⟩
      rcases henc : String.utf8EncodeChar c with _ | ⟨b0, _ | ⟨b1, _ | ⟨b2, l⟩⟩⟩ <;>
        rw [henc] at h <;> simp at h
      exact ⟨b0, b1, rfl, h.1, h.2⟩
    · right
      split at h
      · left
        refine ⟨by omega, by assumption, ?_⟩
        rcases henc : String.utf8EncodeChar c with _ | ⟨b0, _ | ⟨b1, _ | ⟨b2, _ | ⟨b3, l⟩⟩⟩⟩ <;>
          rw [henc] at h <;> simp at h
        exact ⟨b0, b1, b2, rfl, h.1, h.2.1, h.2.2⟩
      · right
        refine ⟨by omega, ?_⟩
        rcases henc : String.utf8EncodeChar c with
          _ | ⟨b0, _ | ⟨b1, _ | ⟨b2, _ | ⟨b3, _ | ⟨b4, l⟩⟩⟩⟩⟩ <;>
          rw [henc] at h <;> simp at h
        exact ⟨b0, b1, b2, b3, rfl, h.1, h.2.1, h.2.2.1, h.2.2.2⟩

/-- Decoding undoes encoding. -/
theorem decode_enc (c : Char) (rest : List UInt8) :
    decode (String.utf8EncodeChar c ++ rest) = some c.toNat :: decode rest := by
  have hc := char_lt c
  rcases enc_cases c with ⟨h1, b0, he, h0⟩ | ⟨h1, h2, b0, b1, he, h0, h1'⟩ |
    ⟨h1, h2, b0, b1, b2, he, h0, h1', h2'⟩ | ⟨h1, b0, b1, b2, b3, he, h0, h1', h2', h3'⟩
  · rw [he, List.singleton_append, decode_one _ _ (by omega), h0]
  · rw [he]
    show decode (b0 :: b1 :: rest) = _
    rw [decode_two _ _ _ (by omega) (by simp only [contByte, decide_eq_true_eq]; omega)]
    congr 2
    omega
  · rw [he]
    show decode (b0 :: b1 :: b2 :: rest) = _
    rw [decode_three _ _ _ _ (by omega)
      (by
        simp only [accepts, decide_eq_true_eq]
        constructor
        · split <;> [skip; split] <;> omega
        · split <;> [skip; split] <;> omega)
      (by simp only [contByte, decide_eq_true_eq]; omega)]
    congr 2
    omega
  · rw [he]
    show decode (b0 :: b1 :: b2 :: b3 :: rest) = _
    rw [decode_four _ _ _ _ _ (by omega)
      (by
        simp only [accepts, decide_eq_true_eq]
        constructor
        · split <;> [skip; split] <;> omega
        · split <;> [skip; split] <;> omega)
      (by simp only [contByte, decide_eq_true_eq]; omega)
      (by simp only [contByte, decide_eq_true_eq]; omega)]
    congr 2
    omega

theorem decode_flatMap (cs : List Char) :
    decode (cs.flatMap String.utf8EncodeChar) = cs.map (fun c => some c.toNat) := by
  induction cs with
  | nil => rfl
  | cons c cs ih => rw [List.flatMap_cons, decode_enc, ih, List.map_cons]

/-- The code points of a well-formed string. -/
theorem decode_bytes (s : String) : decode (bytes s) = s.data.map (fun c => some c.toNat) := by
  rw [bytes_eq, decode_flatMap]

/-! ## The scope test -/

theorem specialBytes_eq :
    bytes "\\.+*?()|[]\x7b\x7d^$" =
      [0x5C, 0x2E, 0x2B, 0x2A, 0x3F, 0x28, 0x29, 0x7C, 0x5B, 0x5D, 0x7B, 0x7D, 0x5E, 0x24] := by
  decide

theorem special_iff (b : UInt8) :
    special b = true ↔
      b.toNat ∈ [0x5C, 0x2E, 0x2B, 0x2A, 0x3F, 0x28, 0x29, 0x7C, 0x5B, 0x5D, 0x7B, 0x7D, 0x5E, 0x24] := by
  have key : ∀ k : UInt8, b = k ↔ b.toNat = k.toNat :=
    fun k => ⟨fun h => congrArg UInt8.toNat h, fun h => UInt8.toNat.inj h⟩
  simp only [special, specialBytes_eq, List.mem_cons, List.mem_singleton, List.not_mem_nil,
    or_false, decide_eq_true_eq, key]
  exact Iff.rfl

theorem special_escapable (b : UInt8) (h : special b = true) : escapable b.toNat = true := by
  have h2 := (special_iff b).1 h
  simp only [List.mem_cons, List.mem_singleton, List.not_mem_nil, or_false] at h2
  rcases h2 with h | h | h | h | h | h | h | h | h | h | h | h | h | h <;> rw [h] <;> decide

theorem operator_special (b : UInt8) (h : operator b.toNat = true) : special b = true := by
  rw [special_iff]
  simp only [operator, List.elem_eq_mem, decide_eq_true_eq, List.mem_cons, List.mem_singleton,
    List.not_mem_nil, or_false] at h ⊢
  omega

theorem parsePattern_plain (c : Nat) (cs : List (Option Nat)) (h1 : c ≠ 0x5C) :
    parsePattern (some c :: cs) =
      if c = 0x5E then (parsePattern cs).map (fun r => Item.beginText :: r)
      else if operator c then none
      else (parsePattern cs).map (fun r => Item.lit c :: r) := by
  rcases cs with _ | ⟨_ | d, ds⟩ <;> simp [parsePattern, h1]

theorem parsePattern_escape (d : Nat) (ds : List (Option Nat)) (h : escapable d = true) :
    parsePattern (some 0x5C :: some d :: ds) = (parsePattern ds).map (fun r => Item.lit d :: r) := by
  simp [parsePattern, h]

theorem QuoteMeta_cons (b : UInt8) (bs : List UInt8) :
    QuoteMeta (b :: bs) = if special b then 0x5C :: b :: QuoteMeta bs else b :: QuoteMeta bs := rfl

theorem QuoteMeta_high (b : UInt8) (bs : List UInt8) (h : 0x80 ≤ b.toNat) :
    QuoteMeta (b :: bs) = b :: QuoteMeta bs := by
  have hs : special b = false := by
    cases hb : special b with
    | false => rfl
    | true =>
      have := (special_iff b).1 hb
      simp only [List.mem_cons, List.mem_singleton, List.not_mem_nil, or_false] at this
      omega
  rw [QuoteMeta_cons, hs]
  rfl

/-- One character of the seed becomes one literal of the pattern. -/
theorem parse_quote_enc (c : Char) (rest : List UInt8) :
    parsePattern (decode (QuoteMeta (String.utf8EncodeChar c ++ rest))) =
      (parsePattern (decode (QuoteMeta rest))).map (fun r => Item.lit c.toNat :: r) := by
  have hc := char_lt c
  rcases enc_cases c with ⟨h1, b0, he, h0⟩ | ⟨h1, h2, b0, b1, he, h0, h1'⟩ |
    ⟨h1, h2, b0, b1, b2, he, h0, h1', h2'⟩ | ⟨h1, b0, b1, b2, b3, he, h0, h1', h2', h3'⟩
  · rw [he, List.singleton_append, QuoteMeta_cons]
    by_cases hs : special b0 = true
    · rw [if_pos hs, decode_one _ _ (by decide), decode_one _ _ (by omega)]
      have : (92 : UInt8).toNat = 0x5C := rfl
      rw [this, parsePattern_escape _ _ (special_escapable b0 hs), h0]
    · rw [if_neg hs, decode_one _ _ (by omega)]
      have hn1 : b0.toNat ≠ 0x5C := by
        intro h
        exact hs ((special_iff b0).2 (by simp [h]))
      have hn2 : b0.toNat ≠ 0x5E := by
        intro h
        exact hs ((special_iff b0).2 (by simp [h]))
      have hn3 : operator b0.toNat = false := by
        cases h : operator b0.toNat with
        | false => rfl
        | true => exact absurd (operator_special b0 h) hs
      rw [parsePattern_plain _ _ hn1, if_neg hn2, hn3, h0]
      rfl
  · have e := decode_enc c (QuoteMeta rest)
    rw [he] at e ⊢
    show parsePattern (decode (QuoteMeta (b0 :: b1 :: rest))) = _
    rw [QuoteMeta_high _ _ (by omega), QuoteMeta_high _ _ (by omega)]
    have e2 : decode (b0 :: b1 :: QuoteMeta rest) = some c.toNat :: decode (QuoteMeta rest) := e
    rw [e2, parsePattern_plain _ _ (by omega), if_neg (by omega)]
    have : operator c.toNat = false := by
      simp only [operator, List.elem_eq_mem, decide_eq_false_iff_not, List.mem_cons,
        List.mem_singleton, List.not_mem_nil, or_false]
      omega
    rw [this]
    rfl
  · have e := decode_enc c (QuoteMeta rest)
    rw [he] at e ⊢
    show parsePattern (decode (QuoteMeta (b0 :: b1 :: b2 :: rest))) = _
    rw [QuoteMeta_high _ _ (by omega), QuoteMeta_high _ _ (by omega),
      QuoteMeta_high _ _ (by omega)]
    have e2 : decode (b0 :: b1 :: b2 :: QuoteMeta rest) = some c.toNat :: decode (QuoteMeta rest) := e
    rw [e2, parsePattern_plain _ _ (by omega), if_neg (by omega)]
    have : operator c.toNat = false := by
      simp only [operator, List.elem_eq_mem, decide_eq_false_iff_not, List.mem_cons,
        List.mem_singleton, List.not_mem_nil, or_false]
      omega
    rw [this]
    rfl
  · have e := decode_enc c (QuoteMeta rest)
    rw [he] at e ⊢
    show parsePattern (decode (QuoteMeta (b0 :: b1 :: b2 :: b3 :: rest))) = _
    rw [QuoteMeta_high _ _ (by omega), QuoteMeta_high _ _ (by omega),
      QuoteMeta_high _ _ (by omega), QuoteMeta_high _ _ (by omega)]
    have e2 : decode (b0 :: b1 :: b2 :: b3 :: QuoteMeta rest)
        = some c.toNat :: decode (QuoteMeta rest) := e
    rw [e2, parsePattern_plain _ _ (by omega), if_neg (by omega)]
    have : operator c.toNat = false := by
      simp only [operator, List.elem_eq_mem, decide_eq_false_iff_not, List.mem_cons,
        List.mem_singleton, List.not_mem_nil, or_false]
      omega
    rw [this]
    rfl

theorem parse_quote_flatMap (cs : List Char) :
    parsePattern (decode (QuoteMeta (cs.flatMap String.utf8EncodeChar))) =
      some (cs.map (fun c => Item.lit c.toNat)) := by
  induction cs with
  | nil => rfl
  | cons c cs ih => rw [List.flatMap_cons, parse_quote_enc, ih]; rfl

theorem numRunes_lits (cs : List Char) :
    numRunes (cs.map (fun c => Item.lit c.toNat)) = cs.length := by
  induction cs with
  | nil => rfl
  | cons c cs ih => simp [numRunes, ih]

/-- The compiled scope pattern of a well-formed seed: an error when the seed has
more than `maxRunes` code points, else the anchor followed by the seed's code
points. -/
theorem Compile_scope (s : String) :
    Compile (0x5E :: QuoteMeta (bytes s)) =
      if maxRunes < s.length then none
      else some (Item.beginText :: s.data.map (fun c => Item.lit c.toNat)) := by
  have h : parsePattern (decode (0x5E :: QuoteMeta (bytes s)))
      = some (Item.beginText :: s.data.map (fun c => Item.lit c.toNat)) := by
    rw [decode_one _ _ (by decide)]
    have : (94 : UInt8).toNat = 0x5E := rfl
    rw [this, parsePattern_plain _ _ (by decide), if_pos rfl, bytes_eq, parse_quote_flatMap]
    rfl
  rw [Compile, h]
  simp only [numRunes, numRunes_lits, String.length]

theorem char_toNat_inj (c d : Char) : c.toNat = d.toNat ↔ c = d := by
  constructor
  · intro h
    exact Char.ext (UInt32.toNat.inj h)
  · rintro rfl; rfl

theorem matchHere_lits (cs text : List Char) (b : Bool) :
    matchHere (cs.map (fun c => Item.lit c.toNat)) (text.map (fun c => some c.toNat)) b
      = decide (cs <+: text) := by
  induction cs generalizing text b with
  | nil => simp [matchHere]
  | cons c cs ih =>
    cases text with
    | nil => simp [matchHere]
    | cons d text =>
      simp only [List.map_cons, matchHere, ih, List.cons_prefix_cons, Option.getD_some,
        char_toNat_inj]
      by_cases hcd : c = d <;> simp [hcd]

theorem matchAnywhere_beginText_later (r : List Item) (text : List (Option Nat)) :
    matchAnywhere (Item.beginText :: r) text false = false := by
  induction text with
  | nil => simp [matchAnywhere, matchHere]
  | cons d text ih => simp [matchAnywhere, matchHere, ih]

theorem matchAnywhere_beginText (r : List Item) (text : List (Option Nat)) :
    matchAnywhere (Item.beginText :: r) text true = matchHere r text true := by
  cases text with
  | nil => simp [matchAnywhere, matchHere]
  | cons d text => simp [matchAnywhere, matchHere, matchAnywhere_beginText_later]

/-- The match of the scope pattern of a well-formed seed against a well-formed
link: an error for a seed of more than `maxRunes` code points, else the prefix
test on code points. -/
theorem MatchString_scope (s c : String) :
    MatchString (0x5E :: QuoteMeta (bytes s)) (bytes c) =
      if maxRunes < s.length then none else some (decide (s.data <+: c.data)) := by
  rw [MatchString, Compile_scope]
  split
  · rfl
  · simp only [Option.map_some', decode_bytes, matchAnywhere_beginText, matchHere_lits]

/-- The scope test is a prefix test on code points, for a seed within the limit
of `regexp.Compile`. -/
theorem inScope_iff (s c : String) (hlen : s.length ≤ maxRunes) :
    inScope s c = true ↔ s.data <+: c.data := by
  rw [inScope, scopeTest, MatchString_scope, if_neg (by omega)]
  simp

/-- A seed beyond the limit of `regexp.Compile` puts nothing in scope. -/
theorem inScope_long (s c : String) (hlen : maxRunes < s.length) : inScope s c = false := by
  rw [inScope, scopeTest, MatchString_scope, if_pos hlen]
  rfl

theorem inScope_empty_iff (s : String) : inScope s "" = true ↔ s = "" := by
  by_cases hlen : maxRunes < s.length
  · rw [inScope_long s "" hlen]
    constructor
    · intro h; cases h
    · rintro rfl
      exact absurd hlen (by decide)
  · rw [inScope_iff s "" (by omega)]
    constructor
    · intro h
      have h2 : s.data <+: [] := h
      exact String.ext (List.prefix_nil.1 h2)
    · rintro rfl
      exact List.prefix_refl _

theorem char_of_scalar (n : Nat) (h1 : n < 0x110000) (h2 : ¬ (0xD800 ≤ n ∧ n ≤ 0xDFFF)) :
    ∃ c : Char, c.toNat = n := by
  have hv : n.isValidChar := by
    by_cases h : n < 0xD800
    · exact Or.inl h
    · exact Or.inr ⟨by omega, h1⟩
  exact ⟨Char.ofNatAux n hv, rfl⟩

theorem ValidString_cons_some (r : Nat) (bs rest : List UInt8)
    (h : decode bs = some r :: decode rest) :
    ValidString bs = ValidString rest := by
  simp [ValidString, h]

theorem ValidString_cons_none (bs : List UInt8) (l : List (Option Nat))
    (h : decode bs = none :: l) : ValidString bs = false := by
  simp [ValidString, h]


theorem enc_one (b0 : UInt8) (h1 : b0.toNat < 0x80) :
    ∃ c : Char, String.utf8EncodeChar c = [b0] := by
  obtain ⟨c, hc⟩ := char_of_scalar b0.toNat (by omega) (by omega)
  refine ⟨c, ?_⟩
  rcases enc_cases c with ⟨_, x0, he, hx0⟩ | ⟨_, _, _⟩ | ⟨_, _, _⟩ | ⟨_, _⟩
  · rw [he]
    have : x0 = b0 := UInt8.toNat.inj (by omega)
    rw [this]
  · omega
  · omega
  · omega

theorem enc_two (b0 b1 : UInt8) (h2 : 0xC2 ≤ b0.toNat ∧ b0.toNat ≤ 0xDF)
    (hc1 : contByte b1 = true) :
    ∃ c : Char, String.utf8EncodeChar c = [b0, b1] := by
  simp only [contByte, decide_eq_true_eq] at hc1
  obtain ⟨c, hc⟩ := char_of_scalar ((b0.toNat - 0xC0) * 64 + (b1.toNat - 0x80))
    (by omega) (by omega)
  refine ⟨c, ?_⟩
  rcases enc_cases c with ⟨_, _, _⟩ | ⟨_, _, x0, x1, he, hx0, hx1⟩ | ⟨_, _, _⟩ | ⟨_, _⟩
  · omega
  · rw [he]
    have e0 : x0 = b0 := UInt8.toNat.inj (by omega)
    have e1 : x1 = b1 := UInt8.toNat.inj (by omega)
    rw [e0, e1]
  · omega
  · omega

theorem accepts_iff (x : Nat) (b : UInt8) :
    accepts x b = true ↔ 0x80 ≤ b.toNat ∧ b.toNat ≤ 0xBF ∧ (x = 0xE0 → 0xA0 ≤ b.toNat) ∧
      (x = 0xED → b.toNat ≤ 0x9F) ∧ (x = 0xF0 → 0x90 ≤ b.toNat) ∧ (x = 0xF4 → b.toNat ≤ 0x8F) := by
  simp only [accepts, decide_eq_true_eq]
  constructor
  · rintro ⟨ha1, ha2⟩
    split at ha1 <;> split at ha2 <;> (try split at ha1) <;> (try split at ha2) <;> omega
  · rintro ⟨h1, h2, h3, h4, h5, h6⟩
    constructor
    · split <;> [skip; split] <;> omega
    · split <;> [skip; split] <;> omega

theorem enc_three (b0 b1 b2 : UInt8) (h3 : 0xE0 ≤ b0.toNat ∧ b0.toNat ≤ 0xEF)
    (ha : accepts b0.toNat b1 = true) (hc2 : contByte b2 = true) :
    ∃ c : Char, String.utf8EncodeChar c = [b0, b1, b2] := by
  simp only [contByte, decide_eq_true_eq] at hc2
  rw [accepts_iff] at ha
  obtain ⟨c, hc⟩ := char_of_scalar
    ((b0.toNat - 0xE0) * 4096 + (b1.toNat - 0x80) * 64 + (b2.toNat - 0x80))
    (by omega) (by omega)
  refine ⟨c, ?_⟩
  rcases enc_cases c with ⟨_, _, _⟩ | ⟨_, _, _⟩ |
    ⟨_, _, x0, x1, x2, he, hx0, hx1, hx2⟩ | ⟨_, _⟩
  · omega
  · omega
  · rw [he]
    have e0 : x0 = b0 := UInt8.toNat.inj (by omega)
    have e1 : x1 = b1 := UInt8.toNat.inj (by omega)
    have e2 : x2 = b2 := UInt8.toNat.inj (by omega)
    rw [e0, e1, e2]
  · omega

theorem enc_four (b0 b1 b2 b3 : UInt8) (h4 : 0xF0 ≤ b0.toNat ∧ b0.toNat ≤ 0xF4)
    (ha : accepts b0.toNat b1 = true) (hc2 : contByte b2 = true) (hc3 : contByte b3 = true) :
    ∃ c : Char, String.utf8EncodeChar c = [b0, b1, b2, b3] := by
  simp only [contByte, decide_eq_true_eq] at hc2 hc3
  rw [accepts_iff] at ha
  obtain ⟨c, hc⟩ := char_of_scalar
    ((b0.toNat - 0xF0) * 262144 + (b1.toNat - 0x80) * 4096
      + (b2.toNat - 0x80) * 64 + (b3.toNat - 0x80))
    (by omega) (by omega)
  refine ⟨c, ?_⟩
  rcases enc_cases c with ⟨_, _, _⟩ | ⟨_, _, _⟩ | ⟨_, _, _⟩ |
    ⟨_, x0, x1, x2, x3, he, hx0, hx1, hx2, hx3⟩
  · omega
  · omega
  · omega
  · rw [he]
    have e0 : x0 = b0 := UInt8.toNat.inj (by omega)
    have e1 : x1 = b1 := UInt8.toNat.inj (by omega)
    have e2 : x2 = b2 := UInt8.toNat.inj (by omega)
    have e3 : x3 = b3 := UInt8.toNat.inj (by omega)
    rw [e0, e1, e2, e3]



theorem decode_bad_lead (b0 : UInt8) (rest : List UInt8) (h1 : ¬ b0.toNat < 0x80)
    (h2 : ¬ (0xC2 ≤ b0.toNat ∧ b0.toNat ≤ 0xDF)) (h3 : ¬ (0xE0 ≤ b0.toNat ∧ b0.toNat ≤ 0xEF))
    (h4 : ¬ (0xF0 ≤ b0.toNat ∧ b0.toNat ≤ 0xF4)) :
    decode (b0 :: rest) = none :: decode rest := by
  rw [decode_cons, if_neg h1, if_neg h2, if_neg h3, if_neg h4]

/-- What the decoder does at the head of a string: it takes a well-formed
sequence of one to four bytes, or it rejects the first byte. -/
theorem decode_head (b0 : UInt8) (rest : List UInt8) :
    (∃ l, decode (b0 :: rest) = none :: l) ∨
    (∃ (c : Char) (r : List UInt8), b0 :: rest = String.utf8EncodeChar c ++ r ∧
      decode (b0 :: rest) = some c.toNat :: decode r) := by
  by_cases h1 : b0.toNat < 0x80
  · right
    obtain ⟨c, hc⟩ := enc_one b0 h1
    exact ⟨c, rest, by rw [hc]; rfl, by rw [← decode_enc, hc]; rfl⟩
  · by_cases h2 : 0xC2 ≤ b0.toNat ∧ b0.toNat ≤ 0xDF
    · rcases rest with _ | ⟨b1, r1⟩
      · left
        exact ⟨[], by rw [decode_cons, if_neg h1, if_pos h2]⟩
      · by_cases hc1 : contByte b1 = true
        · right
          obtain ⟨c, hc⟩ := enc_two b0 b1 h2 hc1
          exact ⟨c, r1, by rw [hc]; rfl, by rw [← decode_enc, hc]; rfl⟩
        · left
          refine ⟨decode (b1 :: r1), ?_⟩
          rw [decode_cons, if_neg h1, if_pos h2]
          simp only [hc1, Bool.false_eq_true, if_false]
    · by_cases h3 : 0xE0 ≤ b0.toNat ∧ b0.toNat ≤ 0xEF
      · rcases rest with _ | ⟨b1, _ | ⟨b2, r2⟩⟩
        · left
          exact ⟨[], by rw [decode_cons, if_neg h1, if_neg h2, if_pos h3]⟩
        · left
          exact ⟨decode [b1], by rw [decode_cons, if_neg h1, if_neg h2, if_pos h3]⟩
        · by_cases hc : accepts b0.toNat b1 = true ∧ contByte b2 = true
          · right
            obtain ⟨c, hc⟩ := enc_three b0 b1 b2 h3 hc.1 hc.2
            exact ⟨c, r2, by rw [hc]; rfl, by rw [← decode_enc, hc]; rfl⟩
          · left
            refine ⟨decode (b1 :: b2 :: r2), ?_⟩
            rw [decode_cons, if_neg h1, if_neg h2, if_pos h3]
            have : (accepts b0.toNat b1 && contByte b2) = false := by
              cases h : (accepts b0.toNat b1 && contByte b2) with
              | false => rfl
              | true =>
                rw [Bool.and_eq_true] at h
                exact absurd h hc
            simp only [this, Bool.false_eq_true, if_false]
      · by_cases h4 : 0xF0 ≤ b0.toNat ∧ b0.toNat ≤ 0xF4
        · rcases rest with _ | ⟨b1, _ | ⟨b2, _ | ⟨b3, r3⟩⟩⟩
          · left
            exact ⟨[], by rw [decode_cons, if_neg h1, if_neg h2, if_neg h3, if_pos h4]⟩
          · left
            exact ⟨decode [b1], by rw [decode_cons, if_neg h1, if_neg h2, if_neg h3, if_pos h4]⟩
          · left
            exact ⟨decode [b1, b2],
              by rw [decode_cons, if_neg h1, if_neg h2, if_neg h3, if_pos h4]⟩
          · by_cases hc : accepts b0.toNat b1 = true ∧ contByte b2 = true ∧ contByte b3 = true
            · right
              obtain ⟨c, hc⟩ := enc_four b0 b1 b2 b3 h4 hc.1 hc.2.1 hc.2.2
              exact ⟨c, r3, by rw [hc]; rfl, by rw [← decode_enc, hc]; rfl⟩
            · left
              refine ⟨decode (b1 :: b2 :: b3 :: r3), ?_⟩
              rw [decode_cons, if_neg h1, if_neg h2, if_neg h3, if_pos h4]
              have : (accepts b0.toNat b1 && contByte b2 && contByte b3) = false := by
                cases h : (accepts b0.toNat b1 && contByte b2 && contByte b3) with
                | false => rfl
                | true =>
                  rw [Bool.and_eq_true, Bool.and_eq_true] at h
                  exact absurd ⟨h.1.1, h.1.2, h.2⟩ hc
              simp only [this, Bool.false_eq_true, if_false]
        · left
          exact ⟨decode rest, decode_bad_lead b0 rest h1 h2 h3 h4⟩

/-- A valid Go string is the encoding of a sequence of characters. -/
theorem valid_chars : ∀ (n : Nat) (bs : List UInt8), bs.length ≤ n → ValidString bs = true →
    ∃ cs : List Char, cs.flatMap String.utf8EncodeChar = bs := by
  intro n
  induction n with
  | zero =>
    intro bs hl _
    have : bs = [] := List.eq_nil_of_length_eq_zero (by omega)
    exact ⟨[], by simp [this]⟩
  | succ n ih =>
    intro bs hl hv
    cases bs with
    | nil => exact ⟨[], rfl⟩
    | cons b0 rest =>
      rcases decode_head b0 rest with ⟨l, hd⟩ | ⟨c, r, hsplit, hd⟩
      · rw [ValidString_cons_none (b0 :: rest) l hd] at hv
        cases hv
      · rw [ValidString_cons_some c.toNat (b0 :: rest) r hd] at hv
        have hlen : r.length ≤ n := by
          have h1 := congrArg List.length hsplit
          have h2 := Char.utf8Size_pos c
          simp only [List.length_cons, List.length_append, String.length_utf8EncodeChar] at h1
          simp only [List.length_cons] at hl
          omega
        obtain ⟨cs, hcs⟩ := ih r hlen hv
        exact ⟨c :: cs, by rw [List.flatMap_cons, hcs, hsplit]⟩

/-- The valid Go strings are the encodings of the Lean strings. -/
theorem valid_iff_bytes (bs : List UInt8) : ValidString bs = true ↔ ∃ s : String, bytes s = bs := by
  constructor
  · intro h
    obtain ⟨cs, hcs⟩ := valid_chars bs.length bs (Nat.le_refl _) h
    exact ⟨⟨cs⟩, by rw [bytes_eq]; exact hcs⟩
  · rintro ⟨s, rfl⟩
    rw [ValidString, decode_bytes, List.all_eq_true]
    intro x hx
    obtain ⟨c, _, rfl⟩ := List.mem_map.1 hx
    rfl

theorem RuneCount_bytes (s : String) : RuneCountInString (bytes s) = s.length := by
  rw [RuneCountInString, decode_bytes, List.length_map, String.length]

/-- A valid seed beyond the limit of `regexp.Compile` puts nothing in scope. -/
theorem scopeTest_long (seed link : List UInt8) (hs : ValidString seed = true)
    (hlen : maxRunes < RuneCountInString seed) (hl : ValidString link = true) :
    scopeTest seed link = false := by
  obtain ⟨s, rfl⟩ := (valid_iff_bytes seed).1 hs
  obtain ⟨c, rfl⟩ := (valid_iff_bytes link).1 hl
  rw [RuneCount_bytes] at hlen
  exact inScope_long s c hlen

/-! ## Lists of goroutines -/

theorem countP_set_add {α : Type} (p : α → Bool) (l : List α) (i : Nat) (a b : α)
    (h : l[i]? = some a) :
    (l.set i b).countP p + b2n (p a) = l.countP p + b2n (p b) := by
  induction l generalizing i with
  | nil => simp at h
  | cons x xs ih =>
    cases i with
    | zero =>
      simp only [List.getElem?_cons_zero, Option.some.injEq] at h
      subst h
      simp only [List.set_cons_zero, List.countP_cons, b2n]
      split <;> split <;> omega
    | succ i =>
      simp only [List.getElem?_cons_succ] at h
      have := ih i h
      simp only [List.set_cons_succ, List.countP_cons]
      omega

theorem apply_tasks_length (s : State) (i : Nat) (t : Task) (o : Outcome) :
    (apply s i t o).tasks.length = s.tasks.length + b2n o.child.isSome := by
  cases h : o.child <;> simp [apply, h, b2n]

/-- The goroutines after a step: the one that moved, the others unchanged, and
the one just started. -/
theorem apply_tasks_get (s : State) (i : Nat) (t : Task) (o : Outcome) (j : Nat) (tj : Task)
    (hi : s.tasks[i]? = some t) :
    (apply s i t o).tasks[j]? = some tj ↔
      (j = i ∧ tj = { t with pc := o.pc }) ∨ (j ≠ i ∧ s.tasks[j]? = some tj) ∨
        (j = s.tasks.length ∧ o.child = some tj) := by
  have hilt : i < s.tasks.length := by
    rcases List.getElem?_eq_some_iff.1 hi with ⟨h, _⟩
    exact h
  simp only [apply]
  by_cases hj : j < s.tasks.length
  · rw [List.getElem?_append_left (by simpa using hj)]
    by_cases hji : j = i
    · subst hji
      simp [List.getElem?_set, hj, eq_comm]
      omega
    · have hij : i ≠ j := fun h => hji h.symm
      simp [List.getElem?_set, hji, hij]
      omega
  · have hji : j ≠ i := by omega
    rw [List.getElem?_append_right (by simpa using hj)]
    simp only [List.length_set, hji, false_and, true_and, false_or]
    have hnone : s.tasks[j]? = none := List.getElem?_eq_none (by omega)
    simp only [hnone, false_or]
    cases hc : o.child with
    | none => simp
    | some c =>
      by_cases hjl : j = s.tasks.length
      · subst hjl
        simp
      · have : j - s.tasks.length ≠ 0 := by omega
        simp [hjl]
        intro h
        have hlt := (List.getElem?_eq_some_iff.1 h).1
        simp at hlt
        omega

theorem apply_tasks_old (s : State) (i : Nat) (t : Task) (o : Outcome) (j : Nat) (tj : Task)
    (hi : s.tasks[i]? = some t) (hj : s.tasks[j]? = some tj) :
    ∃ tj2, (apply s i t o).tasks[j]? = some tj2 ∧ tj2.url = tj.url ∧ tj2.depth = tj.depth ∧
      (j ≠ i → tj2 = tj) ∧ (j = i → tj2.pc = o.pc) := by
  by_cases hji : j = i
  · subst hji
    rw [hi] at hj
    cases hj
    exact ⟨{ t with pc := o.pc }, (apply_tasks_get s j t o j _ hi).2 (Or.inl ⟨rfl, rfl⟩),
      rfl, rfl, fun h => absurd rfl h, fun _ => rfl⟩
  · exact ⟨tj, (apply_tasks_get s i t o j _ hi).2 (Or.inr (Or.inl ⟨hji, hj⟩)),
      rfl, rfl, fun _ => rfl, fun h => absurd h hji⟩

/-! ## What one action does -/

theorem trans_permits {U : Type} {env : Env U} {s : State} {t : Task} {a : Action}
    {o : Outcome} (h : Trans env s t a o) :
    o.permits + b2n (holds t.pc) = s.permits + b2n (holds o.pc) := by
  cases h <;> simp_all [goto, holds, b2n]
  omega

theorem trans_wg {U : Type} {env : Env U} {s : State} {t : Task} {a : Action}
    {o : Outcome} (h : Trans env s t a o) :
    o.wg + (b2n (live t.pc) : Int) = s.wg + (b2n (live o.pc) : Int) + (b2n o.child.isSome : Int) := by
  cases h <;> simp_all [goto, live, b2n]

theorem trans_child {U : Type} {env : Env U} {s : State} {t : Task} {a : Action}
    {o : Outcome} (h : Trans env s t a o) (c : Task) (hc : o.child = some c) :
    c.pc = PC.spawned ∧ c.depth = addInt t.depth 1 ∧ a = Action.spawn ∧
      (∃ rest, t.pc = PC.sleeping c.url rest ∧ o.pc = PC.expanding rest) := by
  cases h <;> simp_all [goto]
  subst hc
  simp

theorem trans_visited {U : Type} {env : Env U} {s : State} {t : Task} {a : Action}
    {o : Outcome} (h : Trans env s t a o) :
    (claimed o.pc = claimed t.pc ∧ o.visited = s.visited) ∨
      (a = Action.claim ∧ t.pc = PC.depthOk ∧ o.pc = PC.fetching ∧ t.url ∉ s.visited ∧
        o.visited = t.url :: s.visited) := by
  cases h <;> simp_all [goto, claimed, Exit.afterClaim]

theorem trans_checked {U : Type} {env : Env U} {s : State} {t : Task} {a : Action}
    {o : Outcome} (h : Trans env s t a o) (hc : checked o.pc = true) :
    checked t.pc = true ∨ t.depth ≤ env.maxDepth := by
  cases h <;> simp_all [goto, checked]

theorem trans_file {U : Type} {env : Env U} {s : State} {t : Task} {a : Action}
    {o : Outcome} (h : Trans env s t a o) :
    (wrote o.pc = wrote t.pc ∧ (o.file = s.file ∨ o.file = s.file ++ [Chunk.newline])) ∨
      (∃ ok, a = Action.writeJSON ok ∧ wrote t.pc = false ∧ wrote o.pc = true ∧
        claimed t.pc = true ∧
        (o.file = s.file ∨ ∃ html, ok = true ∧
          o.file = s.file ++ [Chunk.json { url := t.url, html := html }])) := by
  cases h <;> simp_all [goto, wrote, parsed, claimed]

theorem wrote_claimed (pc : PC) (h : wrote pc = true) : claimed pc = true := by
  cases pc <;> simp_all [wrote, parsed, claimed, Exit.afterClaim]

theorem trans_claimed_mono {U : Type} {env : Env U} {s : State} {t : Task} {a : Action}
    {o : Outcome} (h : Trans env s t a o) (hc : claimed t.pc = true) : claimed o.pc = true := by
  rcases trans_visited h with ⟨h1, _⟩ | ⟨_, h1, _⟩
  · rw [h1]; exact hc
  · rw [h1] at hc; simp [claimed] at hc

theorem trans_visited_mono {U : Type} {env : Env U} {s : State} {t : Task} {a : Action}
    {o : Outcome} (h : Trans env s t a o) (u : String) (hu : u ∈ s.visited) : u ∈ o.visited := by
  rcases trans_visited h with ⟨_, h1⟩ | ⟨_, _, _, _, h1⟩
  · rw [h1]; exact hu
  · rw [h1]; exact List.mem_cons_of_mem _ hu

/-! ## The invariant -/

theorem inv_init {U : Type} (env : Env U) : Inv env (init env) := by
  refine ⟨?_, ?_, ?_, ?_, ?_, ?_, ?_, ?_⟩
  · simp [init, holds]
  · simp [init, live]
  · intro i t ht hc
    cases i with
    | zero =>
      simp only [init, List.getElem?_cons_zero, Option.some.injEq] at ht
      subst ht
      simp [claimed] at hc
    | succ i => simp [init] at ht
  · intro i j ti tj hi hj hci
    cases i with
    | zero =>
      simp only [init, List.getElem?_cons_zero, Option.some.injEq] at hi
      subst hi
      simp [claimed] at hci
    | succ i => simp [init] at hi
  · intro u hu
    simp [init] at hu
  · intro i t ht hc
    cases i with
    | zero =>
      simp only [init, List.getElem?_cons_zero, Option.some.injEq] at ht
      subst ht
      simp [checked] at hc
    | succ i => simp [init] at ht
  · intro d hd
    simp [init] at hd
  · simp [init, records]

theorem child_countP (p : PC → Bool) (hp : p PC.spawned = false) {U : Type} {env : Env U}
    {s : State} {t : Task} {a : Action} {o : Outcome} (hT : Trans env s t a o) :
    o.child.toList.countP (fun t => p t.pc) = 0 := by
  cases hc : o.child with
  | none => simp
  | some c =>
    have := (trans_child hT c hc).1
    simp [this, hp]

theorem records_append (f g : List Chunk) : records (f ++ g) = records f ++ records g := by
  simp [records, List.filterMap_append]

theorem mem_records (f : List Chunk) (d : Data) : d ∈ records f ↔ Chunk.json d ∈ f := by
  simp only [records, List.mem_filterMap]
  constructor
  · rintro ⟨c, hc, h⟩
    cases c with
    | json d2 =>
      simp only [Option.some.injEq] at h
      subst h
      exact hc
    | newline => simp at h
  · intro h
    exact ⟨Chunk.json d, h, rfl⟩

theorem inv_step {U : Type} (env : Env U) (s s2 : State) (e : Event) (hI : Inv env s)
    (h : step env s e = some s2) : Inv env s2 := by
  cases e with
  | wait =>
    obtain ⟨_, _, rfl⟩ := (step_wait_iff env s s2).1 h
    exact ⟨hI.permits, hI.wg, hI.marked, hI.unique, hI.owner, hI.depth, hI.writer, hI.nodup⟩
  | task i a =>
    obtain ⟨t, o, ht, hT, rfl⟩ := (step_task_iff env s s2 i a).1 h
    have hget := fun j tj => apply_tasks_get s i t o j tj ht
    refine ⟨?_, ?_, ?_, ?_, ?_, ?_, ?_, ?_⟩
    · -- permits
      show o.permits = (s.tasks.set i { t with pc := o.pc } ++ o.child.toList).countP _
      rw [List.countP_append, child_countP holds rfl hT]
      have h1 := countP_set_add (fun t => holds t.pc) s.tasks i t { t with pc := o.pc } ht
      have h2 := trans_permits hT
      have h3 := hI.permits
      simp only at h1
      omega
    · -- wg
      show o.wg = ((s.tasks.set i { t with pc := o.pc } ++ o.child.toList).countP _ : Nat)
      rw [List.countP_append]
      have h1 := countP_set_add (fun t => live t.pc) s.tasks i t { t with pc := o.pc } ht
      have h2 := trans_wg hT
      have h3 := hI.wg
      have h4 : o.child.toList.countP (fun t => live t.pc) = b2n o.child.isSome := by
        cases hc : o.child with
        | none => simp [b2n]
        | some c =>
          have := (trans_child hT c hc).1
          simp [this, live, b2n]
      simp only at h1
      omega
    · -- marked
      intro j tj hj hc
      show tj.url ∈ o.visited
      rcases (hget j tj).1 hj with ⟨rfl, rfl⟩ | ⟨hji, hj2⟩ | ⟨_, hj2⟩
      · rcases trans_visited hT with ⟨h1, h2⟩ | ⟨_, _, _, _, h2⟩
        · rw [h2]
          exact hI.marked j t ht (by rw [← h1]; exact hc)
        · rw [h2]
          exact List.mem_cons_self _ _
      · exact trans_visited_mono hT _ (hI.marked j tj hj2 hc)
      · have := (trans_child hT tj hj2).1
        rw [this] at hc
        simp [claimed] at hc
    · -- unique
      intro j k tj tk hj hk hcj hck hurl
      have hnochild : ∀ (c : Task), o.child = some c → claimed c.pc = true → False := by
        intro c hc1 hc2
        rw [(trans_child hT c hc1).1] at hc2
        simp [claimed] at hc2
      rcases (hget j tj).1 hj with ⟨rfl, rfl⟩ | ⟨hji, hj2⟩ | ⟨_, hj2⟩
      · rcases (hget k tk).1 hk with ⟨rfl, rfl⟩ | ⟨hki, hk2⟩ | ⟨_, hk2⟩
        · rfl
        · rcases trans_visited hT with ⟨h1, _⟩ | ⟨_, _, _, h2, _⟩
          · exact hI.unique j k t tk ht hk2 (by rw [← h1]; exact hcj) hck hurl
          · exact absurd (hI.marked k tk hk2 hck) (by rw [← hurl]; exact h2)
        · exact absurd hck (fun h => hnochild tk hk2 h)
      · rcases (hget k tk).1 hk with ⟨rfl, rfl⟩ | ⟨hki, hk2⟩ | ⟨_, hk2⟩
        · rcases trans_visited hT with ⟨h1, _⟩ | ⟨_, _, _, h2, _⟩
          · exact hI.unique j k tj t hj2 ht hcj (by rw [← h1]; exact hck) hurl
          · exact absurd (hI.marked j tj hj2 hcj) (by rw [hurl]; exact h2)
        · exact hI.unique j k tj tk hj2 hk2 hcj hck hurl
        · exact absurd hck (fun h => hnochild tk hk2 h)
      · exact absurd hcj (fun h => hnochild tj hj2 h)
    · -- owner
      intro u hu
      have hu2 : u ∈ o.visited := hu
      have hold : ∀ (j : Nat) (tj : Task), s.tasks[j]? = some tj → tj.url = u →
          claimed tj.pc = true →
          ∃ (i2 : Nat) (t2 : Task), (apply s i t o).tasks[i2]? = some t2 ∧ t2.url = u ∧
            claimed t2.pc = true := by
        intro j tj hj hju hjc
        obtain ⟨tj2, h1, h2, _, h4, h5⟩ := apply_tasks_old s i t o j tj ht hj
        refine ⟨j, tj2, h1, h2.trans hju, ?_⟩
        by_cases hji : j = i
        · subst hji
          rw [ht] at hj
          cases hj
          rw [h5 rfl]
          exact trans_claimed_mono hT hjc
        · rw [h4 hji]
          exact hjc
      rcases trans_visited hT with ⟨_, h2⟩ | ⟨_, _, h3, _, h2⟩
      · rw [h2] at hu2
        obtain ⟨j, tj, hj, hju, hjc⟩ := hI.owner u hu2
        exact hold j tj hj hju hjc
      · rw [h2] at hu2
        rcases List.mem_cons.1 hu2 with rfl | hu3
        · exact ⟨i, { t with pc := o.pc }, (hget i _).2 (Or.inl ⟨rfl, rfl⟩), rfl,
            by simp [h3, claimed]⟩
        · obtain ⟨j, tj, hj, hju, hjc⟩ := hI.owner u hu3
          exact hold j tj hj hju hjc
    · -- depth
      intro j tj hj hc
      rcases (hget j tj).1 hj with ⟨rfl, rfl⟩ | ⟨hji, hj2⟩ | ⟨_, hj2⟩
      · rcases trans_checked hT hc with h1 | h1
        · exact hI.depth j t ht h1
        · exact h1
      · exact hI.depth j tj hj2 hc
      · rw [(trans_child hT tj hj2).1] at hc
        simp [checked] at hc
    · -- writer
      intro d hd
      have hd2 : Chunk.json d ∈ o.file := hd
      have hold : Chunk.json d ∈ s.file →
          ∃ (i2 : Nat) (t2 : Task), (apply s i t o).tasks[i2]? = some t2 ∧ t2.url = d.url ∧
            wrote t2.pc = true := by
        intro hds
        obtain ⟨j, tj, hj, hju, hjw⟩ := hI.writer d hds
        obtain ⟨tj2, h1, h2, _, h4, h5⟩ := apply_tasks_old s i t o j tj ht hj
        refine ⟨j, tj2, h1, h2.trans hju, ?_⟩
        by_cases hji : j = i
        · subst hji
          rw [ht] at hj
          cases hj
          rw [h5 rfl]
          rcases trans_file hT with ⟨h6, _⟩ | ⟨_, _, _, h6, _⟩
          · rw [h6]; exact hjw
          · exact h6
        · rw [h4 hji]
          exact hjw
      rcases trans_file hT with ⟨_, h2 | h2⟩ | ⟨ok, _, _, h3, _, h2 | ⟨html, _, h2⟩⟩
      · rw [h2] at hd2
        exact hold hd2
      · rw [h2] at hd2
        simp only [List.mem_append, List.mem_singleton] at hd2
        rcases hd2 with hd3 | hd3
        · exact hold hd3
        · cases hd3
      · rw [h2] at hd2
        exact hold hd2
      · rw [h2] at hd2
        simp only [List.mem_append, List.mem_singleton, Chunk.json.injEq] at hd2
        rcases hd2 with hd3 | hd3
        · exact hold hd3
        · subst hd3
          exact ⟨i, { t with pc := o.pc }, (hget i _).2 (Or.inl ⟨rfl, rfl⟩), rfl, h3⟩
    · -- nodup
      show ((records o.file).map Data.url).Nodup
      rcases trans_file hT with ⟨_, h2 | h2⟩ | ⟨ok, _, hw, _, hcl, h2 | ⟨html, _, h2⟩⟩
      · rw [h2]; exact hI.nodup
      · rw [h2, records_append]
        simpa [records] using hI.nodup
      · rw [h2]; exact hI.nodup
      · rw [h2, records_append]
        have hnew : records [Chunk.json { url := t.url, html := html }]
            = [{ url := t.url, html := html }] := by
          simp [records]
        rw [hnew, List.map_append, List.map_cons, List.map_nil]
        refine List.Nodup.append hI.nodup (List.nodup_singleton _) ?_
        simp only [List.disjoint_singleton, List.mem_map, not_exists, not_and]
        intro d hd hdu
        obtain ⟨j, tj, hj, hju, hjw⟩ := hI.writer d ((mem_records _ _).1 hd)
        have hji := hI.unique j i tj t hj ht (wrote_claimed _ hjw) hcl (hju.trans hdu)
        subst hji
        rw [ht] at hj
        cases hj
        rw [hw] at hjw
        cases hjw

/-- Every reachable state satisfies the invariant. -/
theorem reach_inv {U : Type} (env : Env U) (tr : List Event) (s : State)
    (h : Reach env tr s) : Inv env s := by
  refine Reach.induction env (fun _ s => Inv env s) (inv_init env) ?_ tr s h
  intro tr s e s2 _ hI hs
  exact inv_step env s s2 e hI hs

/-! ## Schedules and program counters -/

theorem trans_live {U : Type} {env : Env U} {s : State} {t : Task} {a : Action}
    {o : Outcome} (h : Trans env s t a o) : live t.pc = true := by
  cases h <;> simp_all [live]

/-- Only goroutines that exist appear in a schedule. -/
theorem reach_events_exist {U : Type} (env : Env U) (tr : List Event) (s : State)
    (h : Reach env tr s) :
    ∀ (i : Nat) (a : Action), Event.task i a ∈ tr → i < s.tasks.length := by
  refine Reach.induction env
    (fun tr s => ∀ (i : Nat) (a : Action), Event.task i a ∈ tr → i < s.tasks.length) ?_ ?_ tr s h
  · intro i a hm
    simp at hm
  · intro tr s e s2 _ ih hs i a hm
    cases e with
    | wait =>
      obtain ⟨_, _, rfl⟩ := (step_wait_iff env s s2).1 hs
      simp only [List.mem_append, List.mem_singleton, reduceCtorEq, or_false] at hm
      exact ih i a hm
    | task j b =>
      obtain ⟨t, o, ht, hT, rfl⟩ := (step_task_iff env s s2 j b).1 hs
      rw [apply_tasks_length]
      simp only [List.mem_append, List.mem_singleton, Event.task.injEq] at hm
      rcases hm with hm | ⟨rfl, _⟩
      · have := ih i a hm
        omega
      · have := (List.getElem?_eq_some_iff.1 ht).1
        omega

theorem count_snoc (E : Action → Bool) (i : Nat) (tr : List Event) (e : Event) :
    count E i (tr ++ [e]) = count E i tr + b2n (Event.isBy E i e) := by
  simp only [count, List.countP_append, List.countP_cons, List.countP_nil, b2n]
  split <;> simp_all

theorem count_eq_zero_of_absent (E : Action → Bool) (i : Nat) (tr : List Event)
    (h : ∀ a, Event.task i a ∉ tr) : count E i tr = 0 := by
  simp only [count, List.countP_eq_zero]
  intro e he
  cases e with
  | wait => simp [Event.isBy]
  | task j a =>
    by_cases hji : j = i
    · subst hji
      exact absurd he (h a)
    · simp [Event.isBy, hji]

/-- If every action of kind `E` switches the class `K` of program counters on,
and nothing else changes it, then a goroutine is in class `K` exactly when it
has done one action of kind `E`, and it never does a second one. -/
theorem history {U : Type} (env : Env U) (E : Action → Bool) (K : PC → Bool)
    (h0 : K PC.spawned = false)
    (hloc : ∀ (s : State) (t : Task) (a : Action) (o : Outcome), Trans env s t a o →
      b2n (K o.pc) = b2n (K t.pc) + b2n (E a))
    (tr : List Event) (s : State) (h : Reach env tr s) :
    ∀ (i : Nat) (t : Task), s.tasks[i]? = some t → count E i tr = b2n (K t.pc) := by
  refine Reach.induction env
    (fun tr s => ∀ (i : Nat) (t : Task), s.tasks[i]? = some t → count E i tr = b2n (K t.pc))
    ?_ ?_ tr s h
  · intro i t ht
    cases i with
    | zero =>
      simp only [init, List.getElem?_cons_zero, Option.some.injEq] at ht
      subst ht
      simp [count, h0, b2n]
    | succ i => simp [init] at ht
  · intro tr s e s2 hr ih hs i t2 ht2
    rw [count_snoc]
    cases e with
    | wait =>
      obtain ⟨_, _, rfl⟩ := (step_wait_iff env s s2).1 hs
      simp only [Event.isBy, b2n, Bool.false_eq_true, if_false, Nat.add_zero]
      exact ih i t2 ht2
    | task j a =>
      obtain ⟨t, o, ht, hT, rfl⟩ := (step_task_iff env s s2 j a).1 hs
      rcases (apply_tasks_get s j t o i t2 ht).1 ht2 with ⟨rfl, rfl⟩ | ⟨hij, hi2⟩ | ⟨hil, hc⟩
      · rw [ih i t ht, hloc s t a o hT]
        simp [Event.isBy]
      · rw [ih i t2 hi2]
        simp [Event.isBy, Ne.symm hij, b2n]
      · have hjlt := (List.getElem?_eq_some_iff.1 ht).1
        have hji : j ≠ i := by omega
        have habs : ∀ b, Event.task i b ∉ tr := by
          intro b hb
          have := reach_events_exist env tr s hr i b hb
          omega
        rw [count_eq_zero_of_absent E i tr habs, (trans_child hT t2 hc).1, h0]
        simp [Event.isBy, hji, b2n]

theorem count_pos_iff (E : Action → Bool) (i : Nat) (tr : List Event) :
    0 < count E i tr ↔ ∃ a, E a = true ∧ Event.task i a ∈ tr := by
  simp only [count, List.countP_pos_iff]
  constructor
  · rintro ⟨e, he, h⟩
    cases e with
    | wait => simp [Event.isBy] at h
    | task j a =>
      simp only [Event.isBy, Bool.and_eq_true, decide_eq_true_eq] at h
      obtain ⟨rfl, h2⟩ := h
      exact ⟨a, h2, he⟩
  · rintro ⟨a, ha, he⟩
    exact ⟨Event.task i a, he, by simp [Event.isBy, ha]⟩

/-- A goroutine is in class `K` exactly when its schedule contains an action
of kind `E`. -/
theorem history_mem {U : Type} (env : Env U) (E : Action → Bool) (K : PC → Bool)
    (h0 : K PC.spawned = false)
    (hloc : ∀ (s : State) (t : Task) (a : Action) (o : Outcome), Trans env s t a o →
      b2n (K o.pc) = b2n (K t.pc) + b2n (E a))
    (tr : List Event) (s : State) (h : Reach env tr s) (i : Nat) (t : Task)
    (ht : s.tasks[i]? = some t) :
    K t.pc = true ↔ ∃ a, E a = true ∧ Event.task i a ∈ tr := by
  rw [← count_pos_iff, history env E K h0 hloc tr s h i t ht]
  cases K t.pc <;> simp [b2n]

theorem loc_acquire {U : Type} {env : Env U} (s : State) (t : Task) (a : Action) (o : Outcome)
    (h : Trans env s t a o) :
    b2n (didAcquire o.pc) = b2n (didAcquire t.pc) + b2n (Action.isAcquire a) := by
  cases h <;> simp_all [goto, didAcquire, Action.isAcquire, b2n]

theorem loc_release {U : Type} {env : Env U} (s : State) (t : Task) (a : Action) (o : Outcome)
    (h : Trans env s t a o) :
    b2n (didRelease o.pc) = b2n (didRelease t.pc) + b2n (Action.isRelease a) := by
  cases h <;> simp_all [goto, didRelease, Action.isRelease, b2n]

theorem loc_fetch {U : Type} {env : Env U} (s : State) (t : Task) (a : Action) (o : Outcome)
    (h : Trans env s t a o) :
    b2n (didFetch o.pc) = b2n (didFetch t.pc) + b2n (Action.isFetch a) := by
  cases h <;> simp_all [goto, didFetch, claimed, Exit.afterClaim, Action.isFetch, b2n]

theorem loc_fetchOk {U : Type} {env : Env U} (s : State) (t : Task) (a : Action) (o : Outcome)
    (h : Trans env s t a o) :
    b2n (fetched o.pc) = b2n (fetched t.pc) + b2n (Action.isFetchOk a) := by
  cases h <;> simp_all [goto, fetched, claimed, Exit.afterClaim, Action.isFetchOk, b2n]

theorem loc_write {U : Type} {env : Env U} (s : State) (t : Task) (a : Action) (o : Outcome)
    (h : Trans env s t a o) :
    b2n (wrote o.pc) = b2n (wrote t.pc) + b2n (Action.isWrite a) := by
  cases h <;> simp_all [goto, wrote, parsed, Action.isWrite, b2n]

/-- If actions of kind `E` are only done in class `K`, and `K` is never left,
then a goroutine whose schedule contains such an action is in class `K`. -/
theorem history_imp {U : Type} (env : Env U) (E : Action → Bool) (K : PC → Bool)
    (hloc : ∀ (s : State) (t : Task) (a : Action) (o : Outcome), Trans env s t a o →
      (E a = true → K o.pc = true) ∧ (K t.pc = true → K o.pc = true))
    (tr : List Event) (s : State) (h : Reach env tr s) :
    ∀ (i : Nat) (t : Task) (a : Action), s.tasks[i]? = some t → Event.task i a ∈ tr →
      E a = true → K t.pc = true := by
  refine Reach.induction env
    (fun tr s => ∀ (i : Nat) (t : Task) (a : Action), s.tasks[i]? = some t →
      Event.task i a ∈ tr → E a = true → K t.pc = true) ?_ ?_ tr s h
  · intro i t a _ hm
    simp at hm
  · intro tr s e s2 hr ih hs i t2 a ht2 hm hE
    cases e with
    | wait =>
      obtain ⟨_, _, rfl⟩ := (step_wait_iff env s s2).1 hs
      simp only [List.mem_append, List.mem_singleton, reduceCtorEq, or_false] at hm
      exact ih i t2 a ht2 hm hE
    | task j b =>
      obtain ⟨t, o, ht, hT, rfl⟩ := (step_task_iff env s s2 j b).1 hs
      simp only [List.mem_append, List.mem_singleton, Event.task.injEq] at hm
      rcases (apply_tasks_get s j t o i t2 ht).1 ht2 with ⟨rfl, rfl⟩ | ⟨hij, hi2⟩ | ⟨hil, hc⟩
      · rcases hm with hm | ⟨_, rfl⟩
        · exact (hloc s t b o hT).2 (ih i t a ht hm hE)
        · exact (hloc s t a o hT).1 hE
      · rcases hm with hm | ⟨h1, _⟩
        · exact ih i t2 a hi2 hm hE
        · exact absurd h1 hij
      · rcases hm with hm | ⟨h1, _⟩
        · have := reach_events_exist env tr s hr i a hm
          omega
        · have := (List.getElem?_eq_some_iff.1 ht).1
          omega

theorem loc_spawn {U : Type} {env : Env U} (s : State) (t : Task) (a : Action) (o : Outcome)
    (h : Trans env s t a o) :
    (Action.isSpawn a = true → parsed o.pc = true) ∧ (parsed t.pc = true → parsed o.pc = true) := by
  cases h <;> simp_all [goto, parsed, Action.isSpawn]

/-- The file only changes when `file.Write(jsonData)` or
`file.WriteString("\n")` succeeds. -/
theorem trans_records {U : Type} {env : Env U} {s : State} {t : Task} {a : Action}
    {o : Outcome} (h : Trans env s t a o) :
    (a = Action.writeJSON true ∧
        ∃ html, o.file = s.file ++ [Chunk.json { url := t.url, html := html }]) ∨
      (a ≠ Action.writeJSON true ∧ ∀ d, Chunk.json d ∈ o.file ↔ Chunk.json d ∈ s.file) := by
  cases h <;> simp_all [goto]

/-- The records in the file are exactly those of the successful
`file.Write(jsonData)` in the schedule. -/
theorem reach_records {U : Type} (env : Env U) (tr : List Event) (s : State)
    (h : Reach env tr s) :
    ∀ u, (∃ d, Chunk.json d ∈ s.file ∧ d.url = u) ↔
      ∃ (i : Nat) (t : Task), s.tasks[i]? = some t ∧ t.url = u ∧
        Event.task i (Action.writeJSON true) ∈ tr := by
  refine Reach.induction env
    (fun tr s => ∀ u, (∃ d, Chunk.json d ∈ s.file ∧ d.url = u) ↔
      ∃ (i : Nat) (t : Task), s.tasks[i]? = some t ∧ t.url = u ∧
        Event.task i (Action.writeJSON true) ∈ tr) ?_ ?_ tr s h
  · intro u
    simp [init]
  · intro tr s e s2 hr ih hs u
    cases e with
    | wait =>
      obtain ⟨_, _, rfl⟩ := (step_wait_iff env s s2).1 hs
      simp only [List.mem_append, List.mem_singleton, reduceCtorEq, or_false]
      exact ih u
    | task j b =>
      obtain ⟨t, o, ht, hT, rfl⟩ := (step_task_iff env s s2 j b).1 hs
      have hfile : (apply s j t o).file = o.file := rfl
      rw [hfile]
      constructor
      · rintro ⟨d, hd, hdu⟩
        have hold : Chunk.json d ∈ s.file →
            ∃ (i : Nat) (t2 : Task), (apply s j t o).tasks[i]? = some t2 ∧ t2.url = u ∧
              Event.task i (Action.writeJSON true) ∈ tr ++ [Event.task j b] := by
          intro hds
          obtain ⟨i, ti, hi, hiu, hie⟩ := (ih u).1 ⟨d, hds, hdu⟩
          obtain ⟨ti2, h1, h2, _⟩ := apply_tasks_old s j t o i ti ht hi
          exact ⟨i, ti2, h1, h2.trans hiu, List.mem_append_left _ hie⟩
        rcases trans_records hT with ⟨rfl, html, hf⟩ | ⟨_, hf⟩
        · rw [hf] at hd
          simp only [List.mem_append, List.mem_singleton, Chunk.json.injEq] at hd
          rcases hd with hd | rfl
          · exact hold hd
          · exact ⟨j, { t with pc := o.pc },
              (apply_tasks_get s j t o j _ ht).2 (Or.inl ⟨rfl, rfl⟩), hdu, by simp⟩
        · exact hold ((hf d).1 hd)
      · rintro ⟨i, t2, hi2, hiu, hm⟩
        simp only [List.mem_append, List.mem_singleton, Event.task.injEq] at hm
        have hgrow : ∀ d, Chunk.json d ∈ s.file → Chunk.json d ∈ o.file := by
          intro d hd
          rcases trans_records hT with ⟨_, html, hf⟩ | ⟨_, hf⟩
          · rw [hf]
            exact List.mem_append_left _ hd
          · exact (hf d).2 hd
        rcases hm with hm | ⟨rfl, rfl⟩
        · have hlt := reach_events_exist env tr s hr i _ hm
          have hurl : ∃ t1, s.tasks[i]? = some t1 ∧ t1.url = u := by
            rcases (apply_tasks_get s j t o i t2 ht).1 hi2 with ⟨rfl, rfl⟩ | ⟨_, h2⟩ | ⟨h2, _⟩
            · exact ⟨t, ht, hiu⟩
            · exact ⟨t2, h2, hiu⟩
            · omega
          obtain ⟨t1, h1, h1u⟩ := hurl
          obtain ⟨d, hd, hdu⟩ := (ih u).2 ⟨i, t1, h1, h1u, hm⟩
          exact ⟨d, hgrow d hd, hdu⟩
        · rcases trans_records hT with ⟨_, html, hf⟩ | ⟨hne, _⟩
          · have h2u : t2.url = t.url := by
              rcases (apply_tasks_get s i t o i t2 ht).1 hi2 with ⟨_, rfl⟩ | ⟨h2, _⟩ | ⟨h2, _⟩
              · rfl
              · exact absurd rfl h2
              · have := (List.getElem?_eq_some_iff.1 ht).1
                omega
            refine ⟨{ url := t.url, html := html }, ?_, h2u.symm.trans hiu⟩
            rw [hf]
            simp
          · exact absurd rfl hne

/-! ## Progress -/

/-- A goroutine holding a permit is never blocked. -/
theorem holder_enabled {U : Type} (env : Env U) (s : State) (hI : Inv env s) (i : Nat)
    (t : Task) (ht : s.tasks[i]? = some t) (hh : holds t.pc = true) :
    ∃ a s2, step env s (Event.task i a) = some s2 := by
  have hpos : 0 < s.permits := by
    rw [hI.permits, List.countP_pos_iff]
    exact ⟨t, List.getElem?_mem ht, hh⟩
  have key : ∃ a o, Trans env s t a o := by
    cases hpc : t.pc with
    | spawned => simp [hpc, holds] at hh
    | acquired =>
      by_cases hd : t.depth > env.maxDepth
      · exact ⟨_, _, Trans.tooDeep hpc hd⟩
      · exact ⟨_, _, Trans.depthOk hpc hd⟩
    | depthOk =>
      by_cases hv : t.url ∈ s.visited
      · exact ⟨_, _, Trans.duplicate hpc hv⟩
      · exact ⟨_, _, Trans.claimed hpc hv⟩
    | fetching => exact ⟨_, _, Trans.fetchFailed HttpReply.getError hpc rfl⟩
    | parsing html => exact ⟨_, _, Trans.parseFailed html hpc⟩
    | writing htmlText hrefs => exact ⟨_, _, Trans.wroteJSON htmlText hrefs hpc⟩
    | newline hrefs => exact ⟨_, _, Trans.wroteNewline hrefs hpc⟩
    | expanding hrefs =>
      cases hrefs with
      | nil => exact ⟨_, _, Trans.finish hpc⟩
      | cons href rest =>
        cases hin : inScope env.startURL (normalizeURL env t.url href) with
        | true => exact ⟨_, _, Trans.follow href rest hpc hin⟩
        | false => exact ⟨_, _, Trans.skip href rest hpc hin⟩
    | sleeping nextURL rest => exact ⟨_, _, Trans.spawn nextURL rest hpc⟩
    | returning e => exact ⟨_, _, Trans.release e hpc hpos⟩
    | released e => simp [hpc, holds] at hh
    | done e => simp [hpc, holds] at hh
  obtain ⟨a, o, hT⟩ := key
  exact ⟨a, apply s i t o, (step_task_iff env s _ i a).2 ⟨t, o, ht, hT, rfl⟩⟩

/-- Every action moves the goroutine on: to a later stage of `Crawl`, or
further down the list of links. -/
theorem trans_progress {U : Type} {env : Env U} {s : State} {t : Task} {a : Action}
    {o : Outcome} (h : Trans env s t a o) :
    rank t.pc < rank o.pc ∨ (rank t.pc = rank o.pc ∧ loopSize o.pc < loopSize t.pc) := by
  cases h <;> simp_all [goto, rank, loopSize]
  omega

theorem holds_iff (pc : PC) : holds pc = true ↔ didAcquire pc = true ∧ didRelease pc = false := by
  cases pc <;> simp [holds, didAcquire, didRelease]

/-- Once `wg.Wait()` has returned, every goroutine is done. -/
theorem waited_all_done {U : Type} (env : Env U) (tr : List Event) (s : State)
    (h : Reach env tr s) (hw : s.waited = true) :
    ∀ (i : Nat) (t : Task), s.tasks[i]? = some t → live t.pc = false := by
  have key : s.waited = true → s.wg = 0 := by
    refine Reach.induction env (fun _ s => s.waited = true → s.wg = 0) ?_ ?_ tr s h
    · intro hw
      simp [init] at hw
    · intro tr s e s2 hr ih hs hw2
      cases e with
      | wait =>
        obtain ⟨h1, _, rfl⟩ := (step_wait_iff env s s2).1 hs
        exact h1
      | task j b =>
        obtain ⟨t, o, ht, hT, rfl⟩ := (step_task_iff env s s2 j b).1 hs
        have hwg := ih hw2
        have hI := reach_inv env tr s hr
        have h0 : s.tasks.countP (fun t => live t.pc) = 0 := by
          have := hI.wg
          omega
        rw [List.countP_eq_zero] at h0
        exact absurd (trans_live hT) (h0 t (List.getElem?_mem ht))
  have hI := reach_inv env tr s h
  have h0 : s.tasks.countP (fun t => live t.pc) = 0 := by
    have := hI.wg
    have := key hw
    omega
  rw [List.countP_eq_zero] at h0
  intro i t ht
  simpa using h0 t (List.getElem?_mem ht)

theorem inScopeLinks_cons_in {U : Type} (env : Env U) (url href : String) (rest : List String)
    (h : inScope env.startURL (normalizeURL env url href) = true) :
    inScopeLinks env url (href :: rest) = normalizeURL env url href :: inScopeLinks env url rest := by
  simp [inScopeLinks, List.filter_cons, h]

theorem inScopeLinks_cons_out {U : Type} (env : Env U) (url href : String) (rest : List String)
    (h : inScope env.startURL (normalizeURL env url href) = false) :
    inScopeLinks env url (href :: rest) = inScopeLinks env url rest := by
  simp [inScopeLinks, List.filter_cons, h]

theorem drop_eq_cons_tail {α : Type} (L : List α) (k : Nat) (x : α) (xs : List α)
    (h : x :: xs = L.drop k) : L[k]? = some x ∧ xs = L.drop (k + 1) := by
  induction L generalizing k with
  | nil => simp at h
  | cons y ys ih =>
    cases k with
    | zero =>
      simp only [List.drop_zero, List.cons.injEq] at h
      simp [h.1, h.2]
    | succ k =>
      simp only [List.drop_succ_cons] at h
      simpa using ih k h

theorem seed_step {U : Type} {env : Env U} {s : State} {t : Task} {a : Action} {o : Outcome}
    (L : List String) (n : Nat) (hT : Trans env s t a o)
    (hurl : t.url = env.startURL) (hdepth : t.depth = 0) (hmax : env.maxDepth = 1)
    (T : List Task) (j : Nat) (t2 : Task) (hT2 : T[j]? = some t2) (hu2 : t2.url = t.url)
    (hsm : smooth env L T (Event.task j a) = true)
    (hnodup : t.pc = PC.depthOk → n = 1 → t.url ∉ s.visited)
    (hn1 : 1 ≤ n) (hn2 : n ≤ L.length + 1)
    (hok : SeedOk env L n t.pc) :
    SeedOk env L (n + b2n o.child.isSome) o.pc := by
  cases hT with
  | acquire hp _ => simp_all [SeedOk, goto, b2n]
  | tooDeep hp hd => omega
  | depthOk hp _ => simp_all [SeedOk, goto, b2n]
  | claimed hp _ => simp_all [SeedOk, goto, b2n]
  | duplicate hp hv =>
    rw [hp] at hok
    exact absurd hv (hnodup hp hok)
  | fetched r html hp _ _ => simp_all [SeedOk, goto, b2n]
  | fetchFailed r hp hr => simp [smooth, hr] at hsm
  | parsed html doc hp =>
    rw [hp] at hok
    have hn : n = 1 := hok
    simp only [smooth, hT2, hu2, hurl, if_true, decide_eq_true_eq] at hsm
    simp [SeedOk, goto, b2n, hn, hsm]
  | parseFailed html hp => simp [smooth] at hsm
  | wroteJSON htmlText hrefs hp => simp_all [SeedOk, goto, b2n]
  | writeFailed htmlText hrefs hp => simp_all [SeedOk, goto, b2n]
  | wroteNewline hrefs hp => simp_all [SeedOk, goto, b2n]
  | newlineFailed hrefs hp => simp_all [SeedOk, goto, b2n]
  | follow href rest hp hin =>
    rw [hp] at hok
    rw [hurl] at hin ⊢
    simp only [SeedOk, inScopeLinks_cons_in env _ href rest hin] at hok
    simp [SeedOk, goto, b2n, hok]
  | skip href rest hp hout =>
    rw [hp] at hok
    rw [hurl] at hout
    simp only [SeedOk, inScopeLinks_cons_out env _ href rest hout] at hok
    simp [SeedOk, goto, b2n, hok]
  | spawn nextURL rest hp =>
    rw [hp] at hok
    have := (drop_eq_cons_tail L (n - 1) nextURL _ hok).2
    have hn : n - 1 + 1 = n := by omega
    rw [hn] at this
    simp [SeedOk, goto, b2n, this]
  | finish hp =>
    rw [hp] at hok
    simp only [SeedOk, inScopeLinks, List.map_nil, List.filter_nil] at hok
    have hlen : L.length ≤ n - 1 := List.drop_eq_nil_iff.1 hok.symm
    simp only [SeedOk, goto, b2n, Option.isSome_none, Bool.false_eq_true, if_false, true_and]
    omega
  | release e hp _ => simp_all [SeedOk, goto, b2n]
  | wgDone e hp => simp_all [SeedOk, goto, b2n]

theorem kid_step {U : Type} {env : Env U} {s : State} {t : Task} {a : Action} {o : Outcome}
    (L : List String) (hT : Trans env s t a o)
    (hurl : t.url ∈ L) (hseed : t.url ≠ env.startURL) (hdepth : t.depth = 1)
    (hmax : env.maxDepth = 1)
    (T : List Task) (j : Nat) (t2 : Task) (hT2 : T[j]? = some t2) (hu2 : t2.url = t.url)
    (hsm : smooth env L T (Event.task j a) = true)
    (hnodup : t.pc = PC.depthOk → t.url ∉ s.visited)
    (hok : KidOk env t.url t.pc) :
    KidOk env t.url o.pc ∧ o.child = none := by
  cases hT with
  | acquire hp _ => simp_all [KidOk, goto]
  | tooDeep hp hd => omega
  | depthOk hp _ => simp_all [KidOk, goto]
  | claimed hp _ => simp_all [KidOk, goto]
  | duplicate hp hv => exact absurd hv (hnodup hp)
  | fetched r html hp _ _ => simp_all [KidOk, goto]
  | fetchFailed r hp hr => simp [smooth, hr] at hsm
  | parsed html doc hp =>
    simp only [smooth, hT2, hu2, hseed, hurl, if_false, if_true, decide_eq_true_eq] at hsm
    simp only [KidOk, goto, and_true]
    exact hsm
  | parseFailed html hp => simp [smooth] at hsm
  | wroteJSON htmlText hrefs hp => simp_all [KidOk, goto]
  | writeFailed htmlText hrefs hp => simp_all [KidOk, goto]
  | wroteNewline hrefs hp => simp_all [KidOk, goto]
  | newlineFailed hrefs hp => simp_all [KidOk, goto]
  | follow href rest hp hin =>
    rw [hp] at hok
    have : inScopeLinks env t.url (href :: rest) = [] := hok
    rw [inScopeLinks_cons_in env _ href rest hin] at this
    cases this
  | skip href rest hp hout =>
    rw [hp] at hok
    have : inScopeLinks env t.url (href :: rest) = [] := hok
    rw [inScopeLinks_cons_out env _ href rest hout] at this
    simp only [KidOk, goto, and_true]
    exact this
  | spawn nextURL rest hp =>
    rw [hp] at hok
    exact absurd hok (by simp [KidOk])
  | finish hp => simp_all [KidOk, goto]
  | release e hp _ => simp_all [KidOk, goto]
  | wgDone e hp => simp_all [KidOk, goto]

theorem rec_step {U : Type} {env : Env U} {s : State} {t : Task} {a : Action} {o : Outcome}
    (L : List String) (T : List Task) (j : Nat) (hT : Trans env s t a o)
    (hsm : smooth env L T (Event.task j a) = true) :
    (wrote o.pc = true → wrote t.pc = true ∨
      ∃ html, o.file = s.file ++ [Chunk.json { url := t.url, html := html }]) ∧
    (∀ d, Chunk.json d ∈ s.file → Chunk.json d ∈ o.file) := by
  cases hT <;> simp_all [goto, wrote, parsed, smooth]

theorem tidy_init {U : Type} (env : Env U) (L : List String) : Tidy env L (init env) := by
  refine ⟨by simp [init], ?_, ?_, ?_, ?_⟩
  · intro i t ht
    cases i with
    | zero =>
      simp only [init, List.getElem?_cons_zero, Option.some.injEq] at ht
      subst ht
      simp
    | succ i => simp [init] at ht
  · intro t ht
    simp only [init, List.getElem?_cons_zero, Option.some.injEq] at ht
    subst ht
    simp [SeedOk, init]
  · intro i t ht
    simp [init] at ht
  · intro i t ht hw
    cases i with
    | zero =>
      simp only [init, List.getElem?_cons_zero, Option.some.injEq] at ht
      subst ht
      simp [wrote, parsed] at hw
    | succ i => simp [init] at ht

theorem tidy_step {U : Type} (env : Env U) (L : List String) (hmax : env.maxDepth = 1)
    (hL : (env.startURL :: L).Nodup) (s s2 : State) (e : Event) (hI : Inv env s)
    (hT0 : Tidy env L s) (T : List Task)
    (hlater : ∀ (i : Nat) (t : Task), s.tasks[i]? = some t → ∃ t2, T[i]? = some t2 ∧ t2.url = t.url)
    (hsm : smooth env L T e = true) (hs : step env s e = some s2) :
    Tidy env L s2 := by
  cases e with
  | wait =>
    obtain ⟨_, _, rfl⟩ := (step_wait_iff env s s2).1 hs
    exact ⟨hT0.nonempty, hT0.urls, hT0.seed, hT0.kids, hT0.recs⟩
  | task j a =>
    obtain ⟨t, o, ht, hT, rfl⟩ := (step_task_iff env s s2 j a).1 hs
    have hget := fun i ti => apply_tasks_get s j t o i ti ht
    have hjlt : j < s.tasks.length := (List.getElem?_eq_some_iff.1 ht).1
    have hlen : s.tasks.length ≤ L.length + 1 := by
      have hpos := hT0.nonempty
      have hex : ∃ x, s.tasks[s.tasks.length - 1]? = some x := by
        have hlt : s.tasks.length - 1 < s.tasks.length := by omega
        exact ⟨s.tasks[s.tasks.length - 1], List.getElem?_eq_getElem hlt⟩
      obtain ⟨x, hx⟩ := hex
      have := (List.getElem?_eq_some_iff.1 (hT0.urls _ x hx)).1
      simp only [List.length_cons] at this
      omega
    -- a goroutine at the critical section finds its URL unvisited
    have hfresh : t.pc = PC.depthOk → t.url ∉ s.visited := by
      intro hp hv
      obtain ⟨k, tk, hk, hku, hkc⟩ := hI.owner t.url hv
      have h1 := hT0.urls k tk hk
      have h2 := hT0.urls j t ht
      rw [hku] at h1
      have hkj : k = j := by
        have hk1 := (List.getElem?_eq_some_iff.1 h1)
        have hj1 := (List.getElem?_eq_some_iff.1 h2)
        obtain ⟨hkl, hke⟩ := hk1
        obtain ⟨hjl, hje⟩ := hj1
        exact (List.Nodup.getElem_inj_iff hL).1 (hke.trans hje.symm)
      subst hkj
      rw [ht] at hk
      cases hk
      rw [hp] at hkc
      simp [claimed] at hkc
    -- what the acting goroutine is
    obtain ⟨t2, hT2, hu2⟩ := hlater j t ht
    have hact : (j = 0 ∧ t.url = env.startURL ∧ t.depth = 0 ∧
          SeedOk env L (s.tasks.length + b2n o.child.isSome) o.pc) ∨
        (j ≠ 0 ∧ t.url ∈ L ∧ t.depth = 1 ∧ KidOk env t.url o.pc ∧ o.child = none) := by
      cases j with
      | zero =>
        left
        have hu := hT0.urls 0 t ht
        simp only [List.getElem?_cons_zero, Option.some.injEq] at hu
        obtain ⟨hd, hok⟩ := hT0.seed t ht
        exact ⟨rfl, hu.symm, hd,
          seed_step L s.tasks.length hT hu.symm hd hmax T 0 t2 hT2 hu2 hsm
            (fun hp _ => hfresh hp) hT0.nonempty hlen hok⟩
      | succ j =>
        right
        have hu := hT0.urls (j + 1) t ht
        simp only [List.getElem?_cons_succ] at hu
        obtain ⟨hd, hok⟩ := hT0.kids j t ht
        have hmem : t.url ∈ L := List.getElem?_mem hu
        have hne : t.url ≠ env.startURL := by
          intro h0
          rw [h0] at hmem
          exact (List.nodup_cons.1 hL).1 hmem
        obtain ⟨h1, h2⟩ := kid_step L hT hmem hne hd hmax T (j + 1) t2 hT2 hu2 hsm hfresh hok
        exact ⟨by omega, hmem, hd, h1, h2⟩
    have hrec := rec_step L T j hT hsm
    refine ⟨?_, ?_, ?_, ?_, ?_⟩
    · rw [apply_tasks_length]
      have := hT0.nonempty
      omega
    · -- urls
      intro i ti hi
      rcases (hget i ti).1 hi with ⟨rfl, rfl⟩ | ⟨_, hi2⟩ | ⟨hil, hc⟩
      · exact hT0.urls i t ht
      · exact hT0.urls i ti hi2
      · rcases hact with ⟨rfl, _, _, _⟩ | ⟨_, _, _, _, hnone⟩
        · obtain ⟨_, _, _, rest, hpc, _⟩ := trans_child hT ti hc
          have hok := (hT0.seed t ht).2
          rw [hpc] at hok
          have h1 := (drop_eq_cons_tail L (s.tasks.length - 1) ti.url _ hok).1
          have hpos := hT0.nonempty
          have : i = (s.tasks.length - 1) + 1 := by omega
          rw [this, List.getElem?_cons_succ]
          exact h1
        · rw [hnone] at hc
          cases hc
    · -- seed
      intro t0 h0
      rw [apply_tasks_length]
      rcases (hget 0 t0).1 h0 with ⟨hj0, rfl⟩ | ⟨hj0, h02⟩ | ⟨hl, _⟩
      · rcases hact with ⟨_, _, hd, hok⟩ | ⟨hne, _⟩
        · exact ⟨hd, hok⟩
        · exact absurd hj0.symm hne
      · rcases hact with ⟨hj, _⟩ | ⟨_, _, _, _, hnone⟩
        · exact absurd hj.symm hj0
        · obtain ⟨hd, hok⟩ := hT0.seed t0 h02
          rw [hnone]
          simpa [b2n] using And.intro hd hok
      · have := hT0.nonempty
        omega
    · -- kids
      intro i ti hi
      rcases (hget (i + 1) ti).1 hi with ⟨hij, rfl⟩ | ⟨_, hi2⟩ | ⟨hil, hc⟩
      · rcases hact with ⟨hj, _⟩ | ⟨_, _, hd, hok, _⟩
        · omega
        · exact ⟨hd, hok⟩
      · exact hT0.kids i ti hi2
      · obtain ⟨hsp, hd, _, _⟩ := trans_child hT ti hc
        rcases hact with ⟨_, _, hd0, _⟩ | ⟨_, _, _, _, hnone⟩
        · rw [hd, hd0]
          refine ⟨by decide, ?_⟩
          have hpc : ti.pc = PC.spawned := by rw [hsp]
          rw [hpc]
          simp [KidOk]
        · rw [hnone] at hc
          cases hc
    · -- recs
      intro i ti hi hw
      show ∃ d, Chunk.json d ∈ o.file ∧ d.url = ti.url
      rcases (hget i ti).1 hi with ⟨rfl, rfl⟩ | ⟨_, hi2⟩ | ⟨hil, hc⟩
      · rcases hrec.1 hw with hw0 | ⟨html, hf⟩
        · obtain ⟨d, hd, hdu⟩ := hT0.recs i t ht hw0
          exact ⟨d, hrec.2 d hd, hdu⟩
        · exact ⟨{ url := t.url, html := html }, by rw [hf]; simp, rfl⟩
      · obtain ⟨d, hd, hdu⟩ := hT0.recs i ti hi2 hw
        exact ⟨d, hrec.2 d hd, hdu⟩
      · rw [(trans_child hT ti hc).1] at hw
        simp [wrote, parsed] at hw

/-- A goroutine keeps its place and its URL for the rest of the run. -/
theorem run_tasks_url {U : Type} (env : Env U) (s s2 : State) (tr : List Event)
    (h : run env s tr = some s2) (i : Nat) (t : Task) (ht : s.tasks[i]? = some t) :
    ∃ t2, s2.tasks[i]? = some t2 ∧ t2.url = t.url := by
  induction tr generalizing s t with
  | nil =>
    simp only [run, Option.some.injEq] at h
    subst h
    exact ⟨t, ht, rfl⟩
  | cons e es ih =>
    simp only [run] at h
    cases hs : step env s e with
    | none => simp [hs] at h
    | some s1 =>
      rw [hs] at h
      cases e with
      | wait =>
        obtain ⟨_, _, rfl⟩ := (step_wait_iff env s s1).1 hs
        exact ih _ h t ht
      | task j b =>
        obtain ⟨tj, o, hj, _, rfl⟩ := (step_task_iff env s s1 j b).1 hs
        obtain ⟨t1, h1, hu1, _⟩ := apply_tasks_old s j tj o i t hj ht
        obtain ⟨t2, h2, hu2⟩ := ih _ h t1 h1
        exact ⟨t2, h2, hu2.trans hu1⟩

/-- A run that is smooth with respect to the goroutines of its last state keeps
every state tidy. -/
theorem run_tidy {U : Type} (env : Env U) (L : List String) (hmax : env.maxDepth = 1)
    (hL : (env.startURL :: L).Nodup) (s2 : State) (rest : List Event) :
    ∀ (tr : List Event) (s : State), Reach env tr s → Tidy env L s →
      run env s rest = some s2 → (∀ e, e ∈ rest → smooth env L s2.tasks e = true) →
      Tidy env L s2 := by
  induction rest with
  | nil =>
    intro tr s _ hT hrun _
    simp only [run, Option.some.injEq] at hrun
    subst hrun
    exact hT
  | cons e es ih =>
    intro tr s hr hT hrun hsm
    have hrun0 := hrun
    simp only [run] at hrun
    cases hs : step env s e with
    | none => simp [hs] at hrun
    | some s1 =>
      rw [hs] at hrun
      have hr1 : Reach env (tr ++ [e]) s1 := (run_snoc env (init env) s1 tr e).2 ⟨s, hr, hs⟩
      have hT1 : Tidy env L s1 :=
        tidy_step env L hmax hL s s1 e (reach_inv env tr s hr) hT s2.tasks
          (fun i t ht => run_tasks_url env s s2 (e :: es) hrun0 i t ht)
          (hsm e (List.mem_cons_self _ _)) hs
      exact ih (tr ++ [e]) s1 hr1 hT1 hrun (fun e2 he2 => hsm e2 (List.mem_cons_of_mem _ he2))

/-- Every state of a smooth run of depth 1 is tidy. -/
theorem reach_tidy {U : Type} (env : Env U) (L : List String) (hmax : env.maxDepth = 1)
    (hL : (env.startURL :: L).Nodup) (tr : List Event) (s : State) (h : Reach env tr s)
    (hsm : ∀ e, e ∈ tr → smooth env L s.tasks e = true) : Tidy env L s :=
  run_tidy env L hmax hL s tr [] (init env) rfl (tidy_init env L) h hsm

theorem trans_fetchOk_url {U : Type} {env : Env U} {s : State} {t : Task} {a : Action}
    {o : Outcome} (h : Trans env s t a o) (ha : Action.isFetchOk a = true) : t.url ≠ "" := by
  cases h <;> simp_all [Action.isFetchOk]

/-- With the empty seed no page is ever fetched: the seed goroutine is the only
one and `GetHTML("")` fails. -/
theorem reach_empty_seed {U : Type} (env : Env U) (h0 : env.startURL = "") (tr : List Event)
    (s : State) (h : Reach env tr s) :
    ∀ (i : Nat) (t : Task), s.tasks[i]? = some t → t.url = "" ∧ fetched t.pc = false := by
  refine Reach.induction env
    (fun _ s => ∀ (i : Nat) (t : Task), s.tasks[i]? = some t →
      t.url = "" ∧ fetched t.pc = false) ?_ ?_ tr s h
  · intro i t ht
    cases i with
    | zero =>
      simp only [init, List.getElem?_cons_zero, Option.some.injEq] at ht
      subst ht
      exact ⟨h0, by simp [fetched, claimed]⟩
    | succ i => simp [init] at ht
  · intro tr s e s2 _ ih hs i t2 ht2
    cases e with
    | wait =>
      obtain ⟨_, _, rfl⟩ := (step_wait_iff env s s2).1 hs
      exact ih i t2 ht2
    | task j b =>
      obtain ⟨t, o, ht, hT, rfl⟩ := (step_task_iff env s s2 j b).1 hs
      obtain ⟨hu, hf⟩ := ih j t ht
      rcases (apply_tasks_get s j t o i t2 ht).1 ht2 with ⟨rfl, rfl⟩ | ⟨_, hi2⟩ | ⟨_, hc⟩
      · refine ⟨hu, ?_⟩
        have hloc := loc_fetchOk s t b o hT
        cases hb : Action.isFetchOk b with
        | true => exact absurd hu (trans_fetchOk_url hT hb)
        | false =>
          rw [hf, hb] at hloc
          cases hfo : fetched o.pc with
          | false => rfl
          | true => simp [hfo, b2n] at hloc
      · exact ih i t2 hi2
      · obtain ⟨_, _, _, rest, hpc, _⟩ := trans_child hT t2 hc
        rw [hpc] at hf
        simp [fetched, claimed] at hf

/-! ## A concrete run -/

theorem demo_reach : Reach demoEnv demoTrace demoFinal := by
  show run demoEnv (init demoEnv) demoTrace = some demoFinal
  rfl


/-! ## Further facts about reachable states -/

theorem claimed_checked (pc : PC) (h : claimed pc = true) : checked pc = true := by
  cases pc <;> simp_all [claimed, checked, Exit.afterClaim] <;> rename_i e <;> cases e <;> simp_all

theorem didFetch_claimed (pc : PC) (h : didFetch pc = true) : claimed pc = true := by
  cases pc <;> simp_all [didFetch, claimed]

theorem failedFetch_claimed (pc : PC) (h : failedFetch pc = true) :
    claimed pc = true ∧ wrote pc = false ∧ parsed pc = false := by
  cases pc <;> simp_all [failedFetch, claimed, wrote, parsed, Exit.afterClaim]

theorem loc_fetchFail {U : Type} {env : Env U} (s : State) (t : Task) (a : Action) (o : Outcome)
    (h : Trans env s t a o) :
    b2n (failedFetch o.pc) = b2n (failedFetch t.pc) + b2n (Action.isFetchFail a) := by
  cases h <;> simp_all [goto, failedFetch, Action.isFetchFail, b2n]

theorem trans_cap {U : Type} {env : Env U} {s : State} {t : Task} {a : Action}
    {o : Outcome} (h : Trans env s t a o) (hc : s.permits ≤ env.workers) :
    o.permits ≤ env.workers := by
  cases h <;> simp_all [goto] <;> omega

/-- The permits out never exceed the capacity of `workerLimit`. -/
theorem reach_cap {U : Type} (env : Env U) (tr : List Event) (s : State)
    (h : Reach env tr s) : s.permits ≤ env.workers := by
  refine Reach.induction env (fun _ s => s.permits ≤ env.workers) ?_ ?_ tr s h
  · simp [init]
  · intro tr s e s2 _ ih hs
    cases e with
    | wait =>
      obtain ⟨_, _, rfl⟩ := (step_wait_iff env s s2).1 hs
      exact ih
    | task j b =>
      obtain ⟨t, o, ht, hT, rfl⟩ := (step_task_iff env s s2 j b).1 hs
      exact trans_cap hT ih

/-- A key of the map `visited` stays there for the rest of the run. -/
theorem run_visited_mono {U : Type} (env : Env U) (s s2 : State) (tr : List Event)
    (h : run env s tr = some s2) (u : String) (hu : u ∈ s.visited) : u ∈ s2.visited := by
  induction tr generalizing s with
  | nil =>
    simp only [run, Option.some.injEq] at h
    subst h
    exact hu
  | cons e es ih =>
    simp only [run] at h
    cases hs : step env s e with
    | none => simp [hs] at h
    | some s1 =>
      rw [hs] at h
      refine ih s1 h ?_
      cases e with
      | wait =>
        obtain ⟨_, _, rfl⟩ := (step_wait_iff env s s1).1 hs
        exact hu
      | task j b =>
        obtain ⟨t, o, ht, hT, rfl⟩ := (step_task_iff env s s1 j b).1 hs
        exact trans_visited_mono hT u hu

/-- With `maxDepth = 0` every goroutine is the seed at depth 0 or runs at depth 1. -/
theorem reach_depth_zero {U : Type} (env : Env U) (hmax : env.maxDepth = 0) (tr : List Event)
    (s : State) (h : Reach env tr s) :
    ∀ (i : Nat) (t : Task), s.tasks[i]? = some t →
      (t.url = env.startURL ∧ t.depth = 0) ∨ t.depth = 1 := by
  refine Reach.induction env
    (fun _ s => ∀ (i : Nat) (t : Task), s.tasks[i]? = some t →
      (t.url = env.startURL ∧ t.depth = 0) ∨ t.depth = 1) ?_ ?_ tr s h
  · intro i t ht
    cases i with
    | zero =>
      simp only [init, List.getElem?_cons_zero, Option.some.injEq] at ht
      subst ht
      exact Or.inl ⟨rfl, rfl⟩
    | succ i => simp [init] at ht
  · intro tr s e s2 hr ih hs i t2 ht2
    cases e with
    | wait =>
      obtain ⟨_, _, rfl⟩ := (step_wait_iff env s s2).1 hs
      exact ih i t2 ht2
    | task j b =>
      obtain ⟨t, o, ht, hT, rfl⟩ := (step_task_iff env s s2 j b).1 hs
      rcases (apply_tasks_get s j t o i t2 ht).1 ht2 with ⟨rfl, rfl⟩ | ⟨_, hi2⟩ | ⟨_, hc⟩
      · exact ih i t ht
      · exact ih i t2 hi2
      · obtain ⟨_, hd, _, rest, hpc, _⟩ := trans_child hT t2 hc
        have hle := (reach_inv env tr s hr).depth j t ht (by simp [hpc, checked])
        rw [hmax] at hle
        rcases ih j t ht with ⟨_, h0⟩ | h1
        · right
          rw [hd, h0]
          decide
        · omega

/-! # The claims -/

/-- C1 (visited set): starting from the empty map, in any finite sequence of
claim attempts the attempt on `u` succeeds exactly when `u` did not occur
earlier in the sequence; after an attempt on `u`, `u` is in the map; no attempt
removes a key; and the critical section of `Crawl` is this check-and-mark: the
goroutine goes on to fetch when it succeeds and returns when it fails. -/
theorem C1_visited_claim (urls : List String) :
    (∀ (k : Nat) (u : String), urls[k]? = some u →
      (claimAll [] urls).1[k]? = some (decide (u ∉ urls.take k))) ∧
    (∀ (k : Nat) (u : String), urls[k]? = some u →
      u ∈ (claimAll [] (urls.take (k + 1))).2) ∧
    (∀ (visited : List String) (u v : String), v ∈ visited → v ∈ (claim visited u).2) ∧
    (∀ (visited : List String) (u : String), u ∈ (claim visited u).2) ∧
    (∀ (U : Type) (env : Env U) (s : State) (t : Task), t.pc = PC.depthOk →
      Crawl env s t Action.claim =
        some { goto s (if (claim s.visited t.url).1 then PC.fetching
                       else PC.returning Exit.duplicate) with
               visited := (claim s.visited t.url).2 }) := by
  refine ⟨?_, ?_, ?_, ?_, ?_⟩
  · intro k u h
    rw [claimAll_answer [] urls k u h]
    simp
  · intro k u h
    rw [mem_claimAll]
    right
    have hk : k < urls.length := (List.getElem?_eq_some_iff.1 h).1
    have hget : (urls.take (k + 1))[k]? = some u := by
      rw [List.getElem?_take_of_lt (by omega)]
      exact h
    exact List.getElem?_mem hget
  · intro visited u v hv
    exact (mem_claim visited u v).2 (Or.inl hv)
  · intro visited u
    exact (mem_claim visited u u).2 (Or.inr rfl)
  · intro U env s t hpc
    simp [Crawl, hpc]

/-- C2 (depth bound): in every reachable state, whatever the HTTP client and
the HTML parser answered, a goroutine that can do `file.Write(jsonData)` has
`depth <= maxDepth`; a goroutine with `depth > maxDepth` has never written;
every record in the file was written by a goroutine with `depth <= maxDepth`
crawling the record's URL; and with `maxDepth = 0` every record carries the
seed URL. -/
theorem C2_depth_bound {U : Type} (env : Env U) (tr : List Event) (s : State)
    (h : Reach env tr s) :
    (∀ (i : Nat) (t : Task) (ok : Bool) (s2 : State), s.tasks[i]? = some t →
      step env s (Event.task i (Action.writeJSON ok)) = some s2 → t.depth ≤ env.maxDepth) ∧
    (∀ (i : Nat) (t : Task) (ok : Bool), s.tasks[i]? = some t → env.maxDepth < t.depth →
      Event.task i (Action.writeJSON ok) ∉ tr) ∧
    (∀ d, Chunk.json d ∈ s.file → ∃ (i : Nat) (t : Task), s.tasks[i]? = some t ∧
      t.url = d.url ∧ t.depth ≤ env.maxDepth ∧ Event.task i (Action.writeJSON true) ∈ tr) ∧
    (env.maxDepth = 0 → ∀ d, Chunk.json d ∈ s.file → d.url = env.startURL) := by
  have hI := reach_inv env tr s h
  have hwritten : ∀ (i : Nat) (t : Task) (ok : Bool), s.tasks[i]? = some t →
      Event.task i (Action.writeJSON ok) ∈ tr → t.depth ≤ env.maxDepth := by
    intro i t ok ht hm
    have hw : wrote t.pc = true :=
      (history_mem env Action.isWrite wrote rfl loc_write tr s h i t ht).2
        ⟨Action.writeJSON ok, rfl, hm⟩
    exact hI.depth i t ht (claimed_checked _ (wrote_claimed _ hw))
  have hrec : ∀ d, Chunk.json d ∈ s.file → ∃ (i : Nat) (t : Task), s.tasks[i]? = some t ∧
      t.url = d.url ∧ t.depth ≤ env.maxDepth ∧ Event.task i (Action.writeJSON true) ∈ tr := by
    intro d hd
    obtain ⟨i, t, ht, hu, hm⟩ := (reach_records env tr s h d.url).1 ⟨d, hd, rfl⟩
    exact ⟨i, t, ht, hu, hwritten i t true ht hm, hm⟩
  refine ⟨?_, ?_, hrec, ?_⟩
  · intro i t ok s2 ht hs
    obtain ⟨t2, o, ht2, hT, _⟩ := (step_task_iff env s s2 i _).1 hs
    rw [ht] at ht2
    cases ht2
    have hpc : ∃ htmlText hrefs, t.pc = PC.writing htmlText hrefs := by
      cases hT with
      | wroteJSON a b hp => exact ⟨a, b, hp⟩
      | writeFailed a b hp => exact ⟨a, b, hp⟩
    obtain ⟨a, b, hp⟩ := hpc
    exact hI.depth i t ht (by simp [hp, checked])
  · intro i t ok ht hdeep hm
    have := hwritten i t ok ht hm
    omega
  · intro hmax d hd
    obtain ⟨i, t, ht, hu, hle, _⟩ := hrec d hd
    rcases reach_depth_zero env hmax tr s h i t ht with ⟨h1, _⟩ | h1
    · rw [← hu, h1]
    · rw [hmax] at hle
      omega

/-- C2 at two concrete runs: the crawl `demoTrace` of depth 1, and the crawl
`shallowTrace` of depth 0, whose only record is the seed's. -/
theorem C2_witness :
    Reach demoEnv demoTrace demoFinal ∧
    (∀ d, Chunk.json d ∈ demoFinal.file → ∃ (i : Nat) (t : Task),
      demoFinal.tasks[i]? = some t ∧ t.url = d.url ∧ t.depth ≤ demoEnv.maxDepth ∧
        Event.task i (Action.writeJSON true) ∈ demoTrace) ∧
    Reach shallowEnv shallowTrace shallowFinal ∧
    (∀ d, Chunk.json d ∈ shallowFinal.file → d.url = shallowEnv.startURL) :=
  have hr : Reach shallowEnv shallowTrace shallowFinal := by
    show run shallowEnv (init shallowEnv) shallowTrace = some shallowFinal
    rfl
  ⟨demo_reach, (C2_depth_bound demoEnv demoTrace demoFinal demo_reach).2.2.1,
    hr, (C2_depth_bound shallowEnv shallowTrace shallowFinal hr).2.2.2 rfl⟩

/-- C5 as stated fails.  In the run `backLinkTrace` the depth limit is 1, the
seed page has five distinct in-scope links and every fetch succeeds, yet when
`wg.Wait()` has returned seven goroutines are done and four records are in
the file.  In the run `homeLinkTrace` one of the five distinct in-scope links
is the seed URL itself and no fetch fails: six goroutines are done and five
records are in the file. -/
theorem C5_counterexample_back_link :
    Reach demoEnv backLinkTrace backLinkFinal ∧
    demoEnv.maxDepth = 1 ∧
    inScopeLinks demoEnv demoEnv.startURL fiveLinks = fiveLinks ∧
    fiveLinks.length = 5 ∧ fiveLinks.Nodup ∧
    (∀ i, i < 6 → count Action.isFetchOk i backLinkTrace = 1) ∧
    (∀ i, i < 7 → count Action.isFetchFail i backLinkTrace = 0) ∧
    backLinkFinal.waited = true ∧
    (backLinkFinal.tasks.filter (fun t => !live t.pc)).length = 7 ∧
    (records backLinkFinal.file).length = 4 ∧
    Reach demoEnv homeLinkTrace homeLinkFinal ∧
    inScopeLinks demoEnv demoEnv.startURL homeLinks = homeLinks ∧
    homeLinks.length = 5 ∧ homeLinks.Nodup ∧
    (∀ i, i < 6 → count Action.isFetchFail i homeLinkTrace = 0) ∧
    homeLinkFinal.waited = true ∧
    (homeLinkFinal.tasks.filter (fun t => !live t.pc)).length = 6 ∧
    (records homeLinkFinal.file).length = 5 := by
  refine ⟨?_, rfl, by decide, rfl, by decide, by decide, by decide, rfl, by decide,
    by decide, ?_, by decide, rfl, by decide, by decide, rfl, by decide, by decide⟩
  · show run demoEnv (init demoEnv) backLinkTrace = some backLinkFinal
    rfl
  · show run demoEnv (init demoEnv) homeLinkTrace = some homeLinkFinal
    rfl

/-- C5 (completion count), as amended: take a run with `maxDepth = 1` in which
no fetch, no parse and no write of a record fails, the seed page has the
in-scope links `L`, distinct from one another and from the seed URL, and the
pages of these links have no in-scope link (the links of a page being resolved
against the URL of that page, see `smooth`).  When `wg.Wait()` has returned
there are exactly `|L| + 1` goroutines, the seed's and one per link, all done
through the end of `Crawl`, and exactly `|L| + 1` records, one per URL; with
five links both counts are 6. -/
theorem C5_completion_count {U : Type} (env : Env U) (L : List String) (tr : List Event)
    (s : State) (hmax : env.maxDepth = 1) (hL : (env.startURL :: L).Nodup)
    (hsm : ∀ e, e ∈ tr → smooth env L s.tasks e = true)
    (h : Reach env tr s) (hw : s.waited = true) :
    s.tasks.length = L.length + 1 ∧
    (∀ t, t ∈ s.tasks → t.pc = PC.done Exit.finished) ∧
    s.tasks.map Task.url = env.startURL :: L ∧
    (records s.file).length = L.length + 1 ∧
    ((records s.file).map Data.url).Perm (env.startURL :: L) ∧
    (L.length = 5 → s.tasks.length = 6 ∧ (records s.file).length = 6) := by
  have hI := reach_inv env tr s h
  have hTd := reach_tidy env L hmax hL tr s h hsm
  have hdone := waited_all_done env tr s h hw
  have hpc : ∀ (i : Nat) (t : Task), s.tasks[i]? = some t → t.pc = PC.done Exit.finished := by
    intro i t ht
    have hl := hdone i t ht
    cases i with
    | zero =>
      have hok := (hTd.seed t ht).2
      cases hp : t.pc <;> simp [hp, live] at hl
      rw [hp] at hok
      rw [hok.1]
    | succ i =>
      have hok := (hTd.kids i t ht).2
      cases hp : t.pc <;> simp [hp, live] at hl
      rw [hp] at hok
      have : _ = Exit.finished := hok
      rw [this]
  have hlen : s.tasks.length = L.length + 1 := by
    have hpos := hTd.nonempty
    have hex : s.tasks[0]? = some s.tasks[0] := List.getElem?_eq_getElem hpos
    have hok := (hTd.seed _ hex).2
    rw [hpc 0 _ hex] at hok
    exact hok.2
  have hurls : s.tasks.map Task.url = env.startURL :: L := by
    apply List.ext_getElem?
    intro i
    by_cases hi : i < s.tasks.length
    · have hex : s.tasks[i]? = some s.tasks[i] := List.getElem?_eq_getElem hi
      rw [List.getElem?_map, hex, hTd.urls i _ hex]
      rfl
    · have h1 : (s.tasks.map Task.url)[i]? = none :=
        List.getElem?_eq_none (by simp; omega)
      have h2 : (env.startURL :: L)[i]? = none :=
        List.getElem?_eq_none (by simp; omega)
      rw [h1, h2]
  have hperm : ((records s.file).map Data.url).Perm (env.startURL :: L) := by
    rw [List.perm_ext_iff_of_nodup hI.nodup hL]
    intro u
    constructor
    · intro hu
      obtain ⟨d, hd, rfl⟩ := List.mem_map.1 hu
      obtain ⟨i, t, ht, htu, _⟩ := hI.writer d ((mem_records _ _).1 hd)
      rw [← htu]
      exact List.getElem?_mem (hTd.urls i t ht)
    · intro hu
      rw [← hurls] at hu
      obtain ⟨t, ht, rfl⟩ := List.mem_map.1 hu
      obtain ⟨i, hi⟩ := List.mem_iff_getElem?.1 ht
      obtain ⟨d, hd, hdu⟩ := hTd.recs i t hi (by rw [hpc i t hi]; rfl)
      exact List.mem_map.2 ⟨d, (mem_records _ _).2 hd, hdu⟩
  have hrecs : (records s.file).length = L.length + 1 := by
    have := hperm.length_eq
    simpa using this
  refine ⟨hlen, ?_, hurls, hrecs, hperm, ?_⟩
  · intro t ht
    obtain ⟨i, hi⟩ := List.mem_iff_getElem?.1 ht
    exact hpc i t hi
  · intro h5
    omega

/-- C5 at two concrete runs: the five children of `fiveTrace`; and `relTrace`,
where the page of the first child has a link that is out of scope on that page
and would be in scope on the page of the second child. -/
theorem C5_witness :
    demoEnv.maxDepth = 1 ∧ (demoEnv.startURL :: fiveLinks).Nodup ∧
    (∀ e, e ∈ fiveTrace → smooth demoEnv fiveLinks fiveFinal.tasks e = true) ∧
    Reach demoEnv fiveTrace fiveFinal ∧ fiveFinal.waited = true ∧
    fiveFinal.tasks.length = 6 ∧ (records fiveFinal.file).length = 6 ∧
    relEnv.maxDepth = 1 ∧ (relEnv.startURL :: relLinks).Nodup ∧
    (∀ e, e ∈ relTrace → smooth relEnv relLinks relFinal.tasks e = true) ∧
    Reach relEnv relTrace relFinal ∧ relFinal.waited = true ∧
    inScopeLinks relEnv "https://a.test/x/1" ["../y"] = [] ∧
    inScopeLinks relEnv "https://a.test/x/a/b" ["../y"] = ["https://a.test/x/y"] ∧
    relFinal.tasks.length = 3 ∧ (records relFinal.file).length = 3 :=
  have hr : Reach demoEnv fiveTrace fiveFinal := by
    show run demoEnv (init demoEnv) fiveTrace = some fiveFinal
    rfl
  have hnd : (demoEnv.startURL :: fiveLinks).Nodup := by decide
  have hsm : ∀ e, e ∈ fiveTrace → smooth demoEnv fiveLinks fiveFinal.tasks e = true := by decide
  have h := C5_completion_count demoEnv fiveLinks fiveTrace fiveFinal rfl hnd hsm hr rfl
  have hr2 : Reach relEnv relTrace relFinal := by
    show run relEnv (init relEnv) relTrace = some relFinal
    rfl
  have hnd2 : (relEnv.startURL :: relLinks).Nodup := by decide
  have hsm2 : ∀ e, e ∈ relTrace → smooth relEnv relLinks relFinal.tasks e = true := by decide
  have h2 := C5_completion_count relEnv relLinks relTrace relFinal rfl hnd2 hsm2 hr2 rfl
  ⟨rfl, hnd, hsm, hr, rfl, (h.2.2.2.2.2 rfl).1, (h.2.2.2.2.2 rfl).2,
    rfl, hnd2, hsm2, hr2, rfl, by decide, by decide, h2.1, h2.2.2.2.1⟩

/-- C6 (normalization failure): in every reachable state, for every seed, when
`url.Parse` rejects the base URL or the link, `normalizeURL` returns `""` and
`Crawl` skips the link: the goroutine goes straight to the next link, without
sleeping, and no goroutine is started.  (The value `""` fails the scope test
for every seed but the empty one, and with the empty seed no page is ever
fetched, so no link is ever processed.) -/
theorem C6_normalization_failure_skipped {U : Type} (env : Env U) (tr : List Event)
    (s : State) (h : Reach env tr s) (i : Nat) (t : Task) (href : String) (rest : List String)
    (ht : s.tasks[i]? = some t) (hpc : t.pc = PC.expanding (href :: rest))
    (hfail : env.urlParse t.url = none ∨ env.urlParse href = none) :
    normalizeURL env t.url href = "" ∧
    step env s (Event.task i Action.link) =
      some { s with tasks := s.tasks.set i { t with pc := PC.expanding rest } } ∧
    step env { s with tasks := s.tasks.set i { t with pc := PC.expanding rest } }
      (Event.task i Action.spawn) = none := by
  have hlt : i < s.tasks.length := (List.getElem?_eq_some_iff.1 ht).1
  have hseed : env.startURL ≠ "" := by
    intro h0
    have := (reach_empty_seed env h0 tr s h i t ht).2
    rw [hpc] at this
    simp [fetched, claimed] at this
  have hn : normalizeURL env t.url href = "" := by
    unfold normalizeURL
    rcases hfail with h | h
    · rw [h]
    · rw [h]
      cases env.urlParse t.url <;> rfl
  have hout : inScope env.startURL (normalizeURL env t.url href) = false := by
    rw [hn]
    cases h : inScope env.startURL "" with
    | false => rfl
    | true => exact absurd ((inScope_empty_iff _).1 h) hseed
  refine ⟨hn, ?_, ?_⟩
  · simp [step, ht, Crawl, hpc, hout, apply, goto]
  · simp [step, Crawl, List.getElem?_set, hlt]

/-- C6 at a concrete run: seed `https://a.test/x`, first link `%zz`.  With the
empty seed the same schedule is not a run: no body comes back for `""`. -/
theorem C6_witness :
    Reach demoEnv loopTrace loopState ∧ demoEnv.urlParse "%zz" = none ∧
    normalizeURL demoEnv "https://a.test/x" "%zz" = "" ∧
    step demoEnv loopState (Event.task 0 Action.link) =
      some { loopState with
             tasks := [{ url := "https://a.test/x", depth := 0,
                         pc := PC.expanding ["https://a.test/x/1"] }] } ∧
    run emptySeedEnv (init emptySeedEnv) loopTrace = none :=
  have hr : Reach demoEnv loopTrace loopState := by
    show run demoEnv (init demoEnv) loopTrace = some loopState
    rfl
  have h := C6_normalization_failure_skipped demoEnv loopTrace loopState hr 0
    { url := "https://a.test/x", depth := 0, pc := PC.expanding ["%zz", "https://a.test/x/1"] }
    "%zz" ["https://a.test/x/1"] rfl rfl (Or.inr (by decide))
  ⟨hr, by decide, h.1, h.2.1, by decide⟩

/-- C7 (claim under failure): when the fetch of goroutine `i` has failed, its
URL is in `visited` and stays there for the rest of the run; the goroutine has
written no record (and no record for its URL exists) and has started no
goroutine; every other goroutine for the same URL has not fetched, cannot
fetch, and returns at the critical section once it gets there; and in general
two fetches of one URL are by the same goroutine, which fetches at most once. -/
theorem C7_failed_fetch_stays_claimed {U : Type} (env : Env U) (tr : List Event) (s : State)
    (h : Reach env tr s) (i : Nat) (t : Task) (r : HttpReply)
    (ht : s.tasks[i]? = some t) (hfetch : Event.task i (Action.fetch r) ∈ tr)
    (hfail : GetHTML r = none) :
    t.url ∈ s.visited ∧
    (∀ (tr2 : List Event) (s2 : State), run env s tr2 = some s2 → t.url ∈ s2.visited) ∧
    (∀ ok, Event.task i (Action.writeJSON ok) ∉ tr) ∧
    (∀ d, Chunk.json d ∈ s.file → d.url ≠ t.url) ∧
    Event.task i Action.spawn ∉ tr ∧
    (∀ (j : Nat) (tj : Task), s.tasks[j]? = some tj → tj.url = t.url → j ≠ i →
      (∀ r2, Event.task j (Action.fetch r2) ∉ tr) ∧
      (∀ r2, step env s (Event.task j (Action.fetch r2)) = none) ∧
      (tj.pc = PC.depthOk →
        step env s (Event.task j Action.claim) =
          some { s with tasks := s.tasks.set j { tj with pc := PC.returning Exit.duplicate } })) ∧
    (∀ (j k : Nat) (tj tk : Task) (r1 r2 : HttpReply), s.tasks[j]? = some tj →
      s.tasks[k]? = some tk → tj.url = tk.url → Event.task j (Action.fetch r1) ∈ tr →
      Event.task k (Action.fetch r2) ∈ tr → j = k) ∧
    (∀ (j : Nat), count Action.isFetch j tr ≤ 1) := by
  have hI := reach_inv env tr s h
  have hff : failedFetch t.pc = true :=
    (history_mem env Action.isFetchFail failedFetch rfl loc_fetchFail tr s h i t ht).2
      ⟨Action.fetch r, by simp [Action.isFetchFail, hfail], hfetch⟩
  obtain ⟨hcl, hnw, hnp⟩ := failedFetch_claimed _ hff
  have hvis := hI.marked i t ht hcl
  have hfetcher : ∀ (j : Nat) (tj : Task) (r2 : HttpReply), s.tasks[j]? = some tj →
      Event.task j (Action.fetch r2) ∈ tr → claimed tj.pc = true := by
    intro j tj r2 hj hm
    exact didFetch_claimed _
      ((history_mem env Action.isFetch didFetch rfl loc_fetch tr s h j tj hj).2
        ⟨Action.fetch r2, rfl, hm⟩)
  refine ⟨hvis, ?_, ?_, ?_, ?_, ?_, ?_, ?_⟩
  · intro tr2 s2 hrun
    exact run_visited_mono env s s2 tr2 hrun _ hvis
  · intro ok hm
    have := (history_mem env Action.isWrite wrote rfl loc_write tr s h i t ht).2
      ⟨Action.writeJSON ok, rfl, hm⟩
    rw [hnw] at this
    cases this
  · intro d hd hdu
    obtain ⟨j, tj, hj, hju, hjw⟩ := hI.writer d hd
    have hji := hI.unique j i tj t hj ht (wrote_claimed _ hjw) hcl (hju.trans hdu)
    subst hji
    rw [ht] at hj
    cases hj
    rw [hnw] at hjw
    cases hjw
  · intro hm
    have := history_imp env Action.isSpawn parsed loc_spawn tr s h i t _ ht hm rfl
    rw [hnp] at this
    cases this
  · intro j tj hj hju hji
    refine ⟨?_, ?_, ?_⟩
    · intro r2 hm
      exact hji (hI.unique j i tj t hj ht (hfetcher j tj r2 hj hm) hcl hju)
    · intro r2
      cases hs : step env s (Event.task j (Action.fetch r2)) with
      | none => rfl
      | some s2 =>
        obtain ⟨t2, o, ht2, hT, _⟩ := (step_task_iff env s s2 j _).1 hs
        rw [hj] at ht2
        cases ht2
        have hpc : tj.pc = PC.fetching := by
          cases hT with
          | fetched _ _ hp _ _ => exact hp
          | fetchFailed _ hp _ => exact hp
        exact absurd (hI.unique j i tj t hj ht (by simp [hpc, claimed]) hcl hju) hji
    · intro hpc
      have hv : tj.url ∈ s.visited := by rw [hju]; exact hvis
      simp [step, hj, Crawl, hpc, claim, hv, apply, goto]
  · intro j k tj tk r1 r2 hj hk hjk hm1 hm2
    exact hI.unique j k tj tk hj hk (hfetcher j tj r1 hj hm1) (hfetcher k tk r2 hk hm2) hjk
  · intro j
    cases hj : s.tasks[j]? with
    | none =>
      have : count Action.isFetch j tr = 0 := by
        apply count_eq_zero_of_absent
        intro a ha
        have hlt := reach_events_exist env tr s h j a ha
        have := List.getElem?_eq_none_iff.1 hj
        omega
      omega
    | some tj =>
      rw [history env Action.isFetch didFetch rfl loc_fetch tr s h j tj hj]
      cases didFetch tj.pc <;> simp [b2n]

/-- C7 at a concrete run: the first child's fetch fails, the second child for
the same URL is turned away at the critical section. -/
theorem C7_witness :
    Reach demoEnv failTrace failState ∧
    GetHTML HttpReply.getError = none ∧
    "https://a.test/x/1" ∈ failState.visited ∧
    (∀ d, Chunk.json d ∈ failState.file → d.url ≠ "https://a.test/x/1") ∧
    step demoEnv failState (Event.task 2 Action.claim) =
      some { failState with
             tasks := failState.tasks.set 2
               { url := "https://a.test/x/1", depth := 1,
                 pc := PC.returning Exit.duplicate } } :=
  have hr : Reach demoEnv failTrace failState := by
    show run demoEnv (init demoEnv) failTrace = some failState
    rfl
  have h := C7_failed_fetch_stays_claimed demoEnv failTrace failState hr 1
    { url := "https://a.test/x/1", depth := 1, pc := PC.done Exit.fetchFailed }
    HttpReply.getError rfl (by decide) rfl
  ⟨hr, rfl, h.1, h.2.2.2.1,
    (h.2.2.2.2.2.1 2 { url := "https://a.test/x/1", depth := 1, pc := PC.depthOk } rfl rfl
      (by decide)).2.2 rfl⟩

/-- C8 (concurrency cap): in every reachable state the permits out are at most
the capacity of `workerLimit` and are exactly the goroutines that have
acquired and not yet released; so at most that many goroutines are inside
`GetHTML`, and a goroutine that fetches holds a permit.  A goroutine acquires
at most once and releases at most once, never before acquiring, and one that
is done, through whichever `return`, has done both exactly once.  A goroutine
holding a permit is never blocked and each of its actions brings it closer to
the release. -/
theorem C8_concurrency_cap {U : Type} (env : Env U) (tr : List Event) (s : State)
    (h : Reach env tr s) :
    s.permits ≤ env.workers ∧
    (env.workers = workerLimit → s.permits ≤ 10) ∧
    s.permits = s.tasks.countP (fun t => holds t.pc) ∧
    (∀ (i : Nat) (t : Task), s.tasks[i]? = some t →
      (holds t.pc = true ↔ count Action.isAcquire i tr = 1 ∧ count Action.isRelease i tr = 0)) ∧
    s.tasks.countP (fun t => decide (t.pc = PC.fetching)) ≤ env.workers ∧
    (∀ (i : Nat) (r : HttpReply) (s2 : State),
      step env s (Event.task i (Action.fetch r)) = some s2 →
      count Action.isAcquire i tr = 1 ∧ count Action.isRelease i tr = 0) ∧
    (∀ (i : Nat), count Action.isRelease i tr ≤ count Action.isAcquire i tr ∧
      count Action.isAcquire i tr ≤ 1) ∧
    (∀ (i : Nat) (t : Task) (e : Exit), s.tasks[i]? = some t → t.pc = PC.done e →
      count Action.isAcquire i tr = 1 ∧ count Action.isRelease i tr = 1) ∧
    (∀ (i : Nat) (t : Task), s.tasks[i]? = some t → holds t.pc = true →
      ∃ a s2, step env s (Event.task i a) = some s2) ∧
    (∀ (i : Nat) (t t2 : Task) (a : Action) (s2 : State), s.tasks[i]? = some t →
      step env s (Event.task i a) = some s2 → s2.tasks[i]? = some t2 →
      rank t.pc < rank t2.pc ∨ (rank t.pc = rank t2.pc ∧ loopSize t2.pc < loopSize t.pc)) := by
  have hI := reach_inv env tr s h
  have hcap := reach_cap env tr s h
  have hacq := history env Action.isAcquire didAcquire rfl loc_acquire tr s h
  have hrel := history env Action.isRelease didRelease rfl loc_release tr s h
  have hholds : ∀ (i : Nat) (t : Task), s.tasks[i]? = some t →
      (holds t.pc = true ↔ count Action.isAcquire i tr = 1 ∧ count Action.isRelease i tr = 0) := by
    intro i t ht
    rw [hacq i t ht, hrel i t ht, holds_iff]
    cases didAcquire t.pc <;> cases didRelease t.pc <;> simp [b2n]
  refine ⟨hcap, ?_, hI.permits, hholds, ?_, ?_, ?_, ?_, ?_, ?_⟩
  · intro hw
    rw [hw] at hcap
    exact hcap
  · refine le_trans ?_ hcap
    rw [hI.permits]
    apply List.countP_mono_left
    intro t _ ht
    have : t.pc = PC.fetching := by simpa using ht
    simp [this, holds]
  · intro i r s2 hs
    obtain ⟨t, o, ht, hT, _⟩ := (step_task_iff env s s2 i _).1 hs
    have hpc : t.pc = PC.fetching := by
      cases hT with
      | fetched _ _ hp _ _ => exact hp
      | fetchFailed _ hp _ => exact hp
    exact (hholds i t ht).1 (by simp [hpc, holds])
  · intro i
    cases hi : s.tasks[i]? with
    | none =>
      have habs : ∀ a, Event.task i a ∉ tr := by
        intro a ha
        have hlt := reach_events_exist env tr s h i a ha
        have := List.getElem?_eq_none_iff.1 hi
        omega
      rw [count_eq_zero_of_absent _ i tr habs, count_eq_zero_of_absent _ i tr habs]
      omega
    | some t =>
      rw [hacq i t hi, hrel i t hi]
      cases t.pc <;> simp [didAcquire, didRelease, b2n]
  · intro i t e ht hpc
    rw [hacq i t ht, hrel i t ht, hpc]
    simp [didAcquire, didRelease, b2n]
  · intro i t ht hh
    exact holder_enabled env s hI i t ht hh
  · intro i t t2 a s2 ht hs ht2
    obtain ⟨t1, o, ht1, hT, rfl⟩ := (step_task_iff env s s2 i a).1 hs
    rw [ht] at ht1
    cases ht1
    rcases (apply_tasks_get s i t o i t2 ht).1 ht2 with ⟨_, rfl⟩ | ⟨h2, _⟩ | ⟨h2, _⟩
    · exact trans_progress hT
    · exact absurd rfl h2
    · have := (List.getElem?_eq_some_iff.1 ht).1
      omega

/-- C8 at two concrete runs.  While the seed goroutine of `busyTrace` sleeps
before spawning, one permit is out, held by it.  In `capTrace`, with a pool of
capacity 2, two children are inside `GetHTML`, both permits are out, and the
third child cannot acquire. -/
theorem C8_witness :
    Reach demoEnv busyTrace busyState ∧ busyState.permits ≤ 10 ∧
    (holds (PC.sleeping "https://a.test/x/1" []) = true ↔
      count Action.isAcquire 0 busyTrace = 1 ∧ count Action.isRelease 0 busyTrace = 0) ∧
    Reach twoEnv capTrace capState ∧ capState.permits = 2 ∧
    capState.tasks.countP (fun t => decide (t.pc = PC.fetching)) ≤ twoEnv.workers ∧
    step twoEnv capState (Event.task 3 Action.acquire) = none :=
  have hr : Reach demoEnv busyTrace busyState := by
    show run demoEnv (init demoEnv) busyTrace = some busyState
    rfl
  have hr2 : Reach twoEnv capTrace capState := by
    show run twoEnv (init twoEnv) capTrace = some capState
    rfl
  have h := C8_concurrency_cap demoEnv busyTrace busyState hr
  have h2 := C8_concurrency_cap twoEnv capTrace capState hr2
  ⟨hr, h.2.1 rfl, h.2.2.2.1 0 _ rfl, hr2, rfl, h2.2.2.2.2.1, by decide⟩

/-- C9 as stated fails: in the run `busyTrace` the seed goroutine has parsed
its page, written its record and its newline, tested a link and is sleeping
before spawning the child, and it has not released its permit: no release is
in the schedule, the permit is still out, and the release is not even enabled. -/
theorem C9_counterexample_permit_still_held :
    Reach demoEnv busyTrace busyState ∧
    Event.task 0 (Action.parse (some { htmlText := "<seed>", hrefs := ["https://a.test/x/1"] }))
      ∈ busyTrace ∧
    Event.task 0 (Action.writeJSON true) ∈ busyTrace ∧
    Event.task 0 Action.link ∈ busyTrace ∧
    Event.task 0 Action.release ∉ busyTrace ∧
    busyState.permits = 1 ∧
    busyState.tasks = [{ url := "https://a.test/x", depth := 0,
                         pc := PC.sleeping "https://a.test/x/1" [] }] ∧
    step demoEnv busyState (Event.task 0 Action.release) = none := by
  refine ⟨?_, by decide, by decide, by decide, by decide, rfl, rfl, by decide⟩
  show run demoEnv (init demoEnv) busyTrace = some busyState
  rfl

/-- C9 (permit), as amended: a goroutine gives its permit back only when it
has left the body of `Crawl`.  In every reachable state, a release is in a
goroutine's schedule exactly when it is past the deferred receive; its release
is enabled only after a `return`; and every other action it can do except the
acquire and the final `wg.Done()` (the depth test, the claim, the fetch, the
parse, both writes, the link test, the spawn after the sleep, the end of the
loop) is done holding the permit, with no release before it. -/
theorem C9_permit_held_until_return {U : Type} (env : Env U) (tr : List Event) (s : State)
    (h : Reach env tr s) (i : Nat) (t : Task) (ht : s.tasks[i]? = some t) :
    (Event.task i Action.release ∈ tr ↔ didRelease t.pc = true) ∧
    (didRelease t.pc = true ↔ ∃ e, t.pc = PC.released e ∨ t.pc = PC.done e) ∧
    (∀ s2, step env s (Event.task i Action.release) = some s2 → ∃ e, t.pc = PC.returning e) ∧
    (∀ (a : Action) (s2 : State), step env s (Event.task i a) = some s2 →
      a ≠ Action.acquire → a ≠ Action.release → a ≠ Action.wgDone →
      holds t.pc = true ∧ Event.task i Action.release ∉ tr ∧
        ∃ t2, s2.tasks[i]? = some t2 ∧ holds t2.pc = true) := by
  have hmem := history_mem env Action.isRelease didRelease rfl loc_release tr s h i t ht
  have hrelmem : Event.task i Action.release ∈ tr ↔ didRelease t.pc = true := by
    rw [hmem]
    constructor
    · intro hm
      exact ⟨Action.release, rfl, hm⟩
    · rintro ⟨a, ha, hm⟩
      cases a <;> simp [Action.isRelease] at ha
      exact hm
  refine ⟨hrelmem, ?_, ?_, ?_⟩
  · cases t.pc <;> simp [didRelease]
  · intro s2 hs
    obtain ⟨t1, o, ht1, hT, _⟩ := (step_task_iff env s s2 i _).1 hs
    rw [ht] at ht1
    cases ht1
    cases hT with
    | release e hp _ => exact ⟨e, hp⟩
  · intro a s2 hs h1 h2 h3
    obtain ⟨t1, o, ht1, hT, rfl⟩ := (step_task_iff env s s2 i a).1 hs
    rw [ht] at ht1
    cases ht1
    have hboth : holds t.pc = true ∧ holds o.pc = true := by
      cases hT <;> simp_all [goto, holds]
    refine ⟨hboth.1, ?_, { t with pc := o.pc },
      (apply_tasks_get s i t o i _ ht).2 (Or.inl ⟨rfl, rfl⟩), hboth.2⟩
    intro hm
    have := (holds_iff t.pc).1 hboth.1
    rw [hrelmem.1 hm] at this
    exact absurd this.2 (by simp)

/-- C9 at a concrete run: the sleeping seed goroutine of `busyTrace` spawns its
child while it holds the permit. -/
theorem C9_witness :
    busyState.tasks[0]? = some { url := "https://a.test/x", depth := 0,
                                 pc := PC.sleeping "https://a.test/x/1" [] } ∧
    (Event.task 0 Action.release ∈ busyTrace ↔
      didRelease (PC.sleeping "https://a.test/x/1" []) = true) ∧
    (∀ (a : Action) (s2 : State), step demoEnv busyState (Event.task 0 a) = some s2 →
      a ≠ Action.acquire → a ≠ Action.release → a ≠ Action.wgDone →
      holds (PC.sleeping "https://a.test/x/1" []) = true ∧
        Event.task 0 Action.release ∉ busyTrace ∧
        ∃ t2, s2.tasks[0]? = some t2 ∧ holds t2.pc = true) :=
  have hr : Reach demoEnv busyTrace busyState := by
    show run demoEnv (init demoEnv) busyTrace = some busyState
    rfl
  have h := C9_permit_held_until_return demoEnv busyTrace busyState hr 0
    { url := "https://a.test/x", depth := 0, pc := PC.sleeping "https://a.test/x/1" [] } rfl
  ⟨rfl, h.1, h.2.2.2⟩

/-- C10 (line integrity under concurrent writers) fails on the code.  A call
of `addJSONL` that runs alone appends the record followed by its newline.  But
in the run `raceTrace` two goroutines are inside `addJSONL` at the same time,
each of the four writes is atomic, and the file ends as record, newline,
record, record, newline, newline: the second record is not followed by its
newline.  The same crawl scheduled one goroutine after the other (`demoTrace`)
gives a well-formed file. -/
theorem C10_interleaved_appends :
    (∀ (U : Type) (env : Env U) (s : State) (i : Nat) (t : Task) (htmlText : String)
        (hrefs : List String),
      s.tasks[i]? = some t → t.pc = PC.writing htmlText hrefs →
      (run env s [Event.task i (Action.writeJSON true),
          Event.task i (Action.writeNewline true)]).map State.file =
        some (s.file ++ [Chunk.json { url := t.url, html := htmlText }, Chunk.newline]) ∧
      (addJSONL { url := t.url, html := htmlText } s.file true true).1 =
        s.file ++ [Chunk.json { url := t.url, html := htmlText }, Chunk.newline]) ∧
    Reach demoEnv raceTrace raceState ∧
    raceState.file =
      [Chunk.json { url := "https://a.test/x", html := "<seed>" }, Chunk.newline,
       Chunk.json { url := "https://a.test/x/1", html := "<one>" },
       Chunk.json { url := "https://a.test/x/2", html := "<two>" },
       Chunk.newline, Chunk.newline] ∧
    wellFormed raceState.file = false ∧
    wellFormed demoFinal.file = true := by
  refine ⟨?_, ?_, rfl, by decide, by decide⟩
  · intro U env s i t htmlText hrefs ht hpc
    have hlt : i < s.tasks.length := (List.getElem?_eq_some_iff.1 ht).1
    constructor
    · simp [run, step, ht, Crawl, hpc, apply, goto, List.getElem?_set, hlt]
    · simp [addJSONL]
  · show run demoEnv (init demoEnv) raceTrace = some raceState
    rfl

end Crawler
